import Mathlib

/-!
# shop-server: legacy image migration script

A shallow embedding of `scripts/migrate-legacy-images-to-oss.js`.

* JavaScript strings are lists of characters (`Str`); every pattern of the script is
  ASCII, so matching on characters and matching on UTF-16 code units agree on
  well-formed strings.
* Regular expressions are kept as syntax trees (`Re`) and run by a small backtracking
  matcher (`Re.run`) that follows the ECMAScript rules for the constructs the script
  uses: literals (with the `i` flag), character classes, sequence, alternation,
  greedy `?`, greedy `+` over a class, `$` and a capture group.
* `Map` objects are insertion-ordered association lists.
* The network, the object store and the SQL connection are parameters (`World`).
-/

namespace ShopServer

/-! ## Strings and values -/

/-- A JavaScript string as its sequence of characters. -/
abbrev Str := List Char

/-- The JavaScript values a row can hold. -/
inductive JsVal
  | undefined
  | null
  | num (n : Int)
  | str (s : Str)
deriving DecidableEq, Repr

/-- ECMAScript `WhiteSpace` and `LineTerminator` code points: what `\s` matches and what
`String.prototype.trim` strips. -/
def isJsSpace (c : Char) : Bool :=
  let n := c.toNat
  n == 0x09 || n == 0x0A || n == 0x0B || n == 0x0C || n == 0x0D || n == 0x20 ||
  n == 0xA0 || n == 0x1680 || (0x2000 ≤ n && n ≤ 0x200A) || n == 0x2028 || n == 0x2029 ||
  n == 0x202F || n == 0x205F || n == 0x3000 || n == 0xFEFF

/-- The method `String.prototype.trim`. -/
def jsTrim (s : Str) : Str :=
  (s.dropWhile isJsSpace).rdropWhile isJsSpace

/-- The method `String.prototype.startsWith`. -/
def jsStartsWith (s pat : Str) : Bool :=
  pat.isPrefixOf s

/-- The method `String.prototype.includes`: some suffix of `s` starts with `pat`. -/
def jsIncludes : Str → Str → Bool
  | [], pat => pat.isPrefixOf []
  | c :: cs, pat => pat.isPrefixOf (c :: cs) || jsIncludes cs pat

/-- Lower-casing of one character of the Latin-1 range: `A`-`Z` and the accented capitals
`U+00C0`-`U+00DE` (the multiplication sign `U+00D7` apart) move up by 32. -/
def jsLowerChar (c : Char) : Char :=
  let n := c.toNat
  if (0x41 ≤ n ∧ n ≤ 0x5A) ∨ (0xC0 ≤ n ∧ n ≤ 0xDE ∧ n ≠ 0xD7) then Char.ofNat (n + 32) else c

/-- The method `String.prototype.toLowerCase`, on the strings it is applied to: the
capture of `[a-zA-Z0-9]+` and a header value (which Node decodes as Latin-1). -/
def jsToLowerCase (s : Str) : Str :=
  s.map jsLowerChar

/-- The method `String.prototype.split` with a non-empty separator: the pieces between
the successive non-overlapping occurrences of `sep`, found left to right. `skip` counts
the characters of an occurrence still to be passed over, `cur` is the piece being read. -/
def jsSplitGo (sep : Str) : Nat → Str → Str → List Str
  | _, cur, [] => [cur.reverse]
  | skip + 1, cur, _ :: cs => jsSplitGo sep skip cur cs
  | 0, cur, c :: cs =>
    if sep.isPrefixOf (c :: cs) then cur.reverse :: jsSplitGo sep (sep.length - 1) [] cs
    else jsSplitGo sep 0 (c :: cur) cs

/-- The method `String.prototype.split`; an empty separator splits into characters. -/
def jsSplit (s sep : Str) : List Str :=
  if sep.isEmpty then s.map (fun c => [c]) else jsSplitGo sep 0 [] s

/-- The method `Array.prototype.join`. -/
def jsJoin (parts : List Str) (glue : Str) : Str :=
  glue.intercalate parts

/-- The method `Map.prototype.set`: overwrite in place, or append a new entry. -/
def mapSet {κ : Type} [DecidableEq κ] : List (κ × Str) → κ → Str → List (κ × Str)
  | [], k, v => [(k, v)]
  | (k0, v0) :: m, k, v => if k0 = k then (k0, v) :: m else (k0, v0) :: mapSet m k v

/-- The method `Map.prototype.get` (`none` for `undefined`); `Map.prototype.has` is
`isSome` of it. -/
def mapGet {κ : Type} [DecidableEq κ] : List (κ × Str) → κ → Option Str
  | [], _ => none
  | (k0, v0) :: m, k => if k0 = k then some v0 else mapGet m k

/-! ## Regular expressions -/

/-- Syntax of the regular expressions used by the script. -/
inductive Re
  | chr (c : Char)
  | cls (p : Char → Bool)
  | eps
  | seq (a b : Re)
  | alt (a b : Re)
  | opt (a : Re)
  | plusCls (p : Char → Bool)
  | eos
  | cap (a : Re)

/-- Character comparison of a pattern character against an input character. With the
`i` flag (and no `u` flag) both are canonicalised by upper-casing; a non-ASCII input
character is never canonicalised to an ASCII one, so for the ASCII patterns of the script
this is upper-casing of `a`-`z`. -/
def Re.chrEq (ci : Bool) (pat c : Char) : Bool :=
  if ci then pat.toUpper == c.toUpper else pat == c

/-- Greedy `+` over a character class with backtracking: take one more character when
possible, and only when the rest of the pattern fails that way stop here. -/
def Re.plusLoop {α : Type} (p : Char → Bool) : Str → (Str → Option α) → Option α
  | [], _ => none
  | c :: cs, k => if p c then (Re.plusLoop p cs k).orElse (fun _ => k cs) else none

/-- Backtracking matcher: `Re.run ci r s caps k` matches `r` at the head of `s` and hands
the rest of the input and the captures to the continuation `k`. -/
def Re.run (ci : Bool) : Re → Str → List Str →
    (Str → List Str → Option (Str × List Str)) → Option (Str × List Str)
  | .chr c, s, caps, k =>
    match s with
    | [] => none
    | x :: xs => if Re.chrEq ci c x then k xs caps else none
  | .cls p, s, caps, k =>
    match s with
    | [] => none
    | x :: xs => if p x then k xs caps else none
  | .eps, s, caps, k => k s caps
  | .seq a b, s, caps, k => Re.run ci a s caps (fun s1 c1 => Re.run ci b s1 c1 k)
  | .alt a b, s, caps, k => (Re.run ci a s caps k).orElse (fun _ => Re.run ci b s caps k)
  | .opt a, s, caps, k => (Re.run ci a s caps k).orElse (fun _ => k s caps)
  | .plusCls p, s, caps, k => Re.plusLoop p s (fun s1 => k s1 caps)
  | .eos, s, caps, k => if s.isEmpty then k s caps else none
  | .cap a, s, caps, k =>
    Re.run ci a s caps (fun s1 c1 => k s1 (c1 ++ [s.take (s.length - s1.length)]))

/-- A literal string as a pattern. -/
def Re.lit (s : Str) : Re :=
  s.foldr (fun c r => Re.seq (Re.chr c) r) Re.eps

/-- One attempt at the head of `s`: the matched text, the rest and the captures. -/
def Re.matchHere (ci : Bool) (r : Re) (s : Str) : Option (Str × Str × List Str) :=
  (Re.run ci r s [] (fun rest caps => some (rest, caps))).map
    (fun rc => (s.take (s.length - rc.1.length), rc.1, rc.2))

/-- Leftmost match: attempts at index 0, 1, ... up to the end of the input. -/
def Re.exec (ci : Bool) (r : Re) : Str → Option (Str × Str × List Str)
  | [] => Re.matchHere ci r []
  | c :: cs => (Re.matchHere ci r (c :: cs)).orElse (fun _ => Re.exec ci r cs)

/-- The call `re.test(s)` for an unanchored pattern. -/
def Re.test (ci : Bool) (r : Re) (s : Str) : Bool :=
  (Re.exec ci r s).isSome

/-- The call `re.test(s)` for a pattern that starts with `^` (no `m` flag): the only
attempt is at index 0. -/
def Re.testAnchored (ci : Bool) (r : Re) (s : Str) : Bool :=
  (Re.matchHere ci r s).isSome

/-- The loop of `String.prototype.match` with the `g` flag: leftmost match from the
current index, then again from the end of that match. The patterns of the script match
no empty string, so every round consumes input and `fuel = length + 1` rounds suffice. -/
def Re.matchAllFuel (ci : Bool) (r : Re) : Nat → Str → List Str
  | 0, _ => []
  | fuel + 1, s =>
    match Re.exec ci r s with
    | none => []
    | some (m, rest, _) => m :: Re.matchAllFuel ci r fuel rest

/-- The call `s.match(re) || []` for a pattern with the `g` flag. -/
def Re.matchAll (ci : Bool) (r : Re) (s : Str) : List Str :=
  Re.matchAllFuel ci r (s.length + 1) s

/-! ## Configuration and collaborators -/

/-- A JavaScript number as `Number(text) || 0` gives it: a finite number, written
`num / (denPred + 1)` (every finite double is such a fraction), or an infinity; `NaN` has
been replaced by `0`. -/
inductive JsNumber
  | frac (num : Int) (denPred : Nat)
  | posInf
  | negInf
deriving DecidableEq

/-- A whole number as a JavaScript number. -/
instance (n : Nat) : OfNat JsNumber n :=
  ⟨.frac n 0⟩

/-- The comparison `x > 0`. -/
def JsNumber.gtZero : JsNumber → Bool
  | .frac num _ => decide (0 < num)
  | .posInf => true
  | .negInf => false

/-- The comparison `n >= x` of a counter `n` with the number `x`. -/
def JsNumber.leNat : JsNumber → Nat → Bool
  | .frac num denPred, n => decide (num ≤ (n : Int) * ((denPred : Int) + 1))
  | .posInf, _ => false
  | .negInf, _ => true

/-- The test `LIMIT > 0 && updatedRows >= LIMIT` of `run`. -/
def limitReached (LIMIT : JsNumber) (updatedRows : Nat) : Bool :=
  LIMIT.gtZero && LIMIT.leNat updatedRows

/-- The command line and configuration constants of the script. `LIMIT` is
`Number(getArg('--limit', '0')) || 0`, whole or not; `ossDomain` is the configured domain
with trailing slashes removed. -/
structure Config where
  DRY_RUN : Bool
  LIMIT : JsNumber
  ONLY_TABLES : List Str
  ossDomain : Str
  dbPrefix : Str

/-- What the callback of `request.get` receives. -/
inductive HttpResult
  | err (message : Str)
  | noResponse
  | response (statusCode : Nat) (contentTypeHeader : Option Str) (body : Str)

/-- A row returned by `SELECT`: column name and value. -/
abbrev Row := List (Str × JsVal)

/-- The collaborators of the script during one run: the HTTP client, the object store,
the SQL connection, the MD5 digest and the clock. `completion` is the order in which the
worker pool of an HTML field finishes the URLs of its queue in this run (the queue order
itself when `CONCURRENCY` is 1); it depends on timing, so two runs, and the two modes, have
each their own world. -/
structure World where
  request : Str → HttpResult
  put : Str → Str → Str → Except Str Unit
  select : Str → Except Str (List Row)
  update : Str → List JsVal → Except Str Unit
  md5hex : Str → Str
  isoDate : Str
  completion : List Str → List Str

/-- One entry of the constant `TABLES`. -/
structure TableCfg where
  table : Str
  pk : Str
  fields : List Str

/-- The constant `TABLES`. -/
def TABLES : List TableCfg :=
  [ ⟨"ad".toList, "id".toList, ["image_url".toList]⟩,
    ⟨"category".toList, "id".toList, ["icon_url".toList, "img_url".toList]⟩,
    ⟨"goods".toList, "id".toList,
      ["list_pic_url".toList, "https_pic_url".toList, "goods_desc".toList]⟩,
    ⟨"goods_gallery".toList, "id".toList, ["img_url".toList]⟩,
    ⟨"cart".toList, "id".toList, ["list_pic_url".toList]⟩,
    ⟨"order_goods".toList, "id".toList, ["list_pic_url".toList]⟩,
    ⟨"user".toList, "id".toList, ["avatar".toList]⟩ ]

/-- Names of the properties every object literal inherits from `Object.prototype`. -/
def objectPrototypeFunctions : List Str :=
  [ "constructor".toList, "__defineGetter__".toList, "__defineSetter__".toList,
    "hasOwnProperty".toList, "__lookupGetter__".toList, "__lookupSetter__".toList,
    "isPrototypeOf".toList, "propertyIsEnumerable".toList, "toString".toList,
    "valueOf".toList, "toLocaleString".toList ]

/-- The property read `contentTypeToExt[contentType]`, as the text the value has in the
template literal of the key; `none` when the read gives `undefined`. The table is an
object literal, so besides its six own properties the read finds what the object inherits
from `Object.prototype`: the built-in functions (the constructor is `Object`, printed
with its source text) and `__proto__` (the prototype object). All of these are truthy. -/
def contentTypeToExt (contentType : Str) : Option Str :=
  if contentType = "image/jpeg".toList then some ".jpg".toList
  else if contentType = "image/png".toList then some ".png".toList
  else if contentType = "image/gif".toList then some ".gif".toList
  else if contentType = "image/webp".toList then some ".webp".toList
  else if contentType = "image/bmp".toList then some ".bmp".toList
  else if contentType = "image/svg+xml".toList then some ".svg".toList
  else if contentType = "constructor".toList then
    some "function Object() \x7b [native code] \x7d".toList
  else if contentType ∈ objectPrototypeFunctions then
    some ("function ".toList ++ contentType ++ "() \x7b [native code] \x7d".toList)
  else if contentType = "__proto__".toList then some "[object Object]".toList
  else none

/-! ## The patterns of the script -/

/-- The class `[^"'<>\s)]`. -/
def isUrlTokenChar (c : Char) : Bool :=
  !(c == Char.ofNat 34 || c == Char.ofNat 39 || c == '<' || c == '>' || isJsSpace c ||
    c == ')')

/-- The class `[a-zA-Z0-9]`. -/
def isAsciiAlnum (c : Char) : Bool :=
  c.isAlphanum

/-- Pattern `https?:\/\/`, the body of `/^https?:\/\//i`. -/
def reScheme : Re :=
  .seq (Re.lit "http".toList) (.seq (.opt (.chr 's')) (Re.lit "://".toList))

/-- Pattern `http:\/\/`, the body of `/^http:\/\//i`. -/
def reHttp : Re :=
  Re.lit "http://".toList

/-- Body of `/^https?:\/\/(127\.0\.0\.1|localhost)/i`. -/
def reLoopback : Re :=
  .seq reScheme (.alt (Re.lit "127.0.0.1".toList) (Re.lit "localhost".toList))

/-- Pattern `/yanxuan\.nosdn\.127\.net|nos\.netease\.com/i`. -/
def reLegacyHost : Re :=
  .alt (Re.lit "yanxuan.nosdn.127.net".toList) (Re.lit "nos.netease.com".toList)

/-- Pattern `/\.(jpg|jpeg|png|gif|webp|bmp|svg)(\?|#|$)/i`. -/
def reImageExt : Re :=
  .seq (.chr '.')
    (.seq
      (.alt (Re.lit "jpg".toList) (.alt (Re.lit "jpeg".toList) (.alt (Re.lit "png".toList)
        (.alt (Re.lit "gif".toList) (.alt (Re.lit "webp".toList)
          (.alt (Re.lit "bmp".toList) (Re.lit "svg".toList)))))))
      (.alt (.chr '?') (.alt (.chr '#') .eos)))

/-- Pattern `/https?:\/\/[^"'<>\s)]+/gi`. -/
def reUrlToken : Re :=
  .seq reScheme (.plusCls isUrlTokenChar)

/-- Pattern `/\.([a-zA-Z0-9]+)(?:\?|#|$)/`. -/
def reUrlExt : Re :=
  .seq (.chr '.') (.seq (.cap (.plusCls isAsciiAlnum)) (.alt (.chr '?') (.alt (.chr '#') .eos)))

/-! ## Classification and extraction -/

/-- Source function `shouldMigrateUrl`. -/
def shouldMigrateUrl (cfg : Config) (rawUrl : JsVal) : Bool :=
  match rawUrl with
  | .str raw =>
    if raw.isEmpty then false
    else
      let url := jsTrim raw
      if !Re.testAnchored true reScheme url then false
      else if !cfg.ossDomain.isEmpty && jsStartsWith url cfg.ossDomain then false
      else if Re.testAnchored true reLoopback url then false
      else if jsIncludes url ".aliyuncs.com/".toList then false
      else
        let isLegacyHost := Re.test true reLegacyHost url
        if Re.testAnchored true reHttp url then true
        else if isLegacyHost then true
        else false
  | _ => false

/-- Source function `isLikelyImageUrl`, on a string. -/
def isLikelyImageUrl (url : Str) : Bool :=
  if url.isEmpty then false
  else if Re.test true reImageExt url then true
  else Re.test true reLegacyHost url

/-- The expression `[...new Set(xs)]`: every element once, at its first occurrence. -/
def jsSetToArray : List Str → List Str
  | [] => []
  | x :: xs => x :: (jsSetToArray xs).filter (fun y => y ≠ x)

/-- Source function `extractUrlsFromHtml`. -/
def extractUrlsFromHtml (html : JsVal) : List Str :=
  match html with
  | .str h => if h.isEmpty then [] else jsSetToArray (Re.matchAll true reUrlToken h)
  | _ => []

/-- Source function `inferExtByUrl`. -/
def inferExtByUrl (url : Str) : Str :=
  match Re.exec false reUrlExt url with
  | none => []
  | some (_, _, caps) =>
    let ext := '.' :: jsToLowerCase (caps.headD [])
    if ext ∈ [".jpg".toList, ".jpeg".toList, ".png".toList, ".gif".toList, ".webp".toList,
        ".bmp".toList, ".svg".toList] then ext
    else []

/-! ## The resolver and the field migrators -/

/-- The module-level maps `urlCache` and `failedUrls`, with the trace of the effects
performed so far: the URLs handed to `request.get`, the keys handed to `client.put`, and
the keys used in a `has`, `get` or `set` on either map. -/
structure Cache where
  urlCache : List (Str × Str)
  failedUrls : List (JsVal × Str)
  fetched : List Str
  uploaded : List Str
  touched : List JsVal
deriving DecidableEq

/-- The state at module load: both maps empty, nothing done. -/
def Cache.init : Cache :=
  ⟨[], [], [], [], []⟩

/-- Source function `downloadImage`: the rejection message, or the body with the
normalised content type. -/
def downloadImage (W : World) (url : Str) : Except Str (Str × Str) :=
  match W.request url with
  | .err message => .error message
  | .noResponse => .error "download_failed_status_unknown".toList
  | .response statusCode header body =>
    if statusCode ≠ 200 then
      .error ("download_failed_status_".toList ++ (Nat.repr statusCode).toList)
    else
      .ok (body, jsToLowerCase (jsTrim ((header.getD []).takeWhile (fun c => c != ';'))))

/-- The extension chosen in `uploadToOssByUrl`:
`contentTypeToExt[contentType] || '' || inferExtByUrl(sourceUrl) || '.jpg'`. -/
def chooseExt (sourceUrl contentType : Str) : Str :=
  let extFromType := (contentTypeToExt contentType).getD []
  let extFromUrl := inferExtByUrl sourceUrl
  if !extFromType.isEmpty then extFromType
  else if !extFromUrl.isEmpty then extFromUrl
  else ".jpg".toList

/-- The key built in `uploadToOssByUrl`. -/
def ossKey (W : World) (sourceUrl contentType : Str) : Str :=
  "legacy-migration/".toList ++ W.isoDate ++ "/".toList ++ W.md5hex sourceUrl ++
    chooseExt sourceUrl contentType

/-- The header `'Content-Type': contentType || 'application/octet-stream'` of the put. -/
def putContentType (contentType : Str) : Str :=
  if contentType.isEmpty then "application/octet-stream".toList else contentType

/-- Source function `uploadToOssByUrl`: the new state and either the migrated URL or the
thrown error. -/
def uploadToOssByUrl (cfg : Config) (W : World) (st : Cache) (sourceUrl : Str) :
    Cache × Except Str Str :=
  let st := { st with touched := st.touched ++ [.str sourceUrl] }
  match mapGet st.urlCache sourceUrl with
  | some migratedUrl => (st, .ok migratedUrl)
  | none =>
    let st := { st with touched := st.touched ++ [.str sourceUrl] }
    match mapGet st.failedUrls (.str sourceUrl) with
    | some e => (st, .error e)
    | none =>
      let st := { st with fetched := st.fetched ++ [sourceUrl] }
      match downloadImage W sourceUrl with
      | .error e => (st, .error e)
      | .ok (body, contentType) =>
        let key := ossKey W sourceUrl contentType
        let migratedUrl := cfg.ossDomain ++ "/".toList ++ key
        let done (st : Cache) : Cache × Except Str Str :=
          ({ st with urlCache := mapSet st.urlCache sourceUrl migratedUrl,
                     touched := st.touched ++ [.str sourceUrl] }, .ok migratedUrl)
        if !cfg.DRY_RUN then
          let st := { st with uploaded := st.uploaded ++ [key] }
          match W.put key body (putContentType contentType) with
          | .error e => (st, .error e)
          | .ok _ => done st
        else done st

/-- Source function `migrateTextField`: the new state and either `(changed, nextValue)`
or the thrown error. -/
def migrateTextField (cfg : Config) (W : World) (st : Cache) (value : JsVal) :
    Cache × Except Str (Bool × JsVal) :=
  match value with
  | .str v =>
    if v.isEmpty then (st, .ok (false, value))
    else if shouldMigrateUrl cfg value && isLikelyImageUrl v then
      match uploadToOssByUrl cfg W st v with
      | (st1, .error e) => (st1, .error e)
      | (st1, .ok migratedUrl) => (st1, .ok (decide (migratedUrl ≠ v), .str migratedUrl))
    else (st, .ok (false, value))
  | _ => (st, .ok (false, value))

/-- One turn of a worker of `migrateHtmlField`: resolve `url`, record the result in
`replacements` or the failure in `failedUrls`. -/
def htmlWorkerStep (cfg : Config) (W : World) (acc : Cache × List (Str × Str)) (url : Str) :
    Cache × List (Str × Str) :=
  match uploadToOssByUrl cfg W acc.1 url with
  | (st1, .ok migratedUrl) => (st1, mapSet acc.2 url migratedUrl)
  | (st1, .error e) =>
    ({ st1 with failedUrls := mapSet st1.failedUrls (.str url) e,
                touched := st1.touched ++ [.str url] }, acc.2)

/-- The substitution loop of `migrateHtmlField` over `replacements.entries()`. -/
def applyReplacements : List (Str × Str) → Bool × Str → Bool × Str
  | [], acc => acc
  | (url, migratedUrl) :: rest, acc =>
    if migratedUrl ≠ url then
      applyReplacements rest (true, jsJoin (jsSplit acc.2 url) migratedUrl)
    else applyReplacements rest acc

/-- Source function `migrateHtmlField`, for `CONCURRENCY` at least 1. The URLs of one
field are distinct and fields are processed one after the other, so no URL is in flight
twice and the worker pool is the list of its resolutions in completion order
(`W.completion`). -/
def migrateHtmlField (cfg : Config) (W : World) (st : Cache) (html : JsVal) :
    Cache × (Bool × JsVal) :=
  match html with
  | .str h =>
    if h.isEmpty then (st, (false, html))
    else
      let urls := (extractUrlsFromHtml html).filter
        (fun url => shouldMigrateUrl cfg (.str url) && isLikelyImageUrl url)
      if urls.isEmpty then (st, (false, html))
      else
        let r := (W.completion urls).foldl (htmlWorkerStep cfg W) (st, [])
        let out := applyReplacements r.2 (false, h)
        (r.1, (out.1, .str out.2))
  | _ => (st, (false, html))

/-! ## The orchestrator -/

/-- The variables of `run`: the caches, the three counters, and the trace of the
`UPDATE` statements sent to the connection. -/
structure RunState where
  cache : Cache
  scannedRows : Nat
  updatedRows : Nat
  migratedFieldCount : Nat
  sqlLog : List (Str × List JsVal)
deriving DecidableEq

/-- The property read `row[field]`. -/
def rowGet : Row → Str → JsVal
  | [], _ => .undefined
  | (k, v) :: r, f => if k = f then v else rowGet r f

/-- The assignment `updates[field] = v` on the object `updates`. -/
def objSet : List (Str × JsVal) → Str → JsVal → List (Str × JsVal)
  | [], k, v => [(k, v)]
  | (k0, v0) :: m, k, v => if k0 = k then (k0, v) :: m else (k0, v0) :: objSet m k v

/-- Body of the loop `for (const field of cfg.fields)` of `run`. -/
def processField (cfg : Config) (W : World) (row : Row)
    (acc : RunState × List (Str × JsVal)) (field : Str) : RunState × List (Str × JsVal) :=
  let value := rowGet row field
  if field = "goods_desc".toList then
    match migrateHtmlField cfg W acc.1.cache value with
    | (c1, (changed, nextValue)) =>
      if changed then
        ({ acc.1 with cache := c1, migratedFieldCount := acc.1.migratedFieldCount + 1 },
          objSet acc.2 field nextValue)
      else ({ acc.1 with cache := c1 }, acc.2)
  else
    match migrateTextField cfg W acc.1.cache value with
    | (c1, .ok (changed, nextValue)) =>
      if changed then
        ({ acc.1 with cache := c1, migratedFieldCount := acc.1.migratedFieldCount + 1 },
          objSet acc.2 field nextValue)
      else ({ acc.1 with cache := c1 }, acc.2)
    | (c1, .error e) =>
      ({ acc.1 with cache := { c1 with failedUrls := mapSet c1.failedUrls value e,
                                       touched := c1.touched ++ [value] } }, acc.2)

/-- Text of the `UPDATE` statement of `run`. -/
def updateSql (tableName pk : Str) (setCols : List Str) : Str :=
  "UPDATE `".toList ++ tableName ++ "` SET ".toList ++
    jsJoin (setCols.map (fun col => "`".toList ++ col ++ "` = ?".toList)) ", ".toList ++
    " WHERE `".toList ++ pk ++ "` = ?".toList

/-- End of the body of the loop over the rows, after the loop over the fields and up to
the `LIMIT` test: write the row when some field changed. An `UPDATE` that fails throws out
of `run`. -/
def finishRow (cfg : Config) (W : World) (t : TableCfg) (tableName : Str) (row : Row)
    (r : RunState × List (Str × JsVal)) : Except Str RunState :=
  let s := r.1
  let setCols := r.2.map Prod.fst
  if setCols.length > 0 then
    let s := { s with updatedRows := s.updatedRows + 1 }
    if !cfg.DRY_RUN then
      let sql := updateSql tableName t.pk setCols
      let params := r.2.map Prod.snd ++ [rowGet row t.pk]
      match W.update sql params with
      | .error e => .error e
      | .ok _ => .ok { s with sqlLog := s.sqlLog ++ [(sql, params)] }
    else .ok s
  else .ok s

/-- Body of the loop over the rows of a table, up to the `LIMIT` test: count the row,
migrate its fields, and write the row when some field changed. -/
def processRow (cfg : Config) (W : World) (t : TableCfg) (tableName : Str) (s : RunState)
    (row : Row) : Except Str RunState :=
  finishRow cfg W t tableName row
    (t.fields.foldl (processField cfg W row) ({ s with scannedRows := s.scannedRows + 1 }, []))

/-- The loop `for (let idx = 0; idx < rows.length; idx++)` of `run`, with its `break`. -/
def rowLoop (cfg : Config) (W : World) (t : TableCfg) (tableName : Str) :
    List Row → RunState → Except Str RunState
  | [], s => .ok s
  | row :: rows, s =>
    match processRow cfg W t tableName s row with
    | .error e => .error e
    | .ok s1 =>
      if limitReached cfg.LIMIT s1.updatedRows then .ok s1
      else rowLoop cfg W t tableName rows s1

/-- Text of the `SELECT` statement of `run`. -/
def selectSql (t : TableCfg) (tableName : Str) : Str :=
  "SELECT ".toList ++ jsJoin (t.pk :: t.fields) ", ".toList ++ " FROM `".toList ++
    tableName ++ "`".toList

/-- The loop `for (const cfg of TABLES)` of `run`, with its `continue` and `break`. -/
def tableLoop (cfg : Config) (W : World) : List TableCfg → RunState → Except Str RunState
  | [], s => .ok s
  | t :: ts, s =>
    if !cfg.ONLY_TABLES.isEmpty && !cfg.ONLY_TABLES.contains t.table then
      tableLoop cfg W ts s
    else
      let tableName := cfg.dbPrefix ++ t.table
      match W.select (selectSql t tableName) with
      | .error e => .error e
      | .ok rows =>
        match rowLoop cfg W t tableName rows s with
        | .error e => .error e
        | .ok s1 =>
          if limitReached cfg.LIMIT s1.updatedRows then .ok s1
          else tableLoop cfg W ts s1

/-- Source function `run`: the final variables, or the error it rejects with. -/
def run (cfg : Config) (W : World) : Except Str RunState :=
  tableLoop cfg W TABLES ⟨Cache.init, 0, 0, 0, []⟩

/-! ## Predicates used to state the properties -/

/-- Test that `p` is a prefix of `s` under the character comparison of the matcher
(`ci = true`: up to the case of ASCII letters). -/
def ciPrefixB (ci : Bool) : Str → Str → Bool
  | [], _ => true
  | _ :: _, [] => false
  | a :: p, x :: s => Re.chrEq ci a x && ciPrefixB ci p s

/-- Test that `p` occurs somewhere in `s` under the character comparison of the
matcher. -/
def ciIncludesB (ci : Bool) (p : Str) : Str → Bool
  | [] => ciPrefixB ci p []
  | c :: cs => ciPrefixB ci p (c :: cs) || ciIncludesB ci p cs

/-- The loop-back URLs: `http://` or `https://` followed by `127.0.0.1` or `localhost`, up
to the case of letters. -/
def isLoopbackUrl (url : Str) : Bool :=
  ciPrefixB true "https://127.0.0.1".toList url || ciPrefixB true "https://localhost".toList url ||
    ciPrefixB true "http://127.0.0.1".toList url || ciPrefixB true "http://localhost".toList url

/-- The legacy hosts: the text contains `yanxuan.nosdn.127.net` or `nos.netease.com`, up to
the case of letters. -/
def hasLegacyHost (url : Str) : Bool :=
  ciIncludesB true "yanxuan.nosdn.127.net".toList url ||
    ciIncludesB true "nos.netease.com".toList url

/-- The seven image extensions the key may end in. -/
def imageExts : List Str :=
  [".jpg".toList, ".jpeg".toList, ".png".toList, ".gif".toList, ".webp".toList,
    ".bmp".toList, ".svg".toList]

/-- A configuration for the examples: target domain `https://cdn.example.com`. -/
def exampleConfig (dryRun : Bool) (limit : Nat) : Config :=
  ⟨dryRun, .frac limit 0, [], "https://cdn.example.com".toList, "hiolabs_".toList⟩

/-- A world for the examples: `request` and `put` are given, every table is empty, every
`UPDATE` succeeds, the digest of `u` is written `md5(u)`, the date is 2026-01-01 and the
pool finishes its URLs in queue order. -/
def exampleWorld (request : Str → HttpResult) (put : Str → Str → Str → Except Str Unit)
    (select : Str → Except Str (List Row)) : World where
  request := request
  put := put
  select := select
  update := fun _ _ => .ok ()
  md5hex := fun u => "md5(".toList ++ u ++ ")".toList
  isoDate := "2026-01-01".toList
  completion := id

/-- The state `b` lies further along a scan than the state `a`: the trace of `UPDATE`
statements of `a` is an initial part of that of `b`, no update is undone, and at least as
many rows were scanned between the two as were updated between the two. -/
def isLater (a b : RunState) : Prop :=
  a.sqlLog <+: b.sqlLog ∧ a.updatedRows ≤ b.updatedRows ∧
    a.scannedRows + (b.updatedRows - a.updatedRows) ≤ b.scannedRows

/-- The trace of `UPDATE` statements agrees with the counter: empty in a dry run, one
statement per updated row otherwise. -/
def sqlLogOk (cfg : Config) (s : RunState) : Prop :=
  s.sqlLog.length = if cfg.DRY_RUN then 0 else s.updatedRows

/-- An example `SELECT`: the table `hiolabs_ad` holds `rows`, every other table is empty. -/
def exampleSelect (rows : List Row) (q : Str) : Except Str (List Row) :=
  if q = "SELECT id, image_url FROM `hiolabs_ad`".toList then .ok rows else .ok []

/-- Two rows of the table `ad`, each with a migratable image URL. -/
def twoAdRows : List Row :=
  [ [("id".toList, .num 1), ("image_url".toList, .str "http://h/a.png".toList)],
    [("id".toList, .num 2), ("image_url".toList, .str "http://h/b.png".toList)] ]

/-- An HTTP client that answers every URL with a PNG. -/
def pngRequest (_ : Str) : HttpResult :=
  .response 200 (some "image/png".toList) "bytes".toList

/-- The counters `(scannedRows, updatedRows, migratedFieldCount)` of a finished run. -/
def counters (r : Except Str RunState) : Option (Nat × Nat × Nat) :=
  r.toOption.map (fun s => (s.scannedRows, s.updatedRows, s.migratedFieldCount))

/-- Two cache states that differ at most in the trace of `client.put` calls. -/
def sameCaches (a b : Cache) : Prop :=
  a.urlCache = b.urlCache ∧ a.failedUrls = b.failedUrls ∧ a.fetched = b.fetched ∧
    a.touched = b.touched

/-- Two run states that differ at most in the traces of `client.put` calls and of `UPDATE`
statements: same maps, same fetches, same three counters. -/
def sameButWrites (a b : RunState) : Prop :=
  sameCaches a.cache b.cache ∧ a.scannedRows = b.scannedRows ∧
    a.updatedRows = b.updatedRows ∧ a.migratedFieldCount = b.migratedFieldCount

/-- Two outcomes of `run` (or of one of its loops) that agree: both finish, in states that
differ at most in the writes, or both throw the same error. -/
def sameOutcome (x y : Except Str RunState) : Prop :=
  match x, y with
  | .ok a, .ok b => sameButWrites a b
  | .error e1, .error e2 => e1 = e2
  | _, _ => False

/-- Every key used on the two maps so far, and every key they hold, is classified
migratable (so it is a string: `shouldMigrateUrl` is false on every other value). -/
def keysOk (cfg : Config) (c : Cache) : Prop :=
  (∀ k ∈ c.touched, shouldMigrateUrl cfg k = true) ∧
    (∀ p ∈ c.urlCache, shouldMigrateUrl cfg (.str p.1) = true) ∧
    (∀ p ∈ c.failedUrls, shouldMigrateUrl cfg p.1 = true)

/-- Two cache states that agree up to the memorised failure of `v`: the same `urlCache`,
which does not hold `v`; `failedUrls` maps `v` to `r` in the first and to `r` or to nothing
in the second, and the two agree on every other key. The traces are not compared. -/
def agreeCaches (v r : Str) (a b : Cache) : Prop :=
  a.urlCache = b.urlCache ∧ mapGet a.urlCache v = none ∧
    mapGet a.failedUrls (.str v) = some r ∧
    (mapGet b.failedUrls (.str v) = none ∨ mapGet b.failedUrls (.str v) = some r) ∧
    ∀ k, k ≠ .str v → mapGet a.failedUrls k = mapGet b.failedUrls k

/-- Two run states that agree up to the memorised failure of `v`: caches as in
`agreeCaches`, the same three counters and the same `UPDATE` statements. -/
def agreeStates (v r : Str) (a b : RunState) : Prop :=
  agreeCaches v r a.cache b.cache ∧ a.scannedRows = b.scannedRows ∧
    a.updatedRows = b.updatedRows ∧ a.migratedFieldCount = b.migratedFieldCount ∧
    a.sqlLog = b.sqlLog

/-- Two outcomes that agree up to the memorised failure of `v`: both finish in states
that agree, or both throw the same error. -/
def agreeOutcome (v r : Str) (x y : Except Str RunState) : Prop :=
  match x, y with
  | .ok a, .ok b => agreeStates v r a b
  | .error e1, .error e2 => e1 = e2
  | _, _ => False

/-- The characters that end a URL token: white space, the two quotes, the two angle
brackets and the closing parenthesis. -/
def isTokenDelim (c : Char) : Bool :=
  c == Char.ofNat 34 || c == Char.ofNat 39 || c == '<' || c == '>' || c == ')' || isJsSpace c

/-- A URL token: `http://` or `https://` (in any case of letters), then at least one more
character, and no delimiter anywhere. -/
def isUrlToken (u : Str) : Bool :=
  ((ciPrefixB true "https://".toList u && decide (8 < u.length)) ||
    (ciPrefixB true "http://".toList u && decide (7 < u.length))) &&
  u.all (fun c => !isTokenDelim c)

/-- The token `u` stands at index `i` of `text` and ends there: what follows it is the end
of the text or a delimiter. -/
def TokenAt (text : Str) (i : Nat) (u : Str) : Prop :=
  ∃ pre post, text = pre ++ u ++ post ∧ pre.length = i ∧ isUrlToken u = true ∧
    ∀ c ∈ post.head?, isTokenDelim c = true

/-- What one attempt of the token pattern at the head of `s` leaves: the rest of the input
after the longest run of token characters behind the scheme. -/
def tokenRest (s : Str) : Option Str :=
  if ciPrefixB true "https://".toList s then
    (if (s.drop 8).head?.any isUrlTokenChar then some ((s.drop 8).dropWhile isUrlTokenChar)
     else none)
  else if ciPrefixB true "http://".toList s then
    (if (s.drop 7).head?.any isUrlTokenChar then some ((s.drop 7).dropWhile isUrlTokenChar)
     else none)
  else none

/-- The token `u` at index `i` of `text` is one the scan reports: no token that starts at
an earlier index reaches beyond index `i`, so the scan is not inside another token when
it gets there. -/
def ScannedTokenAt (text : Str) (i : Nat) (u : Str) : Prop :=
  TokenAt text i u ∧ ∀ j u2, j < i → TokenAt text j u2 → j + u2.length ≤ i

/-- The number of updated rows at which a positive finite limit stops the run: the limit
rounded up to a whole number (the limit itself when it is whole). -/
def limitCeil : JsNumber → Nat
  | .frac num denPred => (num.toNat + denPred) / (denPred + 1)
  | _ => 0

set_option maxRecDepth 100000

/-! ## The matcher on the patterns of the script -/

theorem run_lit (ci : Bool) (p s : Str) (caps : List Str)
    (k : Str → List Str → Option (Str × List Str)) :
    Re.run ci (Re.lit p) s caps k =
      if ciPrefixB ci p s then k (s.drop p.length) caps else none := by
  induction p generalizing s with
  | nil => simp [Re.lit, Re.run, ciPrefixB]
  | cons a p ih =>
    cases s with
    | nil => simp [Re.lit, Re.run, ciPrefixB]
    | cons x s =>
      have := ih s
      simp only [Re.lit] at this
      simp only [Re.lit, List.foldr_cons, Re.run, ciPrefixB, this]
      by_cases h : Re.chrEq ci a x <;> simp [h]

theorem drop_after {α : Type} (s : List α) (n : Nat) (x : α) (xs : List α)
    (h : s.drop n = x :: xs) (m : Nat) : s.drop (n + 1 + m) = xs.drop m := by
  have e : s.drop (n + 1 + m) = (s.drop n).drop (1 + m) := by
    rw [List.drop_drop]; congr 1; omega
  rw [e, h, Nat.add_comm 1 m, List.drop_succ_cons]

theorem ciPrefixB_append (ci : Bool) (p q s : Str) :
    ciPrefixB ci (p ++ q) s = (ciPrefixB ci p s && ciPrefixB ci q (s.drop p.length)) := by
  induction p generalizing s with
  | nil => simp [ciPrefixB]
  | cons a p ih =>
    cases s with
    | nil => simp [ciPrefixB]
    | cons x s => simp [ciPrefixB, ih, Bool.and_assoc]

theorem testAnchored_lit (ci : Bool) (p url : Str) :
    Re.testAnchored ci (Re.lit p) url = ciPrefixB ci p url := by
  unfold Re.testAnchored Re.matchHere
  rw [run_lit]
  cases ciPrefixB ci p url <;> simp

theorem chrEq_s_colon (ci : Bool) (x : Char) (h : Re.chrEq ci 's' x = true) :
    Re.chrEq ci ':' x = false := by
  cases ci
  · simp only [Re.chrEq, Bool.false_eq_true, if_false, beq_iff_eq] at h ⊢
    subst h; decide
  · simp only [Re.chrEq, if_true, beq_iff_eq] at h ⊢
    have : (':' : Char).toUpper = ':' := by decide
    have h2 : ('s' : Char).toUpper = 'S' := by decide
    rw [this]; rw [h2] at h
    rw [← h]; decide

theorem run_scheme_gen (ci : Bool) (p q s : Str) (caps : List Str)
    (k : Str → List Str → Option (Str × List Str)) :
    Re.run ci (.seq (Re.lit p) (.seq (.opt (.chr 's')) (Re.lit (':' :: q)))) s caps k =
      if ciPrefixB ci (p ++ 's' :: ':' :: q) s then k (s.drop (p.length + 2 + q.length)) caps
      else if ciPrefixB ci (p ++ ':' :: q) s then k (s.drop (p.length + 1 + q.length)) caps
      else none := by
  rw [Re.run, run_lit, ciPrefixB_append, ciPrefixB_append]
  cases hp : ciPrefixB ci p s
  · simp
  · simp only [if_true, Bool.true_and]
    rw [Re.run, Re.run]
    rcases hs : List.drop p.length s with _ | ⟨x, xs⟩
    · rw [Re.run, run_lit]
      simp [ciPrefixB, Option.orElse]
    · have d1 := drop_after s p.length x xs hs
      simp only [ciPrefixB]
      rw [Re.run, run_lit]
      cases hx : Re.chrEq ci 's' x
      · simp only [Bool.false_and, Bool.false_eq_true, if_false, Option.orElse, ciPrefixB]
        rw [d1 q.length, run_lit]
        rfl
      · have hc := chrEq_s_colon ci x hx
        simp only [if_true, Bool.true_and, hc, Bool.false_and, Bool.false_eq_true, if_false,
          ciPrefixB]
        rw [run_lit]
        have e : List.drop (p.length + 2 + q.length) s = List.drop (':' :: q).length xs := by
          have := d1 (1 + q.length)
          rw [show p.length + 2 + q.length = p.length + 1 + (1 + q.length) by omega, this]
          simp [Nat.add_comm 1]
        rw [e]
        have hf : ciPrefixB ci (':' :: q) (x :: xs) = false := by simp [ciPrefixB, hc]
        rw [hf]
        cases hq : ciPrefixB ci (':' :: q) xs
        · simp [Option.orElse]
        · simp only [if_true, Bool.false_eq_true, if_false]
          cases k (List.drop (':' :: q).length xs) caps <;> rfl
theorem run_reScheme (s : Str) (caps : List Str)
    (k : Str → List Str → Option (Str × List Str)) :
    Re.run true reScheme s caps k =
      if ciPrefixB true "https://".toList s then k (s.drop 8) caps
      else if ciPrefixB true "http://".toList s then k (s.drop 7) caps
      else none := by
  have e0 : reScheme =
      .seq (Re.lit "http".toList) (.seq (.opt (.chr 's')) (Re.lit (':' :: "//".toList))) := rfl
  have e1 : "https://".toList = "http".toList ++ 's' :: ':' :: "//".toList := by decide
  have e2 : "http://".toList = "http".toList ++ ':' :: "//".toList := by decide
  rw [e0, run_scheme_gen, e1, e2]
  rfl

theorem isSome_ite {α : Type} (b : Bool) (x : α) :
    (if b = true then some x else none).isSome = b := by
  cases b <;> rfl

theorem testAnchored_reScheme (url : Str) :
    Re.testAnchored true reScheme url =
      (ciPrefixB true "https://".toList url || ciPrefixB true "http://".toList url) := by
  unfold Re.testAnchored Re.matchHere
  rw [run_reScheme]
  cases ciPrefixB true "https://".toList url <;>
    cases ciPrefixB true "http://".toList url <;> rfl

theorem testAnchored_reHttp (url : Str) :
    Re.testAnchored true reHttp url = ciPrefixB true "http://".toList url :=
  testAnchored_lit true _ url

theorem matchHere_alt_lit_isSome (ci : Bool) (a b s : Str) :
    (Re.matchHere ci (.alt (Re.lit a) (Re.lit b)) s).isSome =
      (ciPrefixB ci a s || ciPrefixB ci b s) := by
  unfold Re.matchHere
  rw [Re.run, run_lit, run_lit]
  cases ciPrefixB ci a s <;> cases ciPrefixB ci b s <;> rfl

theorem test_alt_lit (ci : Bool) (a b s : Str) :
    Re.test ci (.alt (Re.lit a) (Re.lit b)) s = (ciIncludesB ci a s || ciIncludesB ci b s) := by
  unfold Re.test
  induction s with
  | nil =>
    rw [Re.exec, matchHere_alt_lit_isSome]; rfl
  | cons c cs ih =>
    rw [Re.exec]
    have h := matchHere_alt_lit_isSome ci a b (c :: cs)
    cases hm : Re.matchHere ci (.alt (Re.lit a) (Re.lit b)) (c :: cs) with
    | some v =>
      rw [hm] at h
      simp only [Option.orElse, Option.isSome_some, ciIncludesB]
      simp only [Option.isSome_some] at h
      rcases Bool.or_eq_true_iff.mp h.symm with h1 | h1 <;> simp [h1]
    | none =>
      rw [hm] at h
      simp only [Option.isSome_none] at h
      have h' := Bool.or_eq_false_iff.mp h.symm
      simp only [Option.orElse, ciIncludesB, h'.1, h'.2, Bool.false_or]
      exact ih

theorem test_reLegacyHost (url : Str) :
    Re.test true reLegacyHost url =
      (ciIncludesB true "yanxuan.nosdn.127.net".toList url ||
        ciIncludesB true "nos.netease.com".toList url) :=
  test_alt_lit true _ _ url

theorem https_not_http (ci : Bool) (url : Str)
    (h : ciPrefixB ci "https://".toList url = true) :
    ciPrefixB ci "http://".toList url = false := by
  have e1 : "https://".toList = "http".toList ++ 's' :: "://".toList := by decide
  have e2 : "http://".toList = "http".toList ++ ':' :: "//".toList := by decide
  rw [e1, ciPrefixB_append] at h
  rw [e2, ciPrefixB_append]
  rcases hd : List.drop "http".toList.length url with _ | ⟨x, xs⟩
  · simp [ciPrefixB]
  · rw [hd] at h
    simp only [ciPrefixB, Bool.and_eq_true] at h
    simp [ciPrefixB, chrEq_s_colon ci x h.2.1]

theorem testAnchored_reLoopback (url : Str) :
    Re.testAnchored true reLoopback url = isLoopbackUrl url := by
  have a1 : "https://127.0.0.1".toList = "https://".toList ++ "127.0.0.1".toList := by decide
  have a2 : "https://localhost".toList = "https://".toList ++ "localhost".toList := by decide
  have a3 : "http://127.0.0.1".toList = "http://".toList ++ "127.0.0.1".toList := by decide
  have a4 : "http://localhost".toList = "http://".toList ++ "localhost".toList := by decide
  have l8 : "https://".toList.length = 8 := by decide
  have l7 : "http://".toList.length = 7 := by decide
  unfold Re.testAnchored Re.matchHere reLoopback isLoopbackUrl
  rw [Re.run, run_reScheme, a1, a2, a3, a4]
  simp only [ciPrefixB_append, l8, l7]
  cases h8 : ciPrefixB true "https://".toList url
  · cases h7 : ciPrefixB true "http://".toList url
    · rfl
    · simp only [Bool.false_eq_true, if_false, if_true, Bool.false_and, Bool.true_and,
        Bool.false_or]
      rw [Re.run, run_lit, run_lit]
      cases ciPrefixB true "127.0.0.1".toList (List.drop 7 url) <;>
        cases ciPrefixB true "localhost".toList (List.drop 7 url) <;> rfl
  · rw [https_not_http true url h8]
    simp only [if_true, Bool.false_and, Bool.true_and, Bool.or_false]
    rw [Re.run, run_lit, run_lit]
    cases ciPrefixB true "127.0.0.1".toList (List.drop 8 url) <;>
      cases ciPrefixB true "localhost".toList (List.drop 8 url) <;> rfl
/-! ## The classifier -/

theorem shouldMigrateUrl_str (cfg : Config) (raw : Str) :
    shouldMigrateUrl cfg (.str raw) =
      (!raw.isEmpty &&
        (ciPrefixB true "https://".toList (jsTrim raw) ||
          ciPrefixB true "http://".toList (jsTrim raw)) &&
        !(!cfg.ossDomain.isEmpty && jsStartsWith (jsTrim raw) cfg.ossDomain) &&
        !isLoopbackUrl (jsTrim raw) &&
        !jsIncludes (jsTrim raw) ".aliyuncs.com/".toList &&
        (ciPrefixB true "http://".toList (jsTrim raw) || hasLegacyHost (jsTrim raw))) := by
  simp only [shouldMigrateUrl, testAnchored_reScheme, testAnchored_reLoopback,
    testAnchored_reHttp, test_reLegacyHost, hasLegacyHost]
  generalize jsTrim raw = url
  cases raw.isEmpty <;>
  cases ciPrefixB true "https://".toList url <;>
  cases ciPrefixB true "http://".toList url <;>
  cases (!cfg.ossDomain.isEmpty && jsStartsWith url cfg.ossDomain) <;>
  cases isLoopbackUrl url <;>
  cases jsIncludes url ".aliyuncs.com/".toList <;>
  cases (ciIncludesB true "yanxuan.nosdn.127.net".toList url ||
        ciIncludesB true "nos.netease.com".toList url) <;> rfl

/-- Claim C3, as the code has it: a string that passes the three exclusions of
`shouldMigrateUrl` (not under the non-empty target domain, not a loop-back URL, no
`.aliyuncs.com/` in it) is migratable when it begins with `http://`, and when it begins
with `https://` and names a legacy host; the comparison is on the trimmed string and
ignores the case of letters. -/
theorem shouldMigrateUrl_positive (cfg : Config) (u : Str)
    (hdom : cfg.ossDomain = [] ∨ jsStartsWith (jsTrim u) cfg.ossDomain = false)
    (hloop : isLoopbackUrl (jsTrim u) = false)
    (hali : jsIncludes (jsTrim u) ".aliyuncs.com/".toList = false) :
    (ciPrefixB true "http://".toList (jsTrim u) = true →
      shouldMigrateUrl cfg (.str u) = true) ∧
    (ciPrefixB true "https://".toList (jsTrim u) = true → hasLegacyHost (jsTrim u) = true →
      shouldMigrateUrl cfg (.str u) = true) := by
  have hne : ∀ p : Str, p ≠ [] → ciPrefixB true p (jsTrim u) = true → u.isEmpty = false := by
    intro p hp h
    cases u with
    | nil =>
      cases p with
      | nil => exact absurd rfl hp
      | cons a p => simp [jsTrim, List.rdropWhile, ciPrefixB] at h
    | cons c cs => rfl
  have hd : (!cfg.ossDomain.isEmpty && jsStartsWith (jsTrim u) cfg.ossDomain) = false := by
    rcases hdom with h | h
    · simp [h]
    · simp [h]
  rw [shouldMigrateUrl_str, hd, hloop, hali]
  constructor
  · intro h
    rw [hne _ (by decide) h, h]
    simp
  · intro h hl
    rw [hne _ (by decide) h, h, hl]
    simp

/-- Witness of `shouldMigrateUrl_positive`: an `http://` URL on an arbitrary host and an
`https://` URL on a legacy host. -/
theorem shouldMigrateUrl_positive_witness :
    shouldMigrateUrl ⟨false, 0, [], "https://cdn.example.com".toList, []⟩
      (.str "http://img.example.org/a.png".toList) = true := by
  refine (shouldMigrateUrl_positive ⟨false, 0, [], "https://cdn.example.com".toList, []⟩
    "http://img.example.org/a.png".toList (Or.inr (by decide)) (by decide) (by decide)).1
    (by decide)

/-- Claim C3 fails as stated: a loop-back URL begins with `http://`, and a URL under
`.aliyuncs.com/` names a legacy host, and neither is migratable. -/
theorem shouldMigrateUrl_positive_counterexample :
    (ciPrefixB true "http://".toList "http://localhost/a.png".toList = true ∧
      shouldMigrateUrl ⟨false, 0, [], "https://cdn.example.com".toList, []⟩
        (.str "http://localhost/a.png".toList) = false) ∧
    (hasLegacyHost "https://nos.netease.com.oss.aliyuncs.com/a.png".toList = true ∧
      shouldMigrateUrl ⟨false, 0, [], "https://cdn.example.com".toList, []⟩
        (.str "https://nos.netease.com.oss.aliyuncs.com/a.png".toList) = false) := by
  decide
/-! ## Key derivation -/

theorem inferExtByUrl_mem (url : Str) : inferExtByUrl url = [] ∨ inferExtByUrl url ∈ imageExts := by
  unfold inferExtByUrl
  split
  · exact Or.inl rfl
  · simp only []
    split
    · right; assumption
    · exact Or.inl rfl

theorem chooseExt_of_some (sourceUrl contentType e : Str)
    (h : contentTypeToExt contentType = some e) (hne : e.isEmpty = false) :
    chooseExt sourceUrl contentType = e := by
  simp [chooseExt, h, hne]

theorem chooseExt_of_none (sourceUrl contentType : Str)
    (h : contentTypeToExt contentType = none) :
    chooseExt sourceUrl contentType =
      if inferExtByUrl sourceUrl ∈ imageExts then inferExtByUrl sourceUrl
      else ".jpg".toList := by
  simp only [chooseExt, h, Option.getD_none, List.isEmpty_nil, Bool.not_true,
    Bool.false_eq_true, if_false]
  rcases inferExtByUrl_mem sourceUrl with h | h
  · have : inferExtByUrl sourceUrl ∉ imageExts := by rw [h]; decide
    rw [if_neg this, h]
    rfl
  · have hne : (inferExtByUrl sourceUrl).isEmpty = false := by
      cases he : inferExtByUrl sourceUrl with
      | nil => rw [he] at h; exact absurd h (by decide)
      | cons a b => rfl
    simp only [hne, h, Bool.not_false, if_true]

/-- The part of claim C7 that holds: when the content type is none of the names an object
inherits from `Object.prototype`, the key is `legacy-migration/` + date + `/` + digest +
extension, where the extension is the one mapped from the content type when it is one of
the six known types, else the extension read off the URL when it is one of the seven image
extensions, else `.jpg`; the extension is one of the seven. -/
theorem ossKey_known (W : World) (sourceUrl contentType : Str)
    (h1 : contentType ≠ "constructor".toList)
    (h2 : contentType ∉ objectPrototypeFunctions)
    (h3 : contentType ≠ "__proto__".toList) :
    ossKey W sourceUrl contentType =
        "legacy-migration/".toList ++ W.isoDate ++ "/".toList ++ W.md5hex sourceUrl ++
          chooseExt sourceUrl contentType ∧
      chooseExt sourceUrl contentType ∈ imageExts ∧
      chooseExt sourceUrl contentType =
        (if contentType = "image/jpeg".toList then ".jpg".toList
         else if contentType = "image/png".toList then ".png".toList
         else if contentType = "image/gif".toList then ".gif".toList
         else if contentType = "image/webp".toList then ".webp".toList
         else if contentType = "image/bmp".toList then ".bmp".toList
         else if contentType = "image/svg+xml".toList then ".svg".toList
         else if inferExtByUrl sourceUrl ∈ imageExts then inferExtByUrl sourceUrl
         else ".jpg".toList) := by
  refine ⟨rfl, ?_⟩
  by_cases c1 : contentType = "image/jpeg".toList
  · rw [chooseExt_of_some sourceUrl contentType ".jpg".toList (by rw [c1]; decide) (by decide),
      if_pos c1]
    exact ⟨by decide, rfl⟩
  by_cases c2 : contentType = "image/png".toList
  · rw [chooseExt_of_some sourceUrl contentType ".png".toList (by rw [c2]; decide) (by decide),
      if_neg c1, if_pos c2]
    exact ⟨by decide, rfl⟩
  by_cases c3 : contentType = "image/gif".toList
  · rw [chooseExt_of_some sourceUrl contentType ".gif".toList (by rw [c3]; decide) (by decide),
      if_neg c1, if_neg c2, if_pos c3]
    exact ⟨by decide, rfl⟩
  by_cases c4 : contentType = "image/webp".toList
  · rw [chooseExt_of_some sourceUrl contentType ".webp".toList (by rw [c4]; decide) (by decide),
      if_neg c1, if_neg c2, if_neg c3, if_pos c4]
    exact ⟨by decide, rfl⟩
  by_cases c5 : contentType = "image/bmp".toList
  · rw [chooseExt_of_some sourceUrl contentType ".bmp".toList (by rw [c5]; decide) (by decide),
      if_neg c1, if_neg c2, if_neg c3, if_neg c4, if_pos c5]
    exact ⟨by decide, rfl⟩
  by_cases c6 : contentType = "image/svg+xml".toList
  · rw [chooseExt_of_some sourceUrl contentType ".svg".toList (by rw [c6]; decide) (by decide),
      if_neg c1, if_neg c2, if_neg c3, if_neg c4, if_neg c5, if_pos c6]
    exact ⟨by decide, rfl⟩
  have hn : contentTypeToExt contentType = none := by
    unfold contentTypeToExt
    rw [if_neg c1, if_neg c2, if_neg c3, if_neg c4, if_neg c5, if_neg c6, if_neg h1, if_neg h2,
      if_neg h3]
  rw [chooseExt_of_none sourceUrl contentType hn, if_neg c1, if_neg c2, if_neg c3, if_neg c4,
    if_neg c5, if_neg c6]
  refine ⟨?_, rfl⟩
  by_cases hm : inferExtByUrl sourceUrl ∈ imageExts
  · rw [if_pos hm]; exact hm
  · rw [if_neg hm]; decide

/-- Witness of `ossKey_known`: a PNG served as `image/png`. -/
theorem ossKey_known_witness :
    chooseExt "http://h/a.gif".toList "image/png".toList ∈ imageExts :=
  (ossKey_known (exampleWorld (fun _ => .noResponse) (fun _ _ _ => .ok ()) (fun _ => .ok []))
    "http://h/a.gif".toList "image/png".toList (by decide) (by decide) (by decide)).2.1

/-- Claim C7 on the failing input: a response whose `Content-Type` is `constructor` finds
the inherited `Object` in the table, and the key ends in the source text of that function
instead of an image extension. -/
theorem ossKey_constructor_contentType :
    downloadImage
        (exampleWorld (fun _ => .response 200 (some "constructor".toList) "bytes".toList)
          (fun _ _ _ => .ok ()) (fun _ => .ok []))
        "http://h/a.png".toList = .ok ("bytes".toList, "constructor".toList) ∧
    chooseExt "http://h/a.png".toList "constructor".toList =
      "function Object() \x7b [native code] \x7d".toList ∧
    chooseExt "http://h/a.png".toList "constructor".toList ∉ imageExts ∧
    (uploadToOssByUrl (exampleConfig false 0)
        (exampleWorld (fun _ => .response 200 (some "constructor".toList) "bytes".toList)
          (fun _ _ _ => .ok ()) (fun _ => .ok []))
        Cache.init "http://h/a.png".toList).2.toOption =
      some ("https://cdn.example.com/legacy-migration/2026-01-01/md5(http://h/a.png)".toList ++
        "function Object() \x7b [native code] \x7d".toList) := by
  refine ⟨by rfl, by decide, by decide, by decide⟩
/-! ## The resolver -/

theorem mapGet_mapSet_self {κ : Type} [DecidableEq κ] (m : List (κ × Str)) (k : κ) (v : Str) :
    mapGet (mapSet m k v) k = some v := by
  induction m with
  | nil => simp [mapSet, mapGet]
  | cons a m ih =>
    obtain ⟨k0, v0⟩ := a
    by_cases h : k0 = k
    · simp [mapSet, mapGet, h]
    · simp [mapSet, mapGet, h, ih]

theorem mapGet_mapSet_ne {κ : Type} [DecidableEq κ] (m : List (κ × Str)) (k k1 : κ) (v : Str)
    (h : k1 ≠ k) : mapGet (mapSet m k v) k1 = mapGet m k1 := by
  induction m with
  | nil => simp [mapSet, mapGet, Ne.symm h]
  | cons a m ih =>
    obtain ⟨k0, v0⟩ := a
    by_cases h0 : k0 = k
    · subst h0
      simp [mapSet, mapGet, Ne.symm h]
    · by_cases h1 : k0 = k1
      · subst h1
        simp [mapSet, mapGet, h0]
      · simp [mapSet, mapGet, h0, h1, ih]

theorem upload_hit (cfg : Config) (W : World) (st : Cache) (u m : Str)
    (h : mapGet st.urlCache u = some m) :
    uploadToOssByUrl cfg W st u = ({ st with touched := st.touched ++ [.str u] }, .ok m) := by
  simp only [uploadToOssByUrl, h]

theorem upload_failed (cfg : Config) (W : World) (st : Cache) (u e : Str)
    (h : mapGet st.urlCache u = none) (hf : mapGet st.failedUrls (.str u) = some e) :
    uploadToOssByUrl cfg W st u =
      ({ st with touched := st.touched ++ [.str u] ++ [.str u] }, .error e) := by
  simp only [uploadToOssByUrl, h, hf]

theorem upload_fetch_error (cfg : Config) (W : World) (st : Cache) (u e : Str)
    (h : mapGet st.urlCache u = none) (hf : mapGet st.failedUrls (.str u) = none)
    (hd : downloadImage W u = .error e) :
    uploadToOssByUrl cfg W st u =
      ({ st with touched := st.touched ++ [.str u] ++ [.str u],
                 fetched := st.fetched ++ [u] }, .error e) := by
  simp only [uploadToOssByUrl, h, hf, hd]

theorem upload_put_error (cfg : Config) (W : World) (st : Cache) (u body ct e : Str)
    (h : mapGet st.urlCache u = none) (hf : mapGet st.failedUrls (.str u) = none)
    (hd : downloadImage W u = .ok (body, ct)) (hdry : cfg.DRY_RUN = false)
    (hp : W.put (ossKey W u ct) body (putContentType ct) = .error e) :
    uploadToOssByUrl cfg W st u =
      ({ st with touched := st.touched ++ [.str u] ++ [.str u],
                 fetched := st.fetched ++ [u],
                 uploaded := st.uploaded ++ [ossKey W u ct] }, .error e) := by
  simp only [uploadToOssByUrl, h, hf, hd, hdry, hp, Bool.not_false, if_true]

theorem upload_put_ok (cfg : Config) (W : World) (st : Cache) (u body ct : Str)
    (h : mapGet st.urlCache u = none) (hf : mapGet st.failedUrls (.str u) = none)
    (hd : downloadImage W u = .ok (body, ct)) (hdry : cfg.DRY_RUN = false)
    (hp : W.put (ossKey W u ct) body (putContentType ct) = .ok ()) :
    uploadToOssByUrl cfg W st u =
      ({ st with touched := st.touched ++ [.str u] ++ [.str u] ++ [.str u],
                 fetched := st.fetched ++ [u],
                 uploaded := st.uploaded ++ [ossKey W u ct],
                 urlCache := mapSet st.urlCache u
                   (cfg.ossDomain ++ "/".toList ++ ossKey W u ct) },
        .ok (cfg.ossDomain ++ "/".toList ++ ossKey W u ct)) := by
  simp only [uploadToOssByUrl, h, hf, hd, hdry, hp, Bool.not_false, if_true]

theorem upload_dry (cfg : Config) (W : World) (st : Cache) (u body ct : Str)
    (h : mapGet st.urlCache u = none) (hf : mapGet st.failedUrls (.str u) = none)
    (hd : downloadImage W u = .ok (body, ct)) (hdry : cfg.DRY_RUN = true) :
    uploadToOssByUrl cfg W st u =
      ({ st with touched := st.touched ++ [.str u] ++ [.str u] ++ [.str u],
                 fetched := st.fetched ++ [u],
                 urlCache := mapSet st.urlCache u
                   (cfg.ossDomain ++ "/".toList ++ ossKey W u ct) },
        .ok (cfg.ossDomain ++ "/".toList ++ ossKey W u ct)) := by
  simp only [uploadToOssByUrl, h, hf, hd, hdry, Bool.not_true, Bool.false_eq_true, if_false]
/-- The six ways a call of the resolver can go. -/
theorem upload_cases (cfg : Config) (W : World) (st : Cache) (u : Str) :
    (∃ m, mapGet st.urlCache u = some m ∧
      uploadToOssByUrl cfg W st u = ({ st with touched := st.touched ++ [.str u] }, .ok m)) ∨
    (∃ e, mapGet st.urlCache u = none ∧ mapGet st.failedUrls (.str u) = some e ∧
      uploadToOssByUrl cfg W st u =
        ({ st with touched := st.touched ++ [.str u] ++ [.str u] }, .error e)) ∨
    (∃ e, mapGet st.urlCache u = none ∧ mapGet st.failedUrls (.str u) = none ∧
      downloadImage W u = .error e ∧
      uploadToOssByUrl cfg W st u =
        ({ st with touched := st.touched ++ [.str u] ++ [.str u],
                   fetched := st.fetched ++ [u] }, .error e)) ∨
    (∃ body ct e, mapGet st.urlCache u = none ∧ mapGet st.failedUrls (.str u) = none ∧
      downloadImage W u = .ok (body, ct) ∧ cfg.DRY_RUN = false ∧
      W.put (ossKey W u ct) body (putContentType ct) = .error e ∧
      uploadToOssByUrl cfg W st u =
        ({ st with touched := st.touched ++ [.str u] ++ [.str u],
                   fetched := st.fetched ++ [u],
                   uploaded := st.uploaded ++ [ossKey W u ct] }, .error e)) ∨
    (∃ body ct, mapGet st.urlCache u = none ∧ mapGet st.failedUrls (.str u) = none ∧
      downloadImage W u = .ok (body, ct) ∧ cfg.DRY_RUN = false ∧
      W.put (ossKey W u ct) body (putContentType ct) = .ok () ∧
      uploadToOssByUrl cfg W st u =
        ({ st with touched := st.touched ++ [.str u] ++ [.str u] ++ [.str u],
                   fetched := st.fetched ++ [u],
                   uploaded := st.uploaded ++ [ossKey W u ct],
                   urlCache := mapSet st.urlCache u
                     (cfg.ossDomain ++ "/".toList ++ ossKey W u ct) },
          .ok (cfg.ossDomain ++ "/".toList ++ ossKey W u ct))) ∨
    (∃ body ct, mapGet st.urlCache u = none ∧ mapGet st.failedUrls (.str u) = none ∧
      downloadImage W u = .ok (body, ct) ∧ cfg.DRY_RUN = true ∧
      uploadToOssByUrl cfg W st u =
        ({ st with touched := st.touched ++ [.str u] ++ [.str u] ++ [.str u],
                   fetched := st.fetched ++ [u],
                   urlCache := mapSet st.urlCache u
                     (cfg.ossDomain ++ "/".toList ++ ossKey W u ct) },
          .ok (cfg.ossDomain ++ "/".toList ++ ossKey W u ct))) := by
  cases h1 : mapGet st.urlCache u with
  | some m => exact Or.inl ⟨m, rfl, upload_hit cfg W st u m h1⟩
  | none =>
    right
    cases h2 : mapGet st.failedUrls (.str u) with
    | some e => exact Or.inl ⟨e, rfl, rfl, upload_failed cfg W st u e h1 h2⟩
    | none =>
      right
      cases h3 : downloadImage W u with
      | error e => exact Or.inl ⟨e, rfl, rfl, rfl, upload_fetch_error cfg W st u e h1 h2 h3⟩
      | ok bc =>
        right
        obtain ⟨body, ct⟩ := bc
        cases hd : cfg.DRY_RUN
        · cases hp : W.put (ossKey W u ct) body (putContentType ct) with
          | error e =>
            exact Or.inl ⟨body, ct, e, rfl, rfl, rfl, rfl, hp,
              upload_put_error cfg W st u body ct e h1 h2 h3 hd hp⟩
          | ok x =>
            exact Or.inr (Or.inl ⟨body, ct, rfl, rfl, rfl, rfl, hp,
              upload_put_ok cfg W st u body ct h1 h2 h3 hd hp⟩)
        · exact Or.inr (Or.inr ⟨body, ct, rfl, rfl, rfl, rfl,
            upload_dry cfg W st u body ct h1 h2 h3 hd⟩)

theorem upload_after_record (cfg : Config) (W : World) (st st1 : Cache) (u e : Str)
    (hu : st1.urlCache = st.urlCache) (h1 : mapGet st.urlCache u = none) :
    uploadToOssByUrl cfg W
        { st1 with failedUrls := mapSet st1.failedUrls (.str u) e,
                   touched := st1.touched ++ [.str u] } u =
      ({ st1 with failedUrls := mapSet st1.failedUrls (.str u) e,
                  touched := st1.touched ++ [.str u] ++ [.str u] ++ [.str u] }, .error e) :=
  upload_failed cfg W
    { st1 with failedUrls := mapSet st1.failedUrls (.str u) e,
               touched := st1.touched ++ [.str u] } u e
    (by rw [← h1, ← hu]) (mapGet_mapSet_self _ _ _)

theorem worker_records (cfg : Config) (W : World) (st st1 : Cache) (rep : List (Str × Str))
    (u e : Str) (h : uploadToOssByUrl cfg W st u = (st1, .error e)) :
    htmlWorkerStep cfg W (st, rep) u =
      ({ st1 with failedUrls := mapSet st1.failedUrls (.str u) e,
                  touched := st1.touched ++ [.str u] }, rep) := by
  unfold htmlWorkerStep
  simp only [h]

theorem catch_records (cfg : Config) (W : World) (row : Row) (s : RunState)
    (upd : List (Str × JsVal)) (f u e : Str) (st1 : Cache)
    (h : uploadToOssByUrl cfg W s.cache u = (st1, .error e))
    (hf : f ≠ "goods_desc".toList) (hv : rowGet row f = .str u)
    (hm : shouldMigrateUrl cfg (.str u) = true) (hi : isLikelyImageUrl u = true) :
    processField cfg W row (s, upd) f =
      ({ s with cache := { st1 with failedUrls := mapSet st1.failedUrls (.str u) e,
                                    touched := st1.touched ++ [.str u] } }, upd) := by
  have hne : u.isEmpty = false := by
    cases u with
    | nil => simp [shouldMigrateUrl] at hm
    | cons a b => rfl
  have hmt : migrateTextField cfg W s.cache (.str u) = (st1, .error e) := by
    unfold migrateTextField
    simp only [hne, hm, hi, Bool.and_self, Bool.false_eq_true, if_false, if_true, h]
  unfold processField
  simp only [hf, if_false, hv, hmt]

theorem twice_after_error (cfg : Config) (W : World) (st st1 : Cache) (u e : Str)
    (h : uploadToOssByUrl cfg W st u = (st1, .error e))
    (hu : st1.urlCache = st.urlCache) (hf : st1.failedUrls = st.failedUrls)
    (h1 : mapGet st.urlCache u = none) :
    st1.urlCache = st.urlCache ∧ st1.failedUrls = st.failedUrls ∧
      (∀ rep, htmlWorkerStep cfg W (st, rep) u =
        ({ st1 with failedUrls := mapSet st1.failedUrls (.str u) e,
                    touched := st1.touched ++ [.str u] }, rep)) ∧
      (∀ row s upd f, s.cache = st → f ≠ "goods_desc".toList → rowGet row f = .str u →
        shouldMigrateUrl cfg (.str u) = true → isLikelyImageUrl u = true →
        processField cfg W row (s, upd) f =
          ({ s with cache := { st1 with failedUrls := mapSet st1.failedUrls (.str u) e,
                                        touched := st1.touched ++ [.str u] } }, upd)) ∧
      (uploadToOssByUrl cfg W
        { st1 with failedUrls := mapSet st1.failedUrls (.str u) e,
                   touched := st1.touched ++ [.str u] } u).2 = .error e ∧
      (uploadToOssByUrl cfg W
        { st1 with failedUrls := mapSet st1.failedUrls (.str u) e,
                   touched := st1.touched ++ [.str u] } u).1.fetched = st1.fetched ∧
      (uploadToOssByUrl cfg W
        { st1 with failedUrls := mapSet st1.failedUrls (.str u) e,
                   touched := st1.touched ++ [.str u] } u).1.uploaded = st1.uploaded := by
  rw [upload_after_record cfg W st st1 u e hu h1]
  refine ⟨hu, hf, fun rep => worker_records cfg W st st1 rep u e h, ?_, rfl, rfl, rfl⟩
  intro row s upd f hs hfd hv hm hi
  subst hs
  exact catch_records cfg W row s upd f u e st1 h hfd hv hm hi

/-- Claim C1, as the code has it. After a call of the resolver that succeeds, a second call
for the same URL returns the same reference and neither fetches nor uploads (so the two
calls make at most one fetch and one upload). A call that fails leaves both maps as they
were: the resolver does not record the failure. Its callers do: the worker of
`migrateHtmlField` and, for a single-URL field, the `catch` of `run` leave the state of
the failed call with the error stored in `failedUrls` under the URL (and nothing added to
`replacements` or to the update map); and from that state a second call throws the
recorded error again without fetching or uploading. -/
theorem uploadToOssByUrl_twice (cfg : Config) (W : World) (st : Cache) (u : Str) :
    match uploadToOssByUrl cfg W st u with
    | (st1, .ok m) =>
      uploadToOssByUrl cfg W st1 u = ({ st1 with touched := st1.touched ++ [.str u] }, .ok m) ∧
      st1.fetched.length ≤ st.fetched.length + 1 ∧
      st1.uploaded.length ≤ st.uploaded.length + 1
    | (st1, .error e) =>
      st1.urlCache = st.urlCache ∧ st1.failedUrls = st.failedUrls ∧
      (∀ rep, htmlWorkerStep cfg W (st, rep) u =
        ({ st1 with failedUrls := mapSet st1.failedUrls (.str u) e,
                    touched := st1.touched ++ [.str u] }, rep)) ∧
      (∀ row s upd f, s.cache = st → f ≠ "goods_desc".toList → rowGet row f = .str u →
        shouldMigrateUrl cfg (.str u) = true → isLikelyImageUrl u = true →
        processField cfg W row (s, upd) f =
          ({ s with cache := { st1 with failedUrls := mapSet st1.failedUrls (.str u) e,
                                        touched := st1.touched ++ [.str u] } }, upd)) ∧
      (uploadToOssByUrl cfg W
        { st1 with failedUrls := mapSet st1.failedUrls (.str u) e,
                   touched := st1.touched ++ [.str u] } u).2 = .error e ∧
      (uploadToOssByUrl cfg W
        { st1 with failedUrls := mapSet st1.failedUrls (.str u) e,
                   touched := st1.touched ++ [.str u] } u).1.fetched = st1.fetched ∧
      (uploadToOssByUrl cfg W
        { st1 with failedUrls := mapSet st1.failedUrls (.str u) e,
                   touched := st1.touched ++ [.str u] } u).1.uploaded = st1.uploaded := by
  have key : ∀ x, uploadToOssByUrl cfg W st u = x →
      match x with
      | (st1, .ok m) =>
        uploadToOssByUrl cfg W st1 u =
            ({ st1 with touched := st1.touched ++ [.str u] }, .ok m) ∧
          st1.fetched.length ≤ st.fetched.length + 1 ∧
          st1.uploaded.length ≤ st.uploaded.length + 1
      | (st1, .error e) =>
        st1.urlCache = st.urlCache ∧ st1.failedUrls = st.failedUrls ∧
        (∀ rep, htmlWorkerStep cfg W (st, rep) u =
          ({ st1 with failedUrls := mapSet st1.failedUrls (.str u) e,
                      touched := st1.touched ++ [.str u] }, rep)) ∧
        (∀ row s upd f, s.cache = st → f ≠ "goods_desc".toList → rowGet row f = .str u →
          shouldMigrateUrl cfg (.str u) = true → isLikelyImageUrl u = true →
          processField cfg W row (s, upd) f =
            ({ s with cache := { st1 with failedUrls := mapSet st1.failedUrls (.str u) e,
                                          touched := st1.touched ++ [.str u] } }, upd)) ∧
        (uploadToOssByUrl cfg W
          { st1 with failedUrls := mapSet st1.failedUrls (.str u) e,
                     touched := st1.touched ++ [.str u] } u).2 = .error e ∧
        (uploadToOssByUrl cfg W
          { st1 with failedUrls := mapSet st1.failedUrls (.str u) e,
                     touched := st1.touched ++ [.str u] } u).1.fetched = st1.fetched ∧
        (uploadToOssByUrl cfg W
          { st1 with failedUrls := mapSet st1.failedUrls (.str u) e,
                     touched := st1.touched ++ [.str u] } u).1.uploaded = st1.uploaded := by
    intro x hx
    rcases upload_cases cfg W st u with ⟨m, h1, h⟩ | ⟨e, h1, h2, h⟩ | ⟨e, h1, h2, h3, h⟩ |
      ⟨body, ct, e, h1, h2, h3, hd, hp, h⟩ | ⟨body, ct, h1, h2, h3, hd, hp, h⟩ |
      ⟨body, ct, h1, h2, h3, hd, h⟩
    · rw [← hx, h]
      exact ⟨upload_hit cfg W { st with touched := st.touched ++ [.str u] } u m h1,
        by simp, by simp⟩
    · rw [← hx, h]
      exact twice_after_error cfg W st _ u e h rfl rfl h1
    · rw [← hx, h]
      exact twice_after_error cfg W st _ u e h rfl rfl h1
    · rw [← hx, h]
      exact twice_after_error cfg W st _ u e h rfl rfl h1
    · rw [← hx, h]
      exact ⟨upload_hit cfg W _ u _ (mapGet_mapSet_self st.urlCache u _), by simp, by simp⟩
    · rw [← hx, h]
      exact ⟨upload_hit cfg W _ u _ (mapGet_mapSet_self st.urlCache u _), by simp, by simp⟩
  exact key _ rfl

/-- Claim C1 fails as stated: with a URL that answers 404 and empty maps, the first call
fails and records nothing, and the second call fetches the URL again. -/
theorem uploadToOssByUrl_twice_counterexample :
    (uploadToOssByUrl (exampleConfig false 0)
      (exampleWorld (fun _ => .response 404 none []) (fun _ _ _ => .ok ()) (fun _ => .ok []))
      Cache.init "http://h/a.png".toList).1.failedUrls = [] ∧
    (uploadToOssByUrl (exampleConfig false 0)
      (exampleWorld (fun _ => .response 404 none []) (fun _ _ _ => .ok ()) (fun _ => .ok []))
      (uploadToOssByUrl (exampleConfig false 0)
        (exampleWorld (fun _ => .response 404 none []) (fun _ _ _ => .ok ()) (fun _ => .ok []))
        Cache.init "http://h/a.png".toList).1
      "http://h/a.png".toList).1.fetched =
      ["http://h/a.png".toList, "http://h/a.png".toList] := by
  decide

/-! ## Re-running on migrated references -/

theorem rdropWhile_append_keep {α : Type} (p : α → Bool) (a b : List α) (c : α)
    (hc : p c = false) :
    (a ++ c :: b).rdropWhile p = a ++ c :: b.rdropWhile p := by
  induction b using List.reverseRecOn with
  | nil =>
    rw [List.rdropWhile_nil]
    rw [List.rdropWhile_concat_neg]
    simp [hc]
  | append_singleton b x ih =>
    by_cases hx : p x = true
    · have e : a ++ c :: (b ++ [x]) = (a ++ c :: b) ++ [x] := by simp
      rw [e, List.rdropWhile_concat_pos _ _ _ hx, List.rdropWhile_concat_pos _ _ _ hx, ih]
    · have e : a ++ c :: (b ++ [x]) = (a ++ c :: b) ++ [x] := by simp
      rw [e, List.rdropWhile_concat_neg _ _ _ hx, List.rdropWhile_concat_neg _ _ _ hx, e]

theorem jsTrim_keeps_head (c : Char) (a b : Str) (d : Char) (hc : isJsSpace c = false)
    (hd : isJsSpace d = false) :
    ∃ r, jsTrim (c :: a ++ d :: b) = c :: a ++ d :: r := by
  refine ⟨b.rdropWhile isJsSpace, ?_⟩
  unfold jsTrim
  have : (c :: a ++ d :: b).dropWhile isJsSpace = c :: a ++ d :: b := by
    simp [List.dropWhile, hc]
  rw [this]
  exact rdropWhile_append_keep isJsSpace (c :: a) b d hd

/-- The reference built by the resolver is under the target domain: when the domain is
not empty and does not begin with white space, the classifier rejects
`ossDomain + '/' + key` whatever the key is. -/
theorem shouldMigrateUrl_under_domain (cfg : Config) (key : Str)
    (hne : cfg.ossDomain ≠ [])
    (hsp : ∀ c ∈ cfg.ossDomain.head?, isJsSpace c = false) :
    shouldMigrateUrl cfg (.str (cfg.ossDomain ++ "/".toList ++ key)) = false := by
  cases hd : cfg.ossDomain with
  | nil => exact absurd hd hne
  | cons c a =>
    have hc : isJsSpace c = false := hsp c (by rw [hd]; rfl)
    obtain ⟨r, hr⟩ := jsTrim_keeps_head c a key '/' hc (by decide)
    have e : c :: a ++ "/".toList ++ key = c :: a ++ '/' :: key := by
      simp
    rw [shouldMigrateUrl_str, hd, e, hr]
    have hp : jsStartsWith (c :: a ++ '/' :: r) (c :: a) = true := by
      unfold jsStartsWith
      rw [List.isPrefixOf_iff_prefix]
      exact ⟨'/' :: r, by simp⟩
    rw [hp]
    simp

/-- The part of claim C4 that holds: when the target domain is not empty and does not
begin with white space, the reference `ossDomain + '/' + key` built by the resolver for any
source URL and content type is not migratable, and `migrateTextField` on it answers
unchanged with the same value and leaves the state as it was: no fetch, no access to
either map. -/
theorem migrated_reference_not_migratable (cfg : Config) (W : World) (st : Cache)
    (s contentType : Str) (hne : cfg.ossDomain ≠ [])
    (hsp : ∀ c ∈ cfg.ossDomain.head?, isJsSpace c = false) :
    shouldMigrateUrl cfg (.str (cfg.ossDomain ++ "/".toList ++ ossKey W s contentType)) = false ∧
    migrateTextField cfg W st (.str (cfg.ossDomain ++ "/".toList ++ ossKey W s contentType)) =
      (st, .ok (false, .str (cfg.ossDomain ++ "/".toList ++ ossKey W s contentType))) := by
  have h := shouldMigrateUrl_under_domain cfg (ossKey W s contentType) hne hsp
  refine ⟨h, ?_⟩
  unfold migrateTextField
  simp only [h, Bool.false_and, Bool.false_eq_true, if_false]
  split <;> rfl

/-- Witness of `migrated_reference_not_migratable`: the domain `https://cdn.example.com`. -/
theorem migrated_reference_not_migratable_witness :
    shouldMigrateUrl (exampleConfig false 0)
      (.str ((exampleConfig false 0).ossDomain ++ "/".toList ++
        ossKey (exampleWorld (fun _ => .noResponse) (fun _ _ _ => .ok ()) (fun _ => .ok []))
          "http://h/a.png".toList "image/png".toList)) = false :=
  (migrated_reference_not_migratable (exampleConfig false 0)
    (exampleWorld (fun _ => .noResponse) (fun _ _ _ => .ok ()) (fun _ => .ok []))
    Cache.init "http://h/a.png".toList "image/png".toList (by decide) (by decide)).1

/-- Claim C4 on the failing input: with the non-empty target domain
` http://cdn.example.com` (a leading blank), the reference built by the resolver is trimmed
before the comparison with the domain, which is not trimmed; it no longer starts with the
domain, the guard does not fire, and the reference is classified migratable: on a second
run `migrateTextField` fetches it again. -/
theorem migrated_reference_counterexample :
    shouldMigrateUrl ⟨false, 0, [], " http://cdn.example.com".toList, []⟩
      (.str (" http://cdn.example.com".toList ++ "/".toList ++
        ossKey (exampleWorld (fun _ => .noResponse) (fun _ _ _ => .ok ()) (fun _ => .ok []))
          "http://h/a.png".toList "image/png".toList)) = true ∧
    (migrateTextField ⟨false, 0, [], " http://cdn.example.com".toList, []⟩
      (exampleWorld (fun _ => .noResponse) (fun _ _ _ => .ok ()) (fun _ => .ok []))
      Cache.init
      (.str (" http://cdn.example.com".toList ++ "/".toList ++
        ossKey (exampleWorld (fun _ => .noResponse) (fun _ _ _ => .ok ()) (fun _ => .ok []))
          "http://h/a.png".toList "image/png".toList))).1.fetched =
      [" http://cdn.example.com".toList ++ "/".toList ++
        ossKey (exampleWorld (fun _ => .noResponse) (fun _ _ _ => .ok ()) (fun _ => .ok []))
          "http://h/a.png".toList "image/png".toList] := by
  decide

/-! ## Substitution in an HTML field -/

/-- Claim C2 on the failing input: the field holds `http://h/a.png` and
`http://h/a.png?v=2`, both resolve, and the replacement of the first URL also rewrites the
head of the second one, which then no longer occurs and is never replaced by its own
reference. -/
theorem migrateHtmlField_prefix_url :
    extractUrlsFromHtml
        (.str "<img src='http://h/a.png'><img src='http://h/a.png?v=2'>".toList) =
      ["http://h/a.png".toList, "http://h/a.png?v=2".toList] ∧
    (migrateHtmlField (exampleConfig true 0)
        (exampleWorld (fun _ => .response 200 (some "image/png".toList) "bytes".toList)
          (fun _ _ _ => .ok ()) (fun _ => .ok []))
        Cache.init
        (.str "<img src='http://h/a.png'><img src='http://h/a.png?v=2'>".toList)).1.urlCache =
      [("http://h/a.png".toList,
          "https://cdn.example.com/legacy-migration/2026-01-01/md5(http://h/a.png).png".toList),
        ("http://h/a.png?v=2".toList,
          "https://cdn.example.com/legacy-migration/2026-01-01/md5(http://h/a.png?v=2).png".toList)] ∧
    (migrateHtmlField (exampleConfig true 0)
        (exampleWorld (fun _ => .response 200 (some "image/png".toList) "bytes".toList)
          (fun _ _ _ => .ok ()) (fun _ => .ok []))
        Cache.init
        (.str "<img src='http://h/a.png'><img src='http://h/a.png?v=2'>".toList)).2 =
      (true, .str ("<img src='https://cdn.example.com/legacy-migration/2026-01-01/".toList ++
        "md5(http://h/a.png).png'>".toList ++
        "<img src='https://cdn.example.com/legacy-migration/2026-01-01/".toList ++
        "md5(http://h/a.png).png?v=2'>".toList)) := by
  refine ⟨by decide, by decide, by decide⟩
/-! ## The orchestrator: limit -/

theorem processField_keeps (cfg : Config) (W : World) (row : Row)
    (acc : RunState × List (Str × JsVal)) (f : Str) :
    (processField cfg W row acc f).1.scannedRows = acc.1.scannedRows ∧
    (processField cfg W row acc f).1.updatedRows = acc.1.updatedRows ∧
    (processField cfg W row acc f).1.sqlLog = acc.1.sqlLog := by
  unfold processField
  simp only []
  repeat' split
  all_goals exact ⟨rfl, rfl, rfl⟩

theorem fields_keep (cfg : Config) (W : World) (row : Row) (fields : List Str)
    (acc : RunState × List (Str × JsVal)) :
    (fields.foldl (processField cfg W row) acc).1.scannedRows = acc.1.scannedRows ∧
    (fields.foldl (processField cfg W row) acc).1.updatedRows = acc.1.updatedRows ∧
    (fields.foldl (processField cfg W row) acc).1.sqlLog = acc.1.sqlLog := by
  induction fields generalizing acc with
  | nil => exact ⟨rfl, rfl, rfl⟩
  | cons f fs ih =>
    rw [List.foldl_cons]
    obtain ⟨h1, h2, h3⟩ := ih (processField cfg W row acc f)
    obtain ⟨g1, g2, g3⟩ := processField_keeps cfg W row acc f
    exact ⟨h1.trans g1, h2.trans g2, h3.trans g3⟩

/-- What one row does to the counters and to the trace of `UPDATE` statements. -/
theorem processRow_step (cfg : Config) (W : World) (t : TableCfg) (tn : Str) (s s1 : RunState)
    (row : Row) (h : processRow cfg W t tn s row = .ok s1) :
    s1.scannedRows = s.scannedRows + 1 ∧
    ((s1.updatedRows = s.updatedRows ∧ s1.sqlLog = s.sqlLog) ∨
      (s1.updatedRows = s.updatedRows + 1 ∧
        ((cfg.DRY_RUN = true ∧ s1.sqlLog = s.sqlLog) ∨
          (cfg.DRY_RUN = false ∧ ∃ q, s1.sqlLog = s.sqlLog ++ [q])))) := by
  unfold processRow finishRow at h
  simp only [] at h
  obtain ⟨g1, g2, g3⟩ := fields_keep cfg W row t.fields
    ({ s with scannedRows := s.scannedRows + 1 }, [])
  simp only [] at g1 g2 g3
  split at h
  · cases hd : cfg.DRY_RUN
    · simp only [hd, Bool.not_false, if_true] at h
      split at h
      · exact absurd h (by simp)
      · injection h with h
        subst h
        exact ⟨g1, Or.inr ⟨by simp [g2], Or.inr ⟨rfl, _, by rw [g3]⟩⟩⟩
    · simp only [hd, Bool.not_true, Bool.false_eq_true, if_false] at h
      injection h with h
      subst h
      exact ⟨g1, Or.inr ⟨by simp [g2], Or.inl ⟨rfl, g3⟩⟩⟩
  · injection h with h
    subst h
    exact ⟨g1, Or.inl ⟨g2, g3⟩⟩

theorem rowLoop_unlimited_nil (cfg : Config) (W : World) (t : TableCfg) (tn : Str)
    (s : RunState) : rowLoop cfg W t tn [] s = .ok s := rfl

theorem rowLoop_cons (cfg : Config) (W : World) (t : TableCfg) (tn : Str) (row : Row)
    (rows : List Row) (s : RunState) :
    rowLoop cfg W t tn (row :: rows) s =
      match processRow cfg W t tn s row with
      | .error e => .error e
      | .ok s1 =>
        if limitReached cfg.LIMIT s1.updatedRows then .ok s1
        else rowLoop cfg W t tn rows s1 := rfl

theorem isLater_refl (s : RunState) : isLater s s :=
  ⟨List.prefix_refl _, Nat.le_refl _, by simp⟩

theorem isLater_trans {a b c : RunState} (h1 : isLater a b) (h2 : isLater b c) :
    isLater a c := by
  obtain ⟨p1, u1, c1⟩ := h1
  obtain ⟨p2, u2, c2⟩ := h2
  exact ⟨p1.trans p2, u1.trans u2, by omega⟩

theorem processRow_later (cfg : Config) (W : World) (t : TableCfg) (tn : Str) (s s1 : RunState)
    (row : Row) (h : processRow cfg W t tn s row = .ok s1) : isLater s s1 := by
  obtain ⟨h1, h2⟩ := processRow_step cfg W t tn s s1 row h
  rcases h2 with ⟨h2, h3⟩ | ⟨h2, ⟨_, h3⟩ | ⟨_, q, h3⟩⟩
  · exact ⟨by rw [h3], by omega, by omega⟩
  · exact ⟨by rw [h3], by omega, by omega⟩
  · exact ⟨by rw [h3]; exact List.prefix_append _ _, by omega, by omega⟩
theorem rowLoop_later (cfg : Config) (W : World) (t : TableCfg) (tn : Str) (rows : List Row)
    (s s1 : RunState) (h : rowLoop cfg W t tn rows s = .ok s1) : isLater s s1 := by
  induction rows generalizing s with
  | nil =>
    rw [rowLoop_unlimited_nil] at h
    injection h with h
    subst h
    exact isLater_refl s
  | cons row rows ih =>
    rw [rowLoop_cons] at h
    cases hp : processRow cfg W t tn s row with
    | error e => rw [hp] at h; exact absurd h (by simp)
    | ok s2 =>
      rw [hp] at h
      simp only [] at h
      have l1 := processRow_later cfg W t tn s s2 row hp
      split at h
      · injection h with h
        subst h
        exact l1
      · exact isLater_trans l1 (ih s2 h)

theorem rowLoop_limit_le (cfg : Config) (W : World) (t : TableCfg) (tn : Str) (N : Nat)
    (hstop : ∀ n, limitReached cfg.LIMIT n = decide (N ≤ n))
    (rows : List Row) (s s1 : RunState)
    (hs : s.updatedRows < N) (h : rowLoop cfg W t tn rows s = .ok s1) :
    s1.updatedRows ≤ N := by
  induction rows generalizing s with
  | nil =>
    rw [rowLoop_unlimited_nil] at h
    injection h with h
    subst h
    exact Nat.le_of_lt hs
  | cons row rows ih =>
    rw [rowLoop_cons] at h
    cases hp : processRow cfg W t tn s row with
    | error e => rw [hp] at h; exact absurd h (by simp)
    | ok s2 =>
      rw [hp] at h
      simp only [hstop] at h
      obtain ⟨-, hu⟩ := processRow_step cfg W t tn s s2 row hp
      have hle : s2.updatedRows ≤ s.updatedRows + 1 := by
        rcases hu with ⟨h2, -⟩ | ⟨h2, -⟩ <;> omega
      by_cases hc : N ≤ s2.updatedRows
      · rw [if_pos (by simpa using hc)] at h
        injection h with h
        subst h
        omega
      · rw [if_neg (by simpa using hc)] at h
        exact ih s2 (by omega) h

/-- The limited row loop against the unlimited one, from the same state. -/
theorem rowLoop_limit_sim (c0 cN : Config) (W : World) (t : TableCfg) (tn : Str) (N : Nat)
    (h0 : ∀ n, limitReached c0.LIMIT n = false)
    (hstop : ∀ n, limitReached cN.LIMIT n = decide (N ≤ n))
    (hp : ∀ s row, processRow cN W t tn s row = processRow c0 W t tn s row)
    (rows : List Row) (s s0 : RunState) (hs : s.updatedRows < N)
    (h : rowLoop c0 W t tn rows s = .ok s0) :
    ∃ sN, rowLoop cN W t tn rows s = .ok sN ∧ isLater sN s0 ∧
      (sN.updatedRows < N → sN = s0) ∧ sN.updatedRows ≤ N := by
  induction rows generalizing s with
  | nil =>
    rw [rowLoop_unlimited_nil] at h
    injection h with h
    subst h
    exact ⟨s, rfl, isLater_refl s, fun _ => rfl, Nat.le_of_lt hs⟩
  | cons row rows ih =>
    rw [rowLoop_cons] at h
    rw [rowLoop_cons, hp]
    cases hq : processRow c0 W t tn s row with
    | error e => rw [hq] at h; exact absurd h (by simp)
    | ok s2 =>
      rw [hq] at h
      simp only [h0, Bool.false_eq_true, if_false] at h
      simp only [hstop]
      obtain ⟨-, hu⟩ := processRow_step c0 W t tn s s2 row hq
      have hle : s2.updatedRows ≤ s.updatedRows + 1 := by
        rcases hu with ⟨h2, -⟩ | ⟨h2, -⟩ <;> omega
      by_cases hc : N ≤ s2.updatedRows
      · rw [if_pos (by simpa using hc)]
        exact ⟨s2, rfl, rowLoop_later c0 W t tn rows s2 s0 h, fun hlt => by omega, by omega⟩
      · rw [if_neg (by simpa using hc)]
        exact ih s2 (by omega) h

theorem tableLoop_cons (cfg : Config) (W : World) (t : TableCfg) (ts : List TableCfg)
    (s : RunState) :
    tableLoop cfg W (t :: ts) s =
      if !cfg.ONLY_TABLES.isEmpty && !cfg.ONLY_TABLES.contains t.table then
        tableLoop cfg W ts s
      else
        match W.select (selectSql t (cfg.dbPrefix ++ t.table)) with
        | .error e => .error e
        | .ok rows =>
          match rowLoop cfg W t (cfg.dbPrefix ++ t.table) rows s with
          | .error e => .error e
          | .ok s1 =>
            if limitReached cfg.LIMIT s1.updatedRows then .ok s1
            else tableLoop cfg W ts s1 := rfl

theorem tableLoop_later (cfg : Config) (W : World) (ts : List TableCfg)
    (s s1 : RunState) (h : tableLoop cfg W ts s = .ok s1) : isLater s s1 := by
  induction ts generalizing s with
  | nil =>
    injection h with h
    subst h
    exact isLater_refl s
  | cons t ts ih =>
    rw [tableLoop_cons] at h
    split at h
    · exact ih s h
    · cases hq : W.select (selectSql t (cfg.dbPrefix ++ t.table)) with
      | error e => rw [hq] at h; exact absurd h (by simp)
      | ok rows =>
        rw [hq] at h
        simp only [] at h
        cases hr : rowLoop cfg W t (cfg.dbPrefix ++ t.table) rows s with
        | error e => rw [hr] at h; exact absurd h (by simp)
        | ok s2 =>
          rw [hr] at h
          simp only [] at h
          have l1 := rowLoop_later cfg W t _ rows s s2 hr
          split at h
          · injection h with h
            subst h
            exact l1
          · exact isLater_trans l1 (ih s2 h)

theorem tableLoop_limit_le (cfg : Config) (W : World) (N : Nat)
    (hstop : ∀ n, limitReached cfg.LIMIT n = decide (N ≤ n))
    (ts : List TableCfg) (s s1 : RunState)
    (hs : s.updatedRows < N) (h : tableLoop cfg W ts s = .ok s1) :
    s1.updatedRows ≤ N := by
  induction ts generalizing s with
  | nil =>
    injection h with h
    subst h
    exact Nat.le_of_lt hs
  | cons t ts ih =>
    rw [tableLoop_cons] at h
    split at h
    · exact ih s hs h
    · cases hq : W.select (selectSql t (cfg.dbPrefix ++ t.table)) with
      | error e => rw [hq] at h; exact absurd h (by simp)
      | ok rows =>
        rw [hq] at h
        simp only [] at h
        cases hr : rowLoop cfg W t (cfg.dbPrefix ++ t.table) rows s with
        | error e => rw [hr] at h; exact absurd h (by simp)
        | ok s2 =>
          rw [hr] at h
          simp only [hstop] at h
          have l1 := rowLoop_limit_le cfg W t _ N hstop rows s s2 hs hr
          by_cases hc : N ≤ s2.updatedRows
          · rw [if_pos (by simpa using hc)] at h
            injection h with h
            subst h
            exact l1
          · rw [if_neg (by simpa using hc)] at h
            exact ih s2 (by omega) h

/-- The limited table loop against the unlimited one, from the same state. -/
theorem tableLoop_limit_sim (c0 cN : Config) (W : World) (N : Nat)
    (h0 : ∀ n, limitReached c0.LIMIT n = false)
    (hstop : ∀ n, limitReached cN.LIMIT n = decide (N ≤ n))
    (hp : ∀ t tn s row, processRow cN W t tn s row = processRow c0 W t tn s row)
    (ho : cN.ONLY_TABLES = c0.ONLY_TABLES) (hd : cN.dbPrefix = c0.dbPrefix)
    (ts : List TableCfg) (s s0 : RunState) (hs : s.updatedRows < N)
    (h : tableLoop c0 W ts s = .ok s0) :
    ∃ sN, tableLoop cN W ts s = .ok sN ∧ isLater sN s0 ∧
      (sN.updatedRows < N → sN = s0) ∧ sN.updatedRows ≤ N := by
  induction ts generalizing s with
  | nil =>
    injection h with h
    subst h
    exact ⟨s, rfl, isLater_refl s, fun _ => rfl, Nat.le_of_lt hs⟩
  | cons t ts ih =>
    rw [tableLoop_cons] at h
    rw [tableLoop_cons, ho, hd]
    split
    · rename_i hc
      rw [if_pos hc] at h
      exact ih s hs h
    · rename_i hc
      rw [if_neg hc] at h
      cases hq : W.select (selectSql t (c0.dbPrefix ++ t.table)) with
      | error e => rw [hq] at h; exact absurd h (by simp)
      | ok rows =>
        rw [hq] at h
        simp only [] at h ⊢
        cases hr : rowLoop c0 W t (c0.dbPrefix ++ t.table) rows s with
        | error e => rw [hr] at h; exact absurd h (by simp)
        | ok s2 =>
          rw [hr] at h
          simp only [h0, Bool.false_eq_true, if_false] at h
          obtain ⟨sN, e1, l1, q1, b1⟩ :=
            rowLoop_limit_sim c0 cN W t (c0.dbPrefix ++ t.table) N h0 hstop (hp t _) rows s s2
              hs hr
          rw [e1]
          simp only [hstop]
          by_cases hc2 : N ≤ sN.updatedRows
          · rw [if_pos (by simpa using hc2)]
            exact ⟨sN, rfl, isLater_trans l1 (tableLoop_later c0 W ts s2 s0 h),
              fun hlt => by omega, b1⟩
          · rw [if_neg (by simpa using hc2)]
            have e2 : sN = s2 := q1 (by omega)
            subst e2
            exact ih sN (by omega) h

theorem processRow_sqlLogOk (cfg : Config) (W : World) (t : TableCfg) (tn : Str)
    (s s1 : RunState) (row : Row) (h : processRow cfg W t tn s row = .ok s1)
    (hs : sqlLogOk cfg s) : sqlLogOk cfg s1 := by
  unfold sqlLogOk at hs ⊢
  obtain ⟨-, h2⟩ := processRow_step cfg W t tn s s1 row h
  rcases h2 with ⟨h2, h3⟩ | ⟨h2, ⟨hd, h3⟩ | ⟨hd, q, h3⟩⟩
  · rw [h2, h3]; exact hs
  · rw [h3, hs, hd]; simp
  · rw [hd] at hs
    rw [h3, hd, h2]
    simp at hs ⊢
    exact hs

theorem rowLoop_sqlLogOk (cfg : Config) (W : World) (t : TableCfg) (tn : Str)
    (rows : List Row) (s s1 : RunState) (h : rowLoop cfg W t tn rows s = .ok s1)
    (hs : sqlLogOk cfg s) : sqlLogOk cfg s1 := by
  induction rows generalizing s with
  | nil =>
    injection h with h
    subst h
    exact hs
  | cons row rows ih =>
    rw [rowLoop_cons] at h
    cases hp : processRow cfg W t tn s row with
    | error e => rw [hp] at h; exact absurd h (by simp)
    | ok s2 =>
      rw [hp] at h
      simp only [] at h
      have l1 := processRow_sqlLogOk cfg W t tn s s2 row hp hs
      split at h
      · injection h with h
        subst h
        exact l1
      · exact ih s2 h l1

theorem tableLoop_sqlLogOk (cfg : Config) (W : World) (ts : List TableCfg)
    (s s1 : RunState) (h : tableLoop cfg W ts s = .ok s1)
    (hs : sqlLogOk cfg s) : sqlLogOk cfg s1 := by
  induction ts generalizing s with
  | nil =>
    injection h with h
    subst h
    exact hs
  | cons t ts ih =>
    rw [tableLoop_cons] at h
    split at h
    · exact ih s h hs
    · cases hq : W.select (selectSql t (cfg.dbPrefix ++ t.table)) with
      | error e => rw [hq] at h; exact absurd h (by simp)
      | ok rows =>
        rw [hq] at h
        simp only [] at h
        cases hr : rowLoop cfg W t (cfg.dbPrefix ++ t.table) rows s with
        | error e => rw [hr] at h; exact absurd h (by simp)
        | ok s2 =>
          rw [hr] at h
          simp only [] at h
          have l1 := rowLoop_sqlLogOk cfg W t _ rows s s2 hr hs
          split at h
          · injection h with h
            subst h
            exact l1
          · exact ih s2 h l1

theorem limitReached_frac (num : Int) (denPred n : Nat) (hpos : 0 < num) :
    limitReached (.frac num denPred) n = decide (limitCeil (.frac num denPred) ≤ n) := by
  unfold limitReached JsNumber.gtZero JsNumber.leNat limitCeil
  simp only [hpos, decide_True, Bool.true_and]
  obtain ⟨k, rfl⟩ : ∃ k : Nat, num = (k : Int) := ⟨num.toNat, by omega⟩
  have e : ((k : Int) ≤ (n : Int) * ((denPred : Int) + 1)) ↔ k ≤ n * (denPred + 1) := by
    constructor
    · intro h; exact_mod_cast h
    · intro h; exact_mod_cast h
  have e2 : (k + denPred) / (denPred + 1) ≤ n ↔ k ≤ n * (denPred + 1) := by
    rw [Nat.div_le_iff_le_mul_add_pred (Nat.succ_pos denPred)]
    have : (denPred + 1) * n = n * (denPred + 1) := Nat.mul_comm _ _
    rw [this]
    generalize n * (denPred + 1) = m
    omega
  simp only [Int.toNat_ofNat]
  rw [decide_eq_decide, e, e2]

theorem limitCeil_pos (num : Int) (denPred : Nat) (hpos : 0 < num) :
    0 < limitCeil (.frac num denPred) := by
  have h := limitReached_frac num denPred 0 hpos
  by_contra hc
  have h0 : limitCeil (.frac num denPred) ≤ 0 := by omega
  rw [decide_eq_true h0] at h
  unfold limitReached JsNumber.leNat at h
  simp only [Bool.and_eq_true, decide_eq_true_eq] at h
  have := h.2
  simp at this
  omega

theorem limitReached_zero (n : Nat) : limitReached (0 : JsNumber) n = false := rfl

theorem limitReached_none (L : JsNumber) (h : L.gtZero = false ∨ L = .posInf) (n : Nat) :
    limitReached L n = false := by
  rcases h with h | h
  · simp [limitReached, h]
  · subst h; rfl

theorem rowLoop_no_limit (c1 c0 : Config) (W : World) (t : TableCfg) (tn : Str)
    (h1 : ∀ n, limitReached c1.LIMIT n = false) (h0 : ∀ n, limitReached c0.LIMIT n = false)
    (hp : ∀ s row, processRow c1 W t tn s row = processRow c0 W t tn s row)
    (rows : List Row) (s : RunState) :
    rowLoop c1 W t tn rows s = rowLoop c0 W t tn rows s := by
  induction rows generalizing s with
  | nil => rfl
  | cons row rows ih =>
    rw [rowLoop_cons, rowLoop_cons, hp]
    cases processRow c0 W t tn s row with
    | error e => rfl
    | ok s2 =>
      simp only [h1, h0, Bool.false_eq_true, if_false]
      exact ih s2

theorem tableLoop_no_limit (c1 c0 : Config) (W : World)
    (h1 : ∀ n, limitReached c1.LIMIT n = false) (h0 : ∀ n, limitReached c0.LIMIT n = false)
    (hp : ∀ t tn s row, processRow c1 W t tn s row = processRow c0 W t tn s row)
    (ho : c1.ONLY_TABLES = c0.ONLY_TABLES) (hd : c1.dbPrefix = c0.dbPrefix)
    (ts : List TableCfg) (s : RunState) :
    tableLoop c1 W ts s = tableLoop c0 W ts s := by
  induction ts generalizing s with
  | nil => rfl
  | cons t ts ih =>
    rw [tableLoop_cons, tableLoop_cons, ho, hd]
    split
    · exact ih s
    · cases W.select (selectSql t (c0.dbPrefix ++ t.table)) with
      | error e => rfl
      | ok rows =>
        simp only []
        rw [rowLoop_no_limit c1 c0 W t _ h1 h0 (hp t _) rows s]
        cases rowLoop c0 W t (c0.dbPrefix ++ t.table) rows s with
        | error e => rfl
        | ok s2 =>
          simp only [h1, h0, Bool.false_eq_true, if_false]
          exact ih s2

/-- Claim C9, as the code has it. Let the limit be a positive finite number `L`, whole or
not, and `N` the least whole number with `N >= L` (so `N = L` for a whole limit). The run
never updates more than `N` rows. When the unlimited run on the same data updates at least
`N` rows, the limited run updates exactly `N`, sends exactly the first `N` `UPDATE`
statements of the unlimited run, and stops there: the rows after the one of the `N`-th
update are not scanned (the unlimited run scans at least one more row per further update),
whatever they hold. A limit that is not positive, or infinite, is no limit. -/
theorem run_limit (cfg : Config) (W : World) (num : Int) (denPred : Nat) (hpos : 0 < num) :
    (∀ n : Nat, limitCeil (.frac num denPred) ≤ n ↔ num ≤ (n : Int) * ((denPred : Int) + 1)) ∧
    (∀ N : Nat, limitCeil (.frac N 0) = N) ∧
    (∀ sN, run { cfg with LIMIT := .frac num denPred } W = .ok sN →
      sN.updatedRows ≤ limitCeil (.frac num denPred)) ∧
    (∀ s0, run { cfg with LIMIT := 0 } W = .ok s0 →
      limitCeil (.frac num denPred) ≤ s0.updatedRows →
      ∃ sN, run { cfg with LIMIT := .frac num denPred } W = .ok sN ∧
        sN.updatedRows = limitCeil (.frac num denPred) ∧
        sN.sqlLog = s0.sqlLog.take (limitCeil (.frac num denPred)) ∧
        sN.scannedRows + (s0.updatedRows - limitCeil (.frac num denPred)) ≤ s0.scannedRows) ∧
    (∀ t tn row rows s s1,
      processRow { cfg with LIMIT := .frac num denPred } W t tn s row = .ok s1 →
      limitCeil (.frac num denPred) ≤ s1.updatedRows →
      rowLoop { cfg with LIMIT := .frac num denPred } W t tn (row :: rows) s = .ok s1) ∧
    (∀ L : JsNumber, L.gtZero = false ∨ L = .posInf →
      run { cfg with LIMIT := L } W = run { cfg with LIMIT := 0 } W) := by
  have hstop := fun n => limitReached_frac num denPred n hpos
  have hN := limitCeil_pos num denPred hpos
  refine ⟨?_, ?_, ?_, ?_, ?_, ?_⟩
  · intro n
    have h := hstop n
    unfold limitReached JsNumber.gtZero JsNumber.leNat at h
    simp only [hpos, decide_True, Bool.true_and] at h
    constructor
    · intro hle
      rw [decide_eq_true hle] at h
      simpa using h
    · intro hle
      rw [decide_eq_true hle] at h
      simpa using h.symm
  · intro N
    simp [limitCeil]
  · intro sN h
    exact tableLoop_limit_le { cfg with LIMIT := .frac num denPred } W _ hstop TABLES _ sN hN h
  · intro s0 h hle
    obtain ⟨sN, e, l, q, b⟩ := tableLoop_limit_sim { cfg with LIMIT := 0 }
      { cfg with LIMIT := .frac num denPred } W _ limitReached_zero hstop
      (fun _ _ _ _ => rfl) rfl rfl TABLES _ s0 hN h
    have hu : sN.updatedRows = limitCeil (.frac num denPred) := by
      by_contra hne
      have hlt : sN.updatedRows < limitCeil (.frac num denPred) := Nat.lt_of_le_of_ne b hne
      have := q hlt
      subst this
      omega
    have okN : sqlLogOk { cfg with LIMIT := .frac num denPred } sN :=
      tableLoop_sqlLogOk _ W TABLES _ sN e (by simp [sqlLogOk])
    have ok0 : sqlLogOk { cfg with LIMIT := 0 } s0 :=
      tableLoop_sqlLogOk _ W TABLES _ s0 h (by simp [sqlLogOk])
    obtain ⟨lp, lu, lc⟩ := l
    refine ⟨sN, e, hu, ?_, by omega⟩
    have ht := List.prefix_iff_eq_take.mp lp
    unfold sqlLogOk at okN ok0
    simp only [] at okN ok0
    cases hd : cfg.DRY_RUN
    · rw [hd] at okN
      simp at okN
      rw [ht, okN, hu]
    · rw [hd] at okN ok0
      simp at okN ok0
      rw [okN, ok0]
      simp
  · intro t tn row rows s s1 h hle
    rw [rowLoop_cons, h]
    simp only [hstop]
    rw [if_pos (by simpa using hle)]
  · intro L hL
    exact tableLoop_no_limit { cfg with LIMIT := L } { cfg with LIMIT := 0 } W
      (limitReached_none L hL) limitReached_zero (fun _ _ _ _ => rfl) rfl rfl TABLES _

/-- Witness of `run_limit`: the limit 1.5 on a table of two migratable rows stops at two
updated rows. -/
theorem run_limit_witness :
    ∃ sN, run { exampleConfig false 0 with LIMIT := .frac 3 1 }
        (exampleWorld pngRequest (fun _ _ _ => .ok ()) (exampleSelect twoAdRows)) = .ok sN ∧
      sN.updatedRows = 2 := by
  have h0 : ∃ s0, run { exampleConfig false 0 with LIMIT := 0 }
      (exampleWorld pngRequest (fun _ _ _ => .ok ()) (exampleSelect twoAdRows)) = .ok s0 ∧
      s0.updatedRows = 2 := ⟨_, rfl, by decide⟩
  obtain ⟨s0, h, hu⟩ := h0
  have hc : limitCeil (.frac 3 1) = 2 := by decide
  obtain ⟨sN, e, u, -⟩ := (run_limit (exampleConfig false 0)
    (exampleWorld pngRequest (fun _ _ _ => .ok ()) (exampleSelect twoAdRows)) 3 1
    (by decide)).2.2.2.1 s0 h (by rw [hc, hu])
  exact ⟨sN, e, by rw [u, hc]⟩

/-- Claim C9 fails as stated: with `--limit=1` and two migratable rows the run updates the
first row and stops; the second row is not scanned (`scannedRows` is 1, where the unlimited
run scans and updates both rows). And a limit that is not whole is not the number of
updated rows: `--limit=1.5` updates two rows and `--limit=0.5` one. -/
theorem run_limit_counterexample :
    counters (run (exampleConfig false 1)
      (exampleWorld pngRequest (fun _ _ _ => .ok ()) (exampleSelect twoAdRows))) =
        some (1, 1, 1) ∧
    counters (run (exampleConfig false 0)
      (exampleWorld pngRequest (fun _ _ _ => .ok ()) (exampleSelect twoAdRows))) =
        some (2, 2, 2) ∧
    counters (run { exampleConfig false 0 with LIMIT := .frac 3 1 }
      (exampleWorld pngRequest (fun _ _ _ => .ok ()) (exampleSelect twoAdRows))) =
        some (2, 2, 2) ∧
    counters (run { exampleConfig false 0 with LIMIT := .frac 1 1 }
      (exampleWorld pngRequest (fun _ _ _ => .ok ()) (exampleSelect twoAdRows))) =
        some (1, 1, 1) := by
  decide

/-! ## Dry run and apply mode -/

theorem upload_parity (cfg : Config) (W : World) (hput : ∀ k b c, W.put k b c = .ok ())
    (a b : Cache) (u : Str) (h : sameCaches a b) :
    (uploadToOssByUrl { cfg with DRY_RUN := true } W a u).2 =
        (uploadToOssByUrl { cfg with DRY_RUN := false } W b u).2 ∧
      sameCaches (uploadToOssByUrl { cfg with DRY_RUN := true } W a u).1
        (uploadToOssByUrl { cfg with DRY_RUN := false } W b u).1 := by
  obtain ⟨h1, h2, h3, h4⟩ := h
  rcases upload_cases { cfg with DRY_RUN := true } W a u with ⟨m, g1, g⟩ | ⟨e, g1, g2, g⟩ |
    ⟨e, g1, g2, g3, g⟩ | ⟨body, ct, e, g1, g2, g3, gd, gp, g⟩ | ⟨body, ct, g1, g2, g3, gd, gp, g⟩ |
    ⟨body, ct, g1, g2, g3, gd, g⟩
  · rw [g, upload_hit _ W b u m (by rw [← h1]; exact g1)]
    exact ⟨rfl, h1, h2, h3, by simp [h4]⟩
  · rw [g, upload_failed _ W b u e (by rw [← h1]; exact g1) (by rw [← h2]; exact g2)]
    exact ⟨rfl, h1, h2, h3, by simp [h4]⟩
  · rw [g, upload_fetch_error _ W b u e (by rw [← h1]; exact g1) (by rw [← h2]; exact g2) g3]
    exact ⟨rfl, h1, h2, by simp [h3], by simp [h4]⟩
  · exact absurd gd (by simp)
  · exact absurd gd (by simp)
  · rw [g, upload_put_ok _ W b u body ct (by rw [← h1]; exact g1) (by rw [← h2]; exact g2) g3
      rfl (hput _ _ _)]
    exact ⟨rfl, by simp [h1], h2, by simp [h3], by simp [h4]⟩

theorem migrateTextField_parity (cfg : Config) (W : World)
    (hput : ∀ k b c, W.put k b c = .ok ()) (a b : Cache) (v : JsVal) (h : sameCaches a b) :
    (migrateTextField { cfg with DRY_RUN := true } W a v).2 =
        (migrateTextField { cfg with DRY_RUN := false } W b v).2 ∧
      sameCaches (migrateTextField { cfg with DRY_RUN := true } W a v).1
        (migrateTextField { cfg with DRY_RUN := false } W b v).1 := by
  cases v with
  | str s =>
    unfold migrateTextField
    simp only []
    have e : shouldMigrateUrl { cfg with DRY_RUN := true } (.str s) =
      shouldMigrateUrl { cfg with DRY_RUN := false } (.str s) := rfl
    rw [e]
    split
    · exact ⟨rfl, h⟩
    · split
      · obtain ⟨p1, p2⟩ := upload_parity cfg W hput a b s h
        generalize uploadToOssByUrl { cfg with DRY_RUN := true } W a s = x at p1 p2
        generalize uploadToOssByUrl { cfg with DRY_RUN := false } W b s = y at p1 p2
        obtain ⟨x1, x2⟩ := x
        obtain ⟨y1, y2⟩ := y
        simp only [] at p1 p2
        subst p1
        cases x2 with
        | error e => exact ⟨rfl, p2⟩
        | ok m => exact ⟨rfl, p2⟩
      · exact ⟨rfl, h⟩
  | undefined => exact ⟨rfl, h⟩
  | null => exact ⟨rfl, h⟩
  | num n => exact ⟨rfl, h⟩
theorem htmlWorkerStep_parity (cfg : Config) (W : World)
    (hput : ∀ k b c, W.put k b c = .ok ()) (a b : Cache) (r : List (Str × Str)) (u : Str)
    (h : sameCaches a b) :
    (htmlWorkerStep { cfg with DRY_RUN := true } W (a, r) u).2 =
        (htmlWorkerStep { cfg with DRY_RUN := false } W (b, r) u).2 ∧
      sameCaches (htmlWorkerStep { cfg with DRY_RUN := true } W (a, r) u).1
        (htmlWorkerStep { cfg with DRY_RUN := false } W (b, r) u).1 := by
  unfold htmlWorkerStep
  obtain ⟨p1, p2⟩ := upload_parity cfg W hput a b u h
  simp only []
  generalize uploadToOssByUrl { cfg with DRY_RUN := true } W a u = x at p1 p2
  generalize uploadToOssByUrl { cfg with DRY_RUN := false } W b u = y at p1 p2
  obtain ⟨x1, x2⟩ := x
  obtain ⟨y1, y2⟩ := y
  simp only [] at p1 p2
  subst p1
  obtain ⟨q1, q2, q3, q4⟩ := p2
  cases x2 with
  | error e => exact ⟨rfl, q1, by simp [q2], q3, by simp [q4]⟩
  | ok m => exact ⟨rfl, q1, q2, q3, q4⟩

theorem htmlWorkers_parity (cfg : Config) (W : World)
    (hput : ∀ k b c, W.put k b c = .ok ()) (urls : List Str) (a b : Cache)
    (r : List (Str × Str)) (h : sameCaches a b) :
    (urls.foldl (htmlWorkerStep { cfg with DRY_RUN := true } W) (a, r)).2 =
        (urls.foldl (htmlWorkerStep { cfg with DRY_RUN := false } W) (b, r)).2 ∧
      sameCaches (urls.foldl (htmlWorkerStep { cfg with DRY_RUN := true } W) (a, r)).1
        (urls.foldl (htmlWorkerStep { cfg with DRY_RUN := false } W) (b, r)).1 := by
  induction urls generalizing a b r with
  | nil => exact ⟨rfl, h⟩
  | cons u us ih =>
    rw [List.foldl_cons, List.foldl_cons]
    obtain ⟨p1, p2⟩ := htmlWorkerStep_parity cfg W hput a b r u h
    generalize htmlWorkerStep { cfg with DRY_RUN := true } W (a, r) u = x at p1 p2
    generalize htmlWorkerStep { cfg with DRY_RUN := false } W (b, r) u = y at p1 p2
    obtain ⟨x1, x2⟩ := x
    obtain ⟨y1, y2⟩ := y
    simp only [] at p1 p2
    subst p1
    exact ih x1 y1 x2 p2

theorem migrateHtmlField_parity (cfg : Config) (W : World)
    (hput : ∀ k b c, W.put k b c = .ok ()) (a b : Cache) (v : JsVal) (h : sameCaches a b) :
    (migrateHtmlField { cfg with DRY_RUN := true } W a v).2 =
        (migrateHtmlField { cfg with DRY_RUN := false } W b v).2 ∧
      sameCaches (migrateHtmlField { cfg with DRY_RUN := true } W a v).1
        (migrateHtmlField { cfg with DRY_RUN := false } W b v).1 := by
  cases v with
  | str s =>
    unfold migrateHtmlField
    simp only []
    have e : ∀ url, shouldMigrateUrl { cfg with DRY_RUN := true } (.str url) =
      shouldMigrateUrl { cfg with DRY_RUN := false } (.str url) := fun _ => rfl
    simp only [e]
    split
    · exact ⟨rfl, h⟩
    · split
      · exact ⟨rfl, h⟩
      · obtain ⟨p1, p2⟩ := htmlWorkers_parity cfg W hput
          (W.completion ((extractUrlsFromHtml (.str s)).filter
            (fun url => shouldMigrateUrl { cfg with DRY_RUN := false } (.str url) &&
              isLikelyImageUrl url))) a b [] h
        simp only []
        rw [p1]
        exact ⟨rfl, p2⟩
  | undefined => exact ⟨rfl, h⟩
  | null => exact ⟨rfl, h⟩
  | num n => exact ⟨rfl, h⟩

theorem processField_parity (cfg : Config) (W : World)
    (hput : ∀ k b c, W.put k b c = .ok ()) (row : Row) (a b : RunState)
    (upd : List (Str × JsVal)) (f : Str) (h : sameButWrites a b) :
    (processField { cfg with DRY_RUN := true } W row (a, upd) f).2 =
        (processField { cfg with DRY_RUN := false } W row (b, upd) f).2 ∧
      sameButWrites (processField { cfg with DRY_RUN := true } W row (a, upd) f).1
        (processField { cfg with DRY_RUN := false } W row (b, upd) f).1 := by
  obtain ⟨hc, h1, h2, h3⟩ := h
  unfold processField
  simp only []
  split
  · obtain ⟨p1, p2⟩ := migrateHtmlField_parity cfg W hput a.cache b.cache (rowGet row f) hc
    generalize migrateHtmlField { cfg with DRY_RUN := true } W a.cache (rowGet row f) = x
      at p1 p2
    generalize migrateHtmlField { cfg with DRY_RUN := false } W b.cache (rowGet row f) = y
      at p1 p2
    obtain ⟨x1, x2, x3⟩ := x
    obtain ⟨y1, y2, y3⟩ := y
    simp only [Prod.mk.injEq] at p1 p2
    obtain ⟨e1, e2⟩ := p1
    subst e1 e2
    simp only []
    split
    · exact ⟨rfl, p2, h1, h2, by simp [h3]⟩
    · exact ⟨rfl, p2, h1, h2, h3⟩
  · obtain ⟨p1, p2⟩ := migrateTextField_parity cfg W hput a.cache b.cache (rowGet row f) hc
    generalize migrateTextField { cfg with DRY_RUN := true } W a.cache (rowGet row f) = x
      at p1 p2
    generalize migrateTextField { cfg with DRY_RUN := false } W b.cache (rowGet row f) = y
      at p1 p2
    obtain ⟨x1, x2⟩ := x
    obtain ⟨y1, y2⟩ := y
    simp only [] at p1 p2
    subst p1
    obtain ⟨q1, q2, q3, q4⟩ := p2
    cases x2 with
    | error e => exact ⟨rfl, ⟨q1, by simp [q2], q3, by simp [q4]⟩, h1, h2, h3⟩
    | ok cv =>
      obtain ⟨c, nv⟩ := cv
      simp only []
      split
      · exact ⟨rfl, ⟨q1, q2, q3, q4⟩, h1, h2, by simp [h3]⟩
      · exact ⟨rfl, ⟨q1, q2, q3, q4⟩, h1, h2, h3⟩

theorem fields_parity (cfg : Config) (W : World)
    (hput : ∀ k b c, W.put k b c = .ok ()) (row : Row) (fields : List Str) (a b : RunState)
    (upd : List (Str × JsVal)) (h : sameButWrites a b) :
    (fields.foldl (processField { cfg with DRY_RUN := true } W row) (a, upd)).2 =
        (fields.foldl (processField { cfg with DRY_RUN := false } W row) (b, upd)).2 ∧
      sameButWrites (fields.foldl (processField { cfg with DRY_RUN := true } W row) (a, upd)).1
        (fields.foldl (processField { cfg with DRY_RUN := false } W row) (b, upd)).1 := by
  induction fields generalizing a b upd with
  | nil => exact ⟨rfl, h⟩
  | cons f fs ih =>
    rw [List.foldl_cons, List.foldl_cons]
    obtain ⟨p1, p2⟩ := processField_parity cfg W hput row a b upd f h
    generalize processField { cfg with DRY_RUN := true } W row (a, upd) f = x at p1 p2
    generalize processField { cfg with DRY_RUN := false } W row (b, upd) f = y at p1 p2
    obtain ⟨x1, x2⟩ := x
    obtain ⟨y1, y2⟩ := y
    simp only [] at p1 p2
    subst p1
    exact ih x1 y1 x2 p2
theorem processRow_parity (cfg : Config) (W : World)
    (hput : ∀ k b c, W.put k b c = .ok ()) (hupd : ∀ q p, W.update q p = .ok ())
    (t : TableCfg) (tn : Str) (a b : RunState) (row : Row) (h : sameButWrites a b) :
    sameOutcome (processRow { cfg with DRY_RUN := true } W t tn a row)
      (processRow { cfg with DRY_RUN := false } W t tn b row) := by
  unfold processRow finishRow
  simp only []
  have h' : sameButWrites { a with scannedRows := a.scannedRows + 1 }
      { b with scannedRows := b.scannedRows + 1 } := by
    obtain ⟨hc, h1, h2, h3⟩ := h
    exact ⟨hc, by simp [h1], h2, h3⟩
  obtain ⟨p1, p2⟩ := fields_parity cfg W hput row t.fields _ _ [] h'
  generalize List.foldl (processField { cfg with DRY_RUN := true } W row)
    ({ a with scannedRows := a.scannedRows + 1 }, []) t.fields = x at p1 p2
  generalize List.foldl (processField { cfg with DRY_RUN := false } W row)
    ({ b with scannedRows := b.scannedRows + 1 }, []) t.fields = y at p1 p2
  obtain ⟨x1, x2⟩ := x
  obtain ⟨y1, y2⟩ := y
  simp only [] at p1 p2
  subst p1
  obtain ⟨hc, h1, h2, h3⟩ := p2
  simp only [Bool.not_true, Bool.false_eq_true, if_false, Bool.not_false, if_true, hupd]
  split
  · exact ⟨hc, h1, by simp [h2], h3⟩
  · exact ⟨hc, h1, h2, h3⟩

theorem rowLoop_parity (cfg : Config) (W : World)
    (hput : ∀ k b c, W.put k b c = .ok ()) (hupd : ∀ q p, W.update q p = .ok ())
    (t : TableCfg) (tn : Str) (rows : List Row) (a b : RunState) (h : sameButWrites a b) :
    sameOutcome (rowLoop { cfg with DRY_RUN := true } W t tn rows a)
      (rowLoop { cfg with DRY_RUN := false } W t tn rows b) := by
  induction rows generalizing a b with
  | nil => exact h
  | cons row rows ih =>
    rw [rowLoop_cons, rowLoop_cons]
    have p := processRow_parity cfg W hput hupd t tn a b row h
    generalize processRow { cfg with DRY_RUN := true } W t tn a row = x at p
    generalize processRow { cfg with DRY_RUN := false } W t tn b row = y at p
    cases x with
    | error e1 =>
      cases y with
      | error e2 => exact p
      | ok b1 => exact p.elim
    | ok a1 =>
      cases y with
      | error e2 => exact p.elim
      | ok b1 =>
        have hu : a1.updatedRows = b1.updatedRows := p.2.2.1
        simp only [hu]
        split
        · exact p
        · exact ih a1 b1 p

theorem tableLoop_parity (cfg : Config) (W : World)
    (hput : ∀ k b c, W.put k b c = .ok ()) (hupd : ∀ q p, W.update q p = .ok ())
    (ts : List TableCfg) (a b : RunState) (h : sameButWrites a b) :
    sameOutcome (tableLoop { cfg with DRY_RUN := true } W ts a)
      (tableLoop { cfg with DRY_RUN := false } W ts b) := by
  induction ts generalizing a b with
  | nil => exact h
  | cons t ts ih =>
    rw [tableLoop_cons, tableLoop_cons]
    simp only []
    split
    · exact ih a b h
    · cases W.select (selectSql t (cfg.dbPrefix ++ t.table)) with
      | error e => rfl
      | ok rows =>
        simp only []
        have p := rowLoop_parity cfg W hput hupd t (cfg.dbPrefix ++ t.table) rows a b h
        generalize rowLoop { cfg with DRY_RUN := true } W t (cfg.dbPrefix ++ t.table) rows a = x
          at p
        generalize rowLoop { cfg with DRY_RUN := false } W t (cfg.dbPrefix ++ t.table) rows b = y
          at p
        cases x with
        | error e1 =>
          cases y with
          | error e2 => exact p
          | ok b1 => exact p.elim
        | ok a1 =>
          cases y with
          | error e2 => exact p.elim
          | ok b1 =>
            have hu : a1.updatedRows = b1.updatedRows := p.2.2.1
            simp only [hu]
            split
            · exact p
            · exact ih a1 b1 p

theorem migrateTextField_dry_ignores (cfg : Config) (W : World)
    (p : Str → Str → Str → Except Str Unit)
    (q : Str → List JsVal → Except Str Unit) (st : Cache) (v : JsVal) :
    migrateTextField { cfg with DRY_RUN := true } { W with put := p, update := q } st v =
      migrateTextField { cfg with DRY_RUN := true } W st v := rfl

theorem migrateHtmlField_dry_ignores (cfg : Config) (W : World)
    (p : Str → Str → Str → Except Str Unit)
    (q : Str → List JsVal → Except Str Unit) (st : Cache) (v : JsVal) :
    migrateHtmlField { cfg with DRY_RUN := true } { W with put := p, update := q } st v =
      migrateHtmlField { cfg with DRY_RUN := true } W st v := rfl

theorem processRow_dry_ignores (cfg : Config) (W : World)
    (p : Str → Str → Str → Except Str Unit)
    (q : Str → List JsVal → Except Str Unit) (t : TableCfg) (tn : Str) (s : RunState)
    (row : Row) :
    processRow { cfg with DRY_RUN := true } { W with put := p, update := q } t tn s row =
      processRow { cfg with DRY_RUN := true } W t tn s row := rfl

theorem rowLoop_dry_ignores (cfg : Config) (W : World)
    (p : Str → Str → Str → Except Str Unit)
    (q : Str → List JsVal → Except Str Unit) (t : TableCfg) (tn : Str) (rows : List Row)
    (s : RunState) :
    rowLoop { cfg with DRY_RUN := true } { W with put := p, update := q } t tn rows s =
      rowLoop { cfg with DRY_RUN := true } W t tn rows s := by
  induction rows generalizing s with
  | nil => rfl
  | cons row rows ih =>
    rw [rowLoop_cons, rowLoop_cons, processRow_dry_ignores]
    cases processRow { cfg with DRY_RUN := true } W t tn s row with
    | error e => rfl
    | ok s1 =>
      simp only []
      split
      · rfl
      · exact ih s1

theorem tableLoop_dry_ignores (cfg : Config) (W : World)
    (p : Str → Str → Str → Except Str Unit)
    (q : Str → List JsVal → Except Str Unit) (ts : List TableCfg) (s : RunState) :
    tableLoop { cfg with DRY_RUN := true } { W with put := p, update := q } ts s =
      tableLoop { cfg with DRY_RUN := true } W ts s := by
  induction ts generalizing s with
  | nil => rfl
  | cons t ts ih =>
    rw [tableLoop_cons, tableLoop_cons]
    simp only []
    split
    · exact ih s
    · cases W.select (selectSql t (cfg.dbPrefix ++ t.table)) with
      | error e => rfl
      | ok rows =>
        simp only []
        rw [rowLoop_dry_ignores]
        cases rowLoop { cfg with DRY_RUN := true } W t (cfg.dbPrefix ++ t.table) rows s with
        | error e => rfl
        | ok s1 =>
          simp only []
          split
          · rfl
          · exact ih s1

theorem world_with_writes (Wd Wa : World) (hreq : Wd.request = Wa.request)
    (hmd5 : Wd.md5hex = Wa.md5hex) (hdate : Wd.isoDate = Wa.isoDate)
    (hcomp : Wd.completion = Wa.completion) (hsel : Wd.select = Wa.select) :
    { Wd with put := Wa.put, update := Wa.update } = Wa := by
  cases Wd
  cases Wa
  simp only [] at hreq hmd5 hdate hcomp hsel
  subst hreq hmd5 hdate hcomp hsel
  rfl

/-- Claim C6, as the code has it. Let the dry run and the apply run see the same inputs:
the same fetch result for every URL, the same digest and date, the same rows, and the
worker pool of every HTML field completing its URLs in the same order; and let every
`client.put` and every `UPDATE` of the apply run succeed. Then the two runs agree. From
states that differ at most in the writes, `migrateTextField` and `migrateHtmlField` give the
same `(changed, nextValue)` (or throw the same error) and leave such states again, so
every field of every row gets the same result; and the two runs end with the same maps,
the same fetches and the same `scannedRows`, `updatedRows` and `migratedFieldCount`, or
both throw the same error. -/
theorem dry_run_parity (cfg : Config) (Wd Wa : World)
    (hreq : Wd.request = Wa.request) (hmd5 : Wd.md5hex = Wa.md5hex)
    (hdate : Wd.isoDate = Wa.isoDate) (hcomp : Wd.completion = Wa.completion)
    (hsel : Wd.select = Wa.select)
    (hput : ∀ k b c, Wa.put k b c = .ok ()) (hupd : ∀ q p, Wa.update q p = .ok ()) :
    (∀ a b v, sameCaches a b →
      (migrateTextField { cfg with DRY_RUN := true } Wd a v).2 =
          (migrateTextField { cfg with DRY_RUN := false } Wa b v).2 ∧
        sameCaches (migrateTextField { cfg with DRY_RUN := true } Wd a v).1
          (migrateTextField { cfg with DRY_RUN := false } Wa b v).1) ∧
    (∀ a b v, sameCaches a b →
      (migrateHtmlField { cfg with DRY_RUN := true } Wd a v).2 =
          (migrateHtmlField { cfg with DRY_RUN := false } Wa b v).2 ∧
        sameCaches (migrateHtmlField { cfg with DRY_RUN := true } Wd a v).1
          (migrateHtmlField { cfg with DRY_RUN := false } Wa b v).1) ∧
    sameOutcome (run { cfg with DRY_RUN := true } Wd) (run { cfg with DRY_RUN := false } Wa) := by
  have hW := world_with_writes Wd Wa hreq hmd5 hdate hcomp hsel
  refine ⟨?_, ?_, ?_⟩
  · intro a b v h
    rw [← migrateTextField_dry_ignores cfg Wd Wa.put Wa.update a v, hW]
    exact migrateTextField_parity cfg Wa hput a b v h
  · intro a b v h
    rw [← migrateHtmlField_dry_ignores cfg Wd Wa.put Wa.update a v, hW]
    exact migrateHtmlField_parity cfg Wa hput a b v h
  · unfold run
    rw [← tableLoop_dry_ignores cfg Wd Wa.put Wa.update, hW]
    exact tableLoop_parity cfg Wa hput hupd TABLES _ _ ⟨⟨rfl, rfl, rfl, rfl⟩, rfl, rfl, rfl⟩

/-- Witness of `dry_run_parity`: the table of two migratable rows, every put accepted, the
same world for both runs. -/
theorem dry_run_parity_witness :
    sameOutcome
      (run { exampleConfig false 0 with DRY_RUN := true }
        (exampleWorld pngRequest (fun _ _ _ => .ok ()) (exampleSelect twoAdRows)))
      (run { exampleConfig false 0 with DRY_RUN := false }
        (exampleWorld pngRequest (fun _ _ _ => .ok ()) (exampleSelect twoAdRows))) :=
  (dry_run_parity (exampleConfig false 0)
    (exampleWorld pngRequest (fun _ _ _ => .ok ()) (exampleSelect twoAdRows))
    (exampleWorld pngRequest (fun _ _ _ => .ok ()) (exampleSelect twoAdRows))
    rfl rfl rfl rfl rfl (fun _ _ _ => rfl) (fun _ _ => rfl)).2.2

/-- Claim C6 fails as stated. When the object store rejects the put, the apply run leaves
the field unchanged and updates no row, while the dry run, which skips the put, reports
the row as updated. And with every put accepted, when the pool of an HTML field completes
its two URLs in queue order in the dry run and in the other order in the apply run, the
two runs compute different values for the field. -/
theorem dry_run_parity_counterexample :
    (counters (run (exampleConfig true 0)
        (exampleWorld pngRequest (fun _ _ _ => .error "AccessDenied".toList)
          (exampleSelect twoAdRows))) = some (2, 2, 2) ∧
      counters (run (exampleConfig false 0)
        (exampleWorld pngRequest (fun _ _ _ => .error "AccessDenied".toList)
          (exampleSelect twoAdRows))) = some (2, 0, 0)) ∧
    (migrateHtmlField (exampleConfig true 0)
        (exampleWorld pngRequest (fun _ _ _ => .ok ()) (fun _ => .ok [])) Cache.init
        (.str "<img src='http://h/a.png'><img src='http://h/a.png?v=2'>".toList)).2 ≠
      (migrateHtmlField (exampleConfig false 0)
        { exampleWorld pngRequest (fun _ _ _ => .ok ()) (fun _ => .ok []) with
          completion := List.reverse } Cache.init
        (.str "<img src='http://h/a.png'><img src='http://h/a.png?v=2'>".toList)).2 := by
  decide

/-! ## The keys of the migration cache -/

theorem mem_mapSet {κ : Type} [DecidableEq κ] (m : List (κ × Str)) (k : κ) (v : Str)
    (p : κ × Str) (h : p ∈ mapSet m k v) : p.1 = k ∨ p ∈ m := by
  induction m with
  | nil =>
    simp only [mapSet, List.mem_singleton] at h
    exact Or.inl (by rw [h])
  | cons a m ih =>
    obtain ⟨k0, v0⟩ := a
    unfold mapSet at h
    split at h
    · rename_i hk
      rcases List.mem_cons.mp h with h | h
      · exact Or.inl (by rw [h]; exact hk)
      · exact Or.inr (List.mem_cons_of_mem _ h)
    · rcases List.mem_cons.mp h with h | h
      · exact Or.inr (by rw [h]; exact List.mem_cons_self _ _)
      · rcases ih h with h | h
        · exact Or.inl h
        · exact Or.inr (List.mem_cons_of_mem _ h)

theorem upload_keysOk (cfg : Config) (W : World) (st : Cache) (u : Str)
    (hu : shouldMigrateUrl cfg (.str u) = true) (h : keysOk cfg st) :
    keysOk cfg (uploadToOssByUrl cfg W st u).1 := by
  obtain ⟨h1, h2, h3⟩ := h
  have ht : ∀ l : List JsVal, (∀ k ∈ l, k = .str u) → ∀ k ∈ st.touched ++ l,
      shouldMigrateUrl cfg k = true := by
    intro l hl k hk
    rcases List.mem_append.mp hk with hk | hk
    · exact h1 k hk
    · rw [hl k hk]; exact hu
  have hc : ∀ m, ∀ p ∈ mapSet st.urlCache u m, shouldMigrateUrl cfg (.str p.1) = true := by
    intro m p hp
    rcases mem_mapSet _ _ _ _ hp with hp | hp
    · rw [hp]; exact hu
    · exact h2 p hp
  rcases upload_cases cfg W st u with ⟨m, g1, g⟩ | ⟨e, g1, g2, g⟩ |
    ⟨e, g1, g2, g3, g⟩ | ⟨body, ct, e, g1, g2, g3, gd, gp, g⟩ | ⟨body, ct, g1, g2, g3, gd, gp, g⟩ |
    ⟨body, ct, g1, g2, g3, gd, g⟩ <;> rw [g]
  · exact ⟨ht _ (by simp), h2, h3⟩
  · exact ⟨by rw [List.append_assoc]; exact ht _ (by simp), h2, h3⟩
  · exact ⟨by rw [List.append_assoc]; exact ht _ (by simp), h2, h3⟩
  · exact ⟨by rw [List.append_assoc]; exact ht _ (by simp), h2, h3⟩
  · exact ⟨by simpa [List.append_assoc] using ht [.str u, .str u, .str u] (by simp), hc _, h3⟩
  · exact ⟨by simpa [List.append_assoc] using ht [.str u, .str u, .str u] (by simp), hc _, h3⟩

theorem record_keysOk (cfg : Config) (st : Cache) (k : JsVal) (e : Str)
    (hu : shouldMigrateUrl cfg k = true) (h : keysOk cfg st) :
    keysOk cfg { st with failedUrls := mapSet st.failedUrls k e,
                         touched := st.touched ++ [k] } := by
  obtain ⟨h1, h2, h3⟩ := h
  refine ⟨?_, h2, ?_⟩
  · intro x hx
    rcases List.mem_append.mp hx with hx | hx
    · exact h1 x hx
    · rw [List.mem_singleton.mp hx]; exact hu
  · intro p hp
    rcases mem_mapSet _ _ _ _ hp with hp | hp
    · rw [hp]; exact hu
    · exact h3 p hp

theorem migrateTextField_keysOk (cfg : Config) (W : World) (st : Cache) (v : JsVal)
    (h : keysOk cfg st) :
    keysOk cfg (migrateTextField cfg W st v).1 ∧
      (∀ e, (migrateTextField cfg W st v).2 = .error e → shouldMigrateUrl cfg v = true) := by
  cases v with
  | str s =>
    unfold migrateTextField
    simp only []
    split
    · exact ⟨h, fun e he => absurd he (by simp)⟩
    · split
      · rename_i hm
        have hu : shouldMigrateUrl cfg (.str s) = true := (Bool.and_eq_true _ _ ▸ hm).1
        have p := upload_keysOk cfg W st s hu h
        generalize uploadToOssByUrl cfg W st s = x at p
        obtain ⟨x1, x2⟩ := x
        cases x2 with
        | error e => exact ⟨p, fun _ _ => hu⟩
        | ok m => exact ⟨p, fun e he => absurd he (by simp)⟩
      · exact ⟨h, fun e he => absurd he (by simp)⟩
  | undefined => exact ⟨h, fun e he => absurd he (by simp [migrateTextField])⟩
  | null => exact ⟨h, fun e he => absurd he (by simp [migrateTextField])⟩
  | num n => exact ⟨h, fun e he => absurd he (by simp [migrateTextField])⟩

theorem htmlWorkerStep_keysOk (cfg : Config) (W : World) (acc : Cache × List (Str × Str))
    (u : Str) (hu : shouldMigrateUrl cfg (.str u) = true) (h : keysOk cfg acc.1) :
    keysOk cfg (htmlWorkerStep cfg W acc u).1 := by
  unfold htmlWorkerStep
  have p := upload_keysOk cfg W acc.1 u hu h
  generalize uploadToOssByUrl cfg W acc.1 u = x at p
  obtain ⟨x1, x2⟩ := x
  cases x2 with
  | error e => exact record_keysOk cfg x1 (.str u) e hu p
  | ok m => exact p

theorem htmlWorkers_keysOk (cfg : Config) (W : World) (urls : List Str)
    (acc : Cache × List (Str × Str))
    (hu : ∀ u ∈ urls, shouldMigrateUrl cfg (.str u) = true) (h : keysOk cfg acc.1) :
    keysOk cfg (urls.foldl (htmlWorkerStep cfg W) acc).1 := by
  induction urls generalizing acc with
  | nil => exact h
  | cons u us ih =>
    rw [List.foldl_cons]
    exact ih _ (fun x hx => hu x (List.mem_cons_of_mem _ hx))
      (htmlWorkerStep_keysOk cfg W acc u (hu u (List.mem_cons_self _ _)) h)

theorem migrateHtmlField_keysOk (cfg : Config) (W : World)
    (hW : ∀ q, (W.completion q).Perm q) (st : Cache) (v : JsVal) (h : keysOk cfg st) :
    keysOk cfg (migrateHtmlField cfg W st v).1 := by
  cases v with
  | str s =>
    unfold migrateHtmlField
    simp only []
    split
    · exact h
    · split
      · exact h
      · refine htmlWorkers_keysOk cfg W _ (st, []) ?_ h
        intro u hu
        have := (hW _).subset hu
        have := (List.mem_filter.mp this).2
        exact (Bool.and_eq_true _ _ ▸ this).1
  | undefined => exact h
  | null => exact h
  | num n => exact h

theorem processField_keysOk (cfg : Config) (W : World)
    (hW : ∀ q, (W.completion q).Perm q) (row : Row) (acc : RunState × List (Str × JsVal))
    (f : Str) (h : keysOk cfg acc.1.cache) :
    keysOk cfg (processField cfg W row acc f).1.cache := by
  unfold processField
  simp only []
  split
  · have p := migrateHtmlField_keysOk cfg W hW acc.1.cache (rowGet row f) h
    generalize migrateHtmlField cfg W acc.1.cache (rowGet row f) = x at p
    obtain ⟨x1, x2, x3⟩ := x
    simp only []
    split <;> exact p
  · obtain ⟨p, q⟩ := migrateTextField_keysOk cfg W acc.1.cache (rowGet row f) h
    generalize migrateTextField cfg W acc.1.cache (rowGet row f) = x at p q
    obtain ⟨x1, x2⟩ := x
    cases x2 with
    | error e => exact record_keysOk cfg x1 _ e (q e rfl) p
    | ok cv =>
      obtain ⟨c, nv⟩ := cv
      simp only []
      split <;> exact p
theorem fields_keysOk (cfg : Config) (W : World)
    (hW : ∀ q, (W.completion q).Perm q) (row : Row) (fields : List Str)
    (acc : RunState × List (Str × JsVal)) (h : keysOk cfg acc.1.cache) :
    keysOk cfg (fields.foldl (processField cfg W row) acc).1.cache := by
  induction fields generalizing acc with
  | nil => exact h
  | cons f fs ih =>
    rw [List.foldl_cons]
    exact ih _ (processField_keysOk cfg W hW row acc f h)

theorem finishRow_cache (cfg : Config) (W : World) (t : TableCfg) (tn : Str) (row : Row)
    (r : RunState × List (Str × JsVal)) (s1 : RunState)
    (h : finishRow cfg W t tn row r = .ok s1) : s1.cache = r.1.cache := by
  unfold finishRow at h
  simp only [] at h
  split at h
  · split at h
    · split at h
      · exact absurd h (by simp)
      · injection h with h
        subst h
        rfl
    · injection h with h
      subst h
      rfl
  · injection h with h
    subst h
    rfl

theorem processRow_keysOk (cfg : Config) (W : World)
    (hW : ∀ q, (W.completion q).Perm q) (t : TableCfg) (tn : Str) (s s1 : RunState)
    (row : Row) (h : processRow cfg W t tn s row = .ok s1) (hs : keysOk cfg s.cache) :
    keysOk cfg s1.cache := by
  unfold processRow at h
  rw [finishRow_cache cfg W t tn row _ s1 h]
  exact fields_keysOk cfg W hW row t.fields _ hs

theorem rowLoop_keysOk (cfg : Config) (W : World)
    (hW : ∀ q, (W.completion q).Perm q) (t : TableCfg) (tn : Str)
    (rows : List Row) (s s1 : RunState) (h : rowLoop cfg W t tn rows s = .ok s1)
    (hs : keysOk cfg s.cache) : keysOk cfg s1.cache := by
  induction rows generalizing s with
  | nil =>
    injection h with h
    subst h
    exact hs
  | cons row rows ih =>
    rw [rowLoop_cons] at h
    cases hp : processRow cfg W t tn s row with
    | error e => rw [hp] at h; exact absurd h (by simp)
    | ok s2 =>
      rw [hp] at h
      simp only [] at h
      have l1 := processRow_keysOk cfg W hW t tn s s2 row hp hs
      split at h
      · injection h with h
        subst h
        exact l1
      · exact ih s2 h l1

theorem tableLoop_keysOk (cfg : Config) (W : World)
    (hW : ∀ q, (W.completion q).Perm q) (ts : List TableCfg)
    (s s1 : RunState) (h : tableLoop cfg W ts s = .ok s1)
    (hs : keysOk cfg s.cache) : keysOk cfg s1.cache := by
  induction ts generalizing s with
  | nil =>
    injection h with h
    subst h
    exact hs
  | cons t ts ih =>
    rw [tableLoop_cons] at h
    split at h
    · exact ih s h hs
    · cases hq : W.select (selectSql t (cfg.dbPrefix ++ t.table)) with
      | error e => rw [hq] at h; exact absurd h (by simp)
      | ok rows =>
        rw [hq] at h
        simp only [] at h
        cases hr : rowLoop cfg W t (cfg.dbPrefix ++ t.table) rows s with
        | error e => rw [hr] at h; exact absurd h (by simp)
        | ok s2 =>
          rw [hr] at h
          simp only [] at h
          have l1 := rowLoop_keysOk cfg W hW t _ rows s s2 hr hs
          split at h
          · injection h with h
            subst h
            exact l1
          · exact ih s2 h l1

theorem jsTrim_keeps_domain (oss v : Str) (hne : oss ≠ [])
    (hh : ∀ c ∈ oss.head?, isJsSpace c = false)
    (hl : ∀ c ∈ oss.getLast?, isJsSpace c = false)
    (hp : jsStartsWith v oss = true) : jsStartsWith (jsTrim v) oss = true := by
  unfold jsStartsWith at hp ⊢
  rw [List.isPrefixOf_iff_prefix] at hp ⊢
  obtain ⟨rest, hv⟩ := hp
  obtain ⟨init, d, ho⟩ : ∃ init d, oss = init ++ [d] := by
    rcases List.eq_nil_or_concat oss with h | ⟨i, d, h⟩
    · exact absurd h hne
    · exact ⟨i, d, by rw [h, List.concat_eq_append]⟩
  have hd : isJsSpace d = false := hl d (by rw [ho]; simp)
  have hv2 : v = init ++ d :: rest := by rw [← hv, ho]; simp
  have hdrop : v.dropWhile isJsSpace = v := by
    cases hi : init with
    | nil =>
      rw [hv2, hi]
      simp [List.dropWhile, hd]
    | cons c i =>
      have hc : isJsSpace c = false := hh c (by rw [ho, hi]; rfl)
      rw [hv2, hi]
      simp [List.dropWhile, hc]
  unfold jsTrim
  rw [hdrop, hv2, rdropWhile_append_keep isJsSpace init rest d hd, ho]
  exact ⟨rest.rdropWhile isJsSpace, by simp⟩

/-- Claim C5, as the code has it. When the pool of an HTML field completes exactly the
URLs of its queue, every key looked up in or written to `urlCache` and `failedUrls` is a
string classified migratable: each field step keeps that true, and it is true of the
state a finished run ends in. In particular a single-URL field (`migrateTextField`) whose
value starts with the target domain, the domain being non-empty with no white space at
either end, is reported unchanged and leaves the state as it was: no access to either map,
no entry created. -/
theorem cache_keys_migratable (cfg : Config) (W : World)
    (hW : ∀ q, (W.completion q).Perm q) :
    (∀ row acc f, keysOk cfg acc.1.cache →
      keysOk cfg (processField cfg W row acc f).1.cache) ∧
    (∀ s, run cfg W = .ok s → keysOk cfg s.cache) ∧
    (∀ st v, cfg.ossDomain ≠ [] → (∀ c ∈ cfg.ossDomain.head?, isJsSpace c = false) →
      (∀ c ∈ cfg.ossDomain.getLast?, isJsSpace c = false) →
      jsStartsWith v cfg.ossDomain = true →
      migrateTextField cfg W st (.str v) = (st, .ok (false, .str v))) := by
  refine ⟨fun row acc f h => processField_keysOk cfg W hW row acc f h, ?_, ?_⟩
  · intro s h
    exact tableLoop_keysOk cfg W hW TABLES _ s h
      ⟨fun _ hk => absurd hk (List.not_mem_nil _), fun _ hk => absurd hk (List.not_mem_nil _),
        fun _ hk => absurd hk (List.not_mem_nil _)⟩
  · intro st v hne hh hl hp
    have hs := jsTrim_keeps_domain cfg.ossDomain v hne hh hl hp
    have hm : shouldMigrateUrl cfg (.str v) = false := by
      rw [shouldMigrateUrl_str, hs]
      have : cfg.ossDomain.isEmpty = false := by
        cases hd : cfg.ossDomain with
        | nil => exact absurd hd hne
        | cons a b => rfl
      rw [this]
      simp
    unfold migrateTextField
    simp only [hm, Bool.false_and, Bool.false_eq_true, if_false]
    split <;> rfl

/-- Witness of `cache_keys_migratable`: after the run over two migratable rows every key of
the cache is migratable. -/
theorem cache_keys_migratable_witness :
    ∃ s, run (exampleConfig false 0)
        (exampleWorld pngRequest (fun _ _ _ => .ok ()) (exampleSelect twoAdRows)) = .ok s ∧
      keysOk (exampleConfig false 0) s.cache :=
  ⟨_, rfl, (cache_keys_migratable (exampleConfig false 0)
    (exampleWorld pngRequest (fun _ _ _ => .ok ()) (exampleSelect twoAdRows))
    (fun _ => List.Perm.refl _)).2.1 _ rfl⟩

/-- Claim C5 fails as stated: a `goods_desc` value that starts with the target domain and
goes on with a legacy image is reported changed, and a cache entry is created. -/
theorem cache_keys_counterexample :
    jsStartsWith "https://cdn.example.com/x.png <img src='http://h/a.png'>".toList
      (exampleConfig true 0).ossDomain = true ∧
    (migrateHtmlField (exampleConfig true 0)
      (exampleWorld pngRequest (fun _ _ _ => .ok ()) (fun _ => .ok [])) Cache.init
      (.str "https://cdn.example.com/x.png <img src='http://h/a.png'>".toList)).2.1 = true ∧
    (migrateHtmlField (exampleConfig true 0)
      (exampleWorld pngRequest (fun _ _ _ => .ok ()) (fun _ => .ok [])) Cache.init
      (.str "https://cdn.example.com/x.png <img src='http://h/a.png'>".toList)).1.urlCache =
      [("http://h/a.png".toList,
        "https://cdn.example.com/legacy-migration/2026-01-01/md5(http://h/a.png).png".toList)] := by
  decide
/-! ## Isolation of a failed fetch -/

theorem upload_agree (cfg : Config) (W : World) (v r : Str)
    (hd : downloadImage W v = .error r) (a b : Cache) (u : Str) (h : agreeCaches v r a b) :
    (uploadToOssByUrl cfg W a u).2 = (uploadToOssByUrl cfg W b u).2 ∧
      agreeCaches v r (uploadToOssByUrl cfg W a u).1 (uploadToOssByUrl cfg W b u).1 ∧
      (u = v → (uploadToOssByUrl cfg W a u).2 = .error r) := by
  obtain ⟨h1, h2, h3, h4, h5⟩ := h
  by_cases huv : u = v
  · subst huv
    rw [upload_failed cfg W a u r h2 h3]
    rcases h4 with h4 | h4
    · rw [upload_fetch_error cfg W b u r (by rw [← h1]; exact h2) h4 hd]
      exact ⟨rfl, ⟨h1, h2, h3, Or.inl h4, h5⟩, fun _ => rfl⟩
    · rw [upload_failed cfg W b u r (by rw [← h1]; exact h2) h4]
      exact ⟨rfl, ⟨h1, h2, h3, Or.inr h4, h5⟩, fun _ => rfl⟩
  · have hk : JsVal.str u ≠ JsVal.str v := fun e => huv (by injection e)
    have hvu : v ≠ u := fun e => huv e.symm
    rcases upload_cases cfg W a u with ⟨m, g1, g⟩ | ⟨e, g1, g2, g⟩ |
      ⟨e, g1, g2, g3, g⟩ | ⟨body, ct, e, g1, g2, g3, gd, gp, g⟩ |
      ⟨body, ct, g1, g2, g3, gd, gp, g⟩ | ⟨body, ct, g1, g2, g3, gd, g⟩
    · rw [g, upload_hit cfg W b u m (by rw [← h1]; exact g1)]
      exact ⟨rfl, ⟨h1, h2, h3, h4, h5⟩, fun e => absurd e huv⟩
    · rw [g, upload_failed cfg W b u e (by rw [← h1]; exact g1) (by rw [← h5 _ hk]; exact g2)]
      exact ⟨rfl, ⟨h1, h2, h3, h4, h5⟩, fun e => absurd e huv⟩
    · rw [g, upload_fetch_error cfg W b u e (by rw [← h1]; exact g1)
        (by rw [← h5 _ hk]; exact g2) g3]
      exact ⟨rfl, ⟨h1, h2, h3, h4, h5⟩, fun e => absurd e huv⟩
    · rw [g, upload_put_error cfg W b u body ct e (by rw [← h1]; exact g1)
        (by rw [← h5 _ hk]; exact g2) g3 gd gp]
      exact ⟨rfl, ⟨h1, h2, h3, h4, h5⟩, fun e => absurd e huv⟩
    · rw [g, upload_put_ok cfg W b u body ct (by rw [← h1]; exact g1)
        (by rw [← h5 _ hk]; exact g2) g3 gd gp]
      refine ⟨rfl, ⟨?_, ?_, h3, h4, h5⟩, fun e => absurd e huv⟩
      · show mapSet a.urlCache u _ = mapSet b.urlCache u _
        rw [h1]
      · show mapGet (mapSet a.urlCache u _) v = none
        rw [mapGet_mapSet_ne _ _ _ _ hvu]; exact h2
    · rw [g, upload_dry cfg W b u body ct (by rw [← h1]; exact g1)
        (by rw [← h5 _ hk]; exact g2) g3 gd]
      refine ⟨rfl, ⟨?_, ?_, h3, h4, h5⟩, fun e => absurd e huv⟩
      · show mapSet a.urlCache u _ = mapSet b.urlCache u _
        rw [h1]
      · show mapGet (mapSet a.urlCache u _) v = none
        rw [mapGet_mapSet_ne _ _ _ _ hvu]; exact h2

theorem record_agree (v r : Str) (a b : Cache) (k : JsVal) (e : Str)
    (hk : k = .str v → e = r) (h : agreeCaches v r a b) :
    agreeCaches v r
      { a with failedUrls := mapSet a.failedUrls k e, touched := a.touched ++ [k] }
      { b with failedUrls := mapSet b.failedUrls k e, touched := b.touched ++ [k] } := by
  obtain ⟨h1, h2, h3, h4, h5⟩ := h
  by_cases hkv : k = .str v
  · have he := hk hkv
    subst he hkv
    refine ⟨h1, h2, mapGet_mapSet_self _ _ _, Or.inr (mapGet_mapSet_self _ _ _), ?_⟩
    intro k hk
    show mapGet (mapSet a.failedUrls _ _) k = mapGet (mapSet b.failedUrls _ _) k
    rw [mapGet_mapSet_ne _ _ _ _ hk, mapGet_mapSet_ne _ _ _ _ hk]
    exact h5 k hk
  · have hvk : JsVal.str v ≠ k := fun e => hkv e.symm
    refine ⟨h1, h2, ?_, ?_, ?_⟩
    · show mapGet (mapSet a.failedUrls _ _) _ = _
      rw [mapGet_mapSet_ne _ _ _ _ hvk]; exact h3
    · show mapGet (mapSet b.failedUrls _ _) _ = _ ∨ mapGet (mapSet b.failedUrls _ _) _ = _
      rw [mapGet_mapSet_ne _ _ _ _ hvk]; exact h4
    · intro k2 hk2
      show mapGet (mapSet a.failedUrls _ _) k2 = mapGet (mapSet b.failedUrls _ _) k2
      by_cases e2 : k2 = k
      · subst e2
        rw [mapGet_mapSet_self, mapGet_mapSet_self]
      · rw [mapGet_mapSet_ne _ _ _ _ e2, mapGet_mapSet_ne _ _ _ _ e2]
        exact h5 k2 hk2
theorem migrateTextField_agree (cfg : Config) (W : World) (v r : Str)
    (hd : downloadImage W v = .error r) (a b : Cache) (x : JsVal) (h : agreeCaches v r a b) :
    (migrateTextField cfg W a x).2 = (migrateTextField cfg W b x).2 ∧
      agreeCaches v r (migrateTextField cfg W a x).1 (migrateTextField cfg W b x).1 ∧
      (∀ e, (migrateTextField cfg W a x).2 = .error e → x = .str v → e = r) := by
  cases x with
  | str s =>
    unfold migrateTextField
    simp only []
    split
    · exact ⟨rfl, h, fun e he => absurd he (by simp)⟩
    · split
      · obtain ⟨p1, p2, p3⟩ := upload_agree cfg W v r hd a b s h
        generalize uploadToOssByUrl cfg W a s = x at p1 p2 p3
        generalize uploadToOssByUrl cfg W b s = y at p1 p2
        obtain ⟨x1, x2⟩ := x
        obtain ⟨y1, y2⟩ := y
        simp only [] at p1 p2 p3
        subst p1
        cases x2 with
        | error e =>
          refine ⟨rfl, p2, ?_⟩
          intro e' he hs
          have hsv : s = v := by injection hs
          have := p3 hsv
          simp only [] at he
          injection he with he
          injection this with this
          rw [← he, this]
        | ok m => exact ⟨rfl, p2, fun e he => absurd he (by simp)⟩
      · exact ⟨rfl, h, fun e he => absurd he (by simp)⟩
  | undefined => exact ⟨rfl, h, fun e he => absurd he (by simp [migrateTextField])⟩
  | null => exact ⟨rfl, h, fun e he => absurd he (by simp [migrateTextField])⟩
  | num n => exact ⟨rfl, h, fun e he => absurd he (by simp [migrateTextField])⟩

theorem htmlWorkerStep_agree (cfg : Config) (W : World) (v r : Str)
    (hd : downloadImage W v = .error r) (a b : Cache) (rep : List (Str × Str)) (u : Str)
    (h : agreeCaches v r a b) :
    (htmlWorkerStep cfg W (a, rep) u).2 = (htmlWorkerStep cfg W (b, rep) u).2 ∧
      agreeCaches v r (htmlWorkerStep cfg W (a, rep) u).1
        (htmlWorkerStep cfg W (b, rep) u).1 := by
  unfold htmlWorkerStep
  obtain ⟨p1, p2, p3⟩ := upload_agree cfg W v r hd a b u h
  simp only []
  generalize uploadToOssByUrl cfg W a u = x at p1 p2 p3
  generalize uploadToOssByUrl cfg W b u = y at p1 p2
  obtain ⟨x1, x2⟩ := x
  obtain ⟨y1, y2⟩ := y
  simp only [] at p1 p2 p3
  subst p1
  cases x2 with
  | error e =>
    refine ⟨rfl, record_agree v r x1 y1 (.str u) e ?_ p2⟩
    intro hk
    have huv : u = v := by injection hk
    have := p3 huv
    injection this with this
  | ok m => exact ⟨rfl, p2⟩

theorem htmlWorkers_agree (cfg : Config) (W : World) (v r : Str)
    (hd : downloadImage W v = .error r) (urls : List Str) (a b : Cache)
    (rep : List (Str × Str)) (h : agreeCaches v r a b) :
    (urls.foldl (htmlWorkerStep cfg W) (a, rep)).2 =
        (urls.foldl (htmlWorkerStep cfg W) (b, rep)).2 ∧
      agreeCaches v r (urls.foldl (htmlWorkerStep cfg W) (a, rep)).1
        (urls.foldl (htmlWorkerStep cfg W) (b, rep)).1 := by
  induction urls generalizing a b rep with
  | nil => exact ⟨rfl, h⟩
  | cons u us ih =>
    rw [List.foldl_cons, List.foldl_cons]
    obtain ⟨p1, p2⟩ := htmlWorkerStep_agree cfg W v r hd a b rep u h
    generalize htmlWorkerStep cfg W (a, rep) u = x at p1 p2
    generalize htmlWorkerStep cfg W (b, rep) u = y at p1 p2
    obtain ⟨x1, x2⟩ := x
    obtain ⟨y1, y2⟩ := y
    simp only [] at p1 p2
    subst p1
    exact ih x1 y1 x2 p2

theorem migrateHtmlField_agree (cfg : Config) (W : World) (v r : Str)
    (hd : downloadImage W v = .error r) (a b : Cache) (x : JsVal) (h : agreeCaches v r a b) :
    (migrateHtmlField cfg W a x).2 = (migrateHtmlField cfg W b x).2 ∧
      agreeCaches v r (migrateHtmlField cfg W a x).1 (migrateHtmlField cfg W b x).1 := by
  cases x with
  | str s =>
    unfold migrateHtmlField
    simp only []
    split
    · exact ⟨rfl, h⟩
    · split
      · exact ⟨rfl, h⟩
      · obtain ⟨p1, p2⟩ := htmlWorkers_agree cfg W v r hd
          (W.completion ((extractUrlsFromHtml (.str s)).filter
            (fun url => shouldMigrateUrl cfg (.str url) && isLikelyImageUrl url))) a b [] h
        simp only []
        rw [p1]
        exact ⟨rfl, p2⟩
  | undefined => exact ⟨rfl, h⟩
  | null => exact ⟨rfl, h⟩
  | num n => exact ⟨rfl, h⟩

theorem processField_agree (cfg : Config) (W : World) (v r : Str)
    (hd : downloadImage W v = .error r) (row : Row) (a b : RunState)
    (upd : List (Str × JsVal)) (f : Str) (h : agreeStates v r a b) :
    (processField cfg W row (a, upd) f).2 = (processField cfg W row (b, upd) f).2 ∧
      agreeStates v r (processField cfg W row (a, upd) f).1
        (processField cfg W row (b, upd) f).1 := by
  obtain ⟨hc, h1, h2, h3, h4⟩ := h
  unfold processField
  simp only []
  split
  · obtain ⟨p1, p2⟩ := migrateHtmlField_agree cfg W v r hd a.cache b.cache (rowGet row f) hc
    generalize migrateHtmlField cfg W a.cache (rowGet row f) = x at p1 p2
    generalize migrateHtmlField cfg W b.cache (rowGet row f) = y at p1 p2
    obtain ⟨x1, x2, x3⟩ := x
    obtain ⟨y1, y2, y3⟩ := y
    simp only [Prod.mk.injEq] at p1 p2
    obtain ⟨e1, e2⟩ := p1
    subst e1 e2
    simp only []
    split
    · exact ⟨rfl, p2, h1, h2, by simp [h3], h4⟩
    · exact ⟨rfl, p2, h1, h2, h3, h4⟩
  · obtain ⟨p1, p2, p3⟩ :=
      migrateTextField_agree cfg W v r hd a.cache b.cache (rowGet row f) hc
    generalize migrateTextField cfg W a.cache (rowGet row f) = x at p1 p2 p3
    generalize migrateTextField cfg W b.cache (rowGet row f) = y at p1 p2
    obtain ⟨x1, x2⟩ := x
    obtain ⟨y1, y2⟩ := y
    simp only [] at p1 p2 p3
    subst p1
    cases x2 with
    | error e =>
      exact ⟨rfl, record_agree v r x1 y1 (rowGet row f) e (p3 e rfl) p2, h1, h2, h3, h4⟩
    | ok cv =>
      obtain ⟨c, nv⟩ := cv
      simp only []
      split
      · exact ⟨rfl, p2, h1, h2, by simp [h3], h4⟩
      · exact ⟨rfl, p2, h1, h2, h3, h4⟩

theorem fields_agree (cfg : Config) (W : World) (v r : Str)
    (hd : downloadImage W v = .error r) (row : Row) (fields : List Str) (a b : RunState)
    (upd : List (Str × JsVal)) (h : agreeStates v r a b) :
    (fields.foldl (processField cfg W row) (a, upd)).2 =
        (fields.foldl (processField cfg W row) (b, upd)).2 ∧
      agreeStates v r (fields.foldl (processField cfg W row) (a, upd)).1
        (fields.foldl (processField cfg W row) (b, upd)).1 := by
  induction fields generalizing a b upd with
  | nil => exact ⟨rfl, h⟩
  | cons f fs ih =>
    rw [List.foldl_cons, List.foldl_cons]
    obtain ⟨p1, p2⟩ := processField_agree cfg W v r hd row a b upd f h
    generalize processField cfg W row (a, upd) f = x at p1 p2
    generalize processField cfg W row (b, upd) f = y at p1 p2
    obtain ⟨x1, x2⟩ := x
    obtain ⟨y1, y2⟩ := y
    simp only [] at p1 p2
    subst p1
    exact ih x1 y1 x2 p2

theorem finishRow_agree (cfg : Config) (W : World) (v r : Str) (t : TableCfg) (tn : Str)
    (row : Row) (a b : RunState) (upd : List (Str × JsVal)) (h : agreeStates v r a b) :
    agreeOutcome v r (finishRow cfg W t tn row (a, upd)) (finishRow cfg W t tn row (b, upd)) := by
  obtain ⟨hc, h1, h2, h3, h4⟩ := h
  unfold finishRow
  simp only []
  split
  · split
    · cases W.update (updateSql tn t.pk (upd.map Prod.fst))
          (upd.map Prod.snd ++ [rowGet row t.pk]) with
      | error e => rfl
      | ok x => exact ⟨hc, h1, by simp [h2], h3, by simp [h4]⟩
    · exact ⟨hc, h1, by simp [h2], h3, h4⟩
  · exact ⟨hc, h1, h2, h3, h4⟩

theorem processRow_agree (cfg : Config) (W : World) (v r : Str)
    (hd : downloadImage W v = .error r) (t : TableCfg) (tn : Str) (a b : RunState) (row : Row)
    (h : agreeStates v r a b) :
    agreeOutcome v r (processRow cfg W t tn a row) (processRow cfg W t tn b row) := by
  unfold processRow
  have h' : agreeStates v r { a with scannedRows := a.scannedRows + 1 }
      { b with scannedRows := b.scannedRows + 1 } := by
    obtain ⟨hc, h1, h2, h3, h4⟩ := h
    exact ⟨hc, by simp [h1], h2, h3, h4⟩
  obtain ⟨p1, p2⟩ := fields_agree cfg W v r hd row t.fields _ _ [] h'
  generalize List.foldl (processField cfg W row)
    ({ a with scannedRows := a.scannedRows + 1 }, []) t.fields = x at p1 p2
  generalize List.foldl (processField cfg W row)
    ({ b with scannedRows := b.scannedRows + 1 }, []) t.fields = y at p1 p2
  obtain ⟨x1, x2⟩ := x
  obtain ⟨y1, y2⟩ := y
  simp only [] at p1 p2
  subst p1
  exact finishRow_agree cfg W v r t tn row x1 y1 x2 p2

theorem rowLoop_agree (cfg : Config) (W : World) (v r : Str)
    (hd : downloadImage W v = .error r) (t : TableCfg) (tn : Str) (rows : List Row)
    (a b : RunState) (h : agreeStates v r a b) :
    agreeOutcome v r (rowLoop cfg W t tn rows a) (rowLoop cfg W t tn rows b) := by
  induction rows generalizing a b with
  | nil => exact h
  | cons row rows ih =>
    rw [rowLoop_cons, rowLoop_cons]
    have p := processRow_agree cfg W v r hd t tn a b row h
    generalize processRow cfg W t tn a row = x at p
    generalize processRow cfg W t tn b row = y at p
    cases x with
    | error e1 =>
      cases y with
      | error e2 => exact p
      | ok b1 => exact p.elim
    | ok a1 =>
      cases y with
      | error e2 => exact p.elim
      | ok b1 =>
        have hu : a1.updatedRows = b1.updatedRows := p.2.2.1
        simp only [hu]
        split
        · exact p
        · exact ih a1 b1 p

theorem tableLoop_agree (cfg : Config) (W : World) (v r : Str)
    (hd : downloadImage W v = .error r) (ts : List TableCfg) (a b : RunState)
    (h : agreeStates v r a b) :
    agreeOutcome v r (tableLoop cfg W ts a) (tableLoop cfg W ts b) := by
  induction ts generalizing a b with
  | nil => exact h
  | cons t ts ih =>
    rw [tableLoop_cons, tableLoop_cons]
    split
    · exact ih a b h
    · cases W.select (selectSql t (cfg.dbPrefix ++ t.table)) with
      | error e => rfl
      | ok rows =>
        simp only []
        have p := rowLoop_agree cfg W v r hd t (cfg.dbPrefix ++ t.table) rows a b h
        generalize rowLoop cfg W t (cfg.dbPrefix ++ t.table) rows a = x at p
        generalize rowLoop cfg W t (cfg.dbPrefix ++ t.table) rows b = y at p
        cases x with
        | error e1 =>
          cases y with
          | error e2 => exact p
          | ok b1 => exact p.elim
        | ok a1 =>
          cases y with
          | error e2 => exact p.elim
          | ok b1 =>
            have hu : a1.updatedRows = b1.updatedRows := p.2.2.1
            simp only [hu]
            split
            · exact p
            · exact ih a1 b1 p
theorem processField_failed (cfg : Config) (W : World) (v r : Str)
    (hm : shouldMigrateUrl cfg (.str v) = true) (hi : isLikelyImageUrl v = true)
    (hd : downloadImage W v = .error r) (row : Row) (s : RunState)
    (upd : List (Str × JsVal)) (f : Str) (hf : f ≠ "goods_desc".toList)
    (hv : rowGet row f = .str v) (hu : mapGet s.cache.urlCache v = none)
    (hn : mapGet s.cache.failedUrls (.str v) = none ∨
      mapGet s.cache.failedUrls (.str v) = some r) :
    (processField cfg W row (s, upd) f).2 = upd ∧
      mapGet (processField cfg W row (s, upd) f).1.cache.failedUrls (.str v) = some r ∧
      agreeStates v r (processField cfg W row (s, upd) f).1 s := by
  have hne : v.isEmpty = false := by
    cases v with
    | nil => simp [shouldMigrateUrl] at hm
    | cons a b => rfl
  have hup : ∃ c1, uploadToOssByUrl cfg W s.cache v = (c1, .error r) ∧
      c1.urlCache = s.cache.urlCache ∧ c1.failedUrls = s.cache.failedUrls := by
    rcases hn with hn | hn
    · exact ⟨_, upload_fetch_error cfg W s.cache v r hu hn hd, rfl, rfl⟩
    · exact ⟨_, upload_failed cfg W s.cache v r hu hn, rfl, rfl⟩
  obtain ⟨c1, e1, e2, e3⟩ := hup
  have hmt : migrateTextField cfg W s.cache (.str v) = (c1, .error r) := by
    unfold migrateTextField
    simp only [hne, hm, hi, Bool.and_self, Bool.false_eq_true, if_false, if_true, e1]
  unfold processField
  simp only [hf, if_false, hv, hmt]
  refine ⟨trivial, ?_, ?_, rfl, rfl, rfl, rfl⟩
  · exact mapGet_mapSet_self _ _ _
  · refine ⟨e2, by rw [e2]; exact hu, mapGet_mapSet_self _ _ _, hn, ?_⟩
    intro k hk
    show mapGet (mapSet c1.failedUrls _ _) k = _
    rw [mapGet_mapSet_ne _ _ _ _ hk, e3]

theorem processField_skip (cfg : Config) (W : World) (row : Row)
    (acc : RunState × List (Str × JsVal)) (f : Str) (hf : f ≠ "goods_desc".toList)
    (hx : shouldMigrateUrl cfg (rowGet row f) = false) :
    processField cfg W row acc f = acc := by
  have hmt : migrateTextField cfg W acc.1.cache (rowGet row f) =
      (acc.1.cache, .ok (false, rowGet row f)) := by
    unfold migrateTextField
    cases hv : rowGet row f with
    | str s =>
      rw [hv] at hx
      simp only [hx, Bool.false_and, Bool.false_eq_true, if_false]
      split <;> rfl
    | undefined => rfl
    | null => rfl
    | num n => rfl
  unfold processField
  simp only [hf, if_false, hmt, Bool.false_eq_true]

/-- Claim C8. Let `v` be a migratable image URL whose fetch fails with reason `r`. A
single-URL field holding `v` (not yet in `urlCache`) adds nothing to the update map of its
row, leaves `failedUrls` mapping `v` to `r`, returns normally, and leaves a state that
agrees with the one before it up to that entry; a field holding a value that is not
migratable leaves the state as it is. From two states that agree up to that entry, the
remaining fields give the same update map, the row is written (or not) alike, and the
remaining rows and tables end with the same counters and the same `UPDATE` statements, or
throw the same error. So the whole row is processed as if the failing field were skipped. -/
theorem failed_fetch_isolated (cfg : Config) (W : World) (v r : Str)
    (hm : shouldMigrateUrl cfg (.str v) = true) (hi : isLikelyImageUrl v = true)
    (hd : downloadImage W v = .error r) :
    (∀ row s upd f, f ≠ "goods_desc".toList → rowGet row f = .str v →
      mapGet s.cache.urlCache v = none →
      (mapGet s.cache.failedUrls (.str v) = none ∨
        mapGet s.cache.failedUrls (.str v) = some r) →
      (processField cfg W row (s, upd) f).2 = upd ∧
        mapGet (processField cfg W row (s, upd) f).1.cache.failedUrls (.str v) = some r ∧
        agreeStates v r (processField cfg W row (s, upd) f).1 s) ∧
    (∀ row acc f, f ≠ "goods_desc".toList → shouldMigrateUrl cfg (rowGet row f) = false →
      processField cfg W row acc f = acc) ∧
    (∀ a b, agreeStates v r a b →
      (∀ (row : Row) (fields : List Str) (upd : List (Str × JsVal)),
        (fields.foldl (processField cfg W row) (a, upd)).2 =
            (fields.foldl (processField cfg W row) (b, upd)).2 ∧
          agreeStates v r (fields.foldl (processField cfg W row) (a, upd)).1
            (fields.foldl (processField cfg W row) (b, upd)).1) ∧
      (∀ t tn row upd,
        agreeOutcome v r (finishRow cfg W t tn row (a, upd))
          (finishRow cfg W t tn row (b, upd))) ∧
      (∀ t tn rows, agreeOutcome v r (rowLoop cfg W t tn rows a) (rowLoop cfg W t tn rows b)) ∧
      (∀ ts, agreeOutcome v r (tableLoop cfg W ts a) (tableLoop cfg W ts b))) ∧
    (∀ t tn row s pre f post, t.fields = pre ++ f :: post → f ≠ "goods_desc".toList →
      rowGet row f = .str v →
      mapGet (pre.foldl (processField cfg W row)
        ({ s with scannedRows := s.scannedRows + 1 }, [])).1.cache.urlCache v = none →
      (mapGet (pre.foldl (processField cfg W row)
          ({ s with scannedRows := s.scannedRows + 1 }, [])).1.cache.failedUrls (.str v) = none ∨
        mapGet (pre.foldl (processField cfg W row)
          ({ s with scannedRows := s.scannedRows + 1 }, [])).1.cache.failedUrls (.str v) =
            some r) →
      agreeOutcome v r (processRow cfg W t tn s row)
        (finishRow cfg W t tn row (post.foldl (processField cfg W row)
          (pre.foldl (processField cfg W row)
            ({ s with scannedRows := s.scannedRows + 1 }, []))))) := by
  refine ⟨fun row s upd f hf hv hu hn =>
      processField_failed cfg W v r hm hi hd row s upd f hf hv hu hn,
    fun row acc f hf hx => processField_skip cfg W row acc f hf hx,
    fun a b h => ⟨fun row fields upd => fields_agree cfg W v r hd row fields a b upd h,
      fun t tn row upd => finishRow_agree cfg W v r t tn row a b upd h,
      fun t tn rows => rowLoop_agree cfg W v r hd t tn rows a b h,
      fun ts => tableLoop_agree cfg W v r hd ts a b h⟩, ?_⟩
  intro t tn row s pre f post hfs hf hv hu hn
  unfold processRow
  rw [hfs, List.foldl_append, List.foldl_cons]
  generalize pre.foldl (processField cfg W row)
    ({ s with scannedRows := s.scannedRows + 1 }, []) = mid at hu hn
  obtain ⟨m1, m2⟩ := mid
  obtain ⟨q1, -, q3⟩ := processField_failed cfg W v r hm hi hd row m1 m2 f hf hv hu hn
  generalize processField cfg W row (m1, m2) f = x at q1 q3
  obtain ⟨x1, x2⟩ := x
  simp only [] at q1 q3
  subst q1
  obtain ⟨p1, p2⟩ := fields_agree cfg W v r hd row post x1 m1 x2 q3
  generalize List.foldl (processField cfg W row) (x1, x2) post = y at p1 p2
  generalize List.foldl (processField cfg W row) (m1, x2) post = z at p1 p2
  obtain ⟨y1, y2⟩ := y
  obtain ⟨z1, z2⟩ := z
  simp only [] at p1 p2
  subst p1
  exact finishRow_agree cfg W v r t tn row y1 z1 y2 p2

/-- Witness of `failed_fetch_isolated`: the URL answers 404, the field is `image_url`. -/
theorem failed_fetch_isolated_witness :
    mapGet (processField (exampleConfig false 0)
        (exampleWorld (fun _ => .response 404 none []) (fun _ _ _ => .ok ()) (fun _ => .ok []))
        [("id".toList, .num 1), ("image_url".toList, .str "http://h/a.png".toList)]
        (⟨Cache.init, 1, 0, 0, []⟩, []) "image_url".toList).1.cache.failedUrls
      (.str "http://h/a.png".toList) = some "download_failed_status_404".toList :=
  ((failed_fetch_isolated (exampleConfig false 0)
    (exampleWorld (fun _ => .response 404 none []) (fun _ _ _ => .ok ()) (fun _ => .ok []))
    "http://h/a.png".toList "download_failed_status_404".toList (by decide) (by decide)
    (by rfl)).1
    [("id".toList, .num 1), ("image_url".toList, .str "http://h/a.png".toList)]
    ⟨Cache.init, 1, 0, 0, []⟩ [] "image_url".toList (by decide) (by rfl) (by rfl)
    (Or.inl (by rfl))).2.1
/-! ## Extraction of URL tokens -/

theorem isUrlTokenChar_eq (c : Char) : isUrlTokenChar c = !isTokenDelim c := by
  unfold isUrlTokenChar isTokenDelim
  cases c == Char.ofNat 34 <;> cases c == Char.ofNat 39 <;> cases c == '<' <;>
    cases c == '>' <;> cases c == ')' <;> cases isJsSpace c <;> rfl

theorem plusLoop_total {α : Type} (p : Char → Bool) (f : Str → α) (s : Str) :
    Re.plusLoop p s (fun s1 => some (f s1)) =
      if s.head?.any p then some (f (s.dropWhile p)) else none := by
  induction s with
  | nil => rfl
  | cons c cs ih =>
    unfold Re.plusLoop
    cases hc : p c
    · simp [hc]
    · simp only [if_true, ih, List.head?_cons, Option.any_some, hc, List.dropWhile_cons_of_pos]
      cases cs with
      | nil => rfl
      | cons d ds =>
        cases hd : p d
        · simp [hd, Option.orElse, List.dropWhile]
        · simp [hd, Option.orElse]

theorem matchHere_reUrlToken (s : Str) :
    Re.matchHere true reUrlToken s =
      (tokenRest s).map (fun rest => (s.take (s.length - rest.length), rest, [])) := by
  unfold Re.matchHere reUrlToken tokenRest
  rw [Re.run, run_reScheme]
  have hk : ∀ s1 : Str, Re.run true (.plusCls isUrlTokenChar) s1 []
      (fun rest caps => some (rest, caps)) =
      if s1.head?.any isUrlTokenChar then some (s1.dropWhile isUrlTokenChar, [])
      else none := by
    intro s1
    rw [Re.run]
    exact plusLoop_total isUrlTokenChar (fun s2 => (s2, ([] : List Str))) s1
  simp only [hk]
  split
  · split <;> rfl
  · split
    · split <;> rfl
    · rfl
theorem ciPrefixB_length (ci : Bool) (p s : Str) (h : ciPrefixB ci p s = true) :
    p.length ≤ s.length := by
  induction p generalizing s with
  | nil => simp
  | cons a p ih =>
    cases s with
    | nil => simp [ciPrefixB] at h
    | cons x s =>
      simp only [ciPrefixB, Bool.and_eq_true] at h
      have := ih s h.2
      simp only [List.length_cons]
      omega

theorem ciPrefixB_append_right (ci : Bool) (p a b : Str) (h : p.length ≤ a.length) :
    ciPrefixB ci p (a ++ b) = ciPrefixB ci p a := by
  induction p generalizing a with
  | nil => rfl
  | cons x p ih =>
    cases a with
    | nil => simp at h
    | cons y a =>
      show (Re.chrEq ci x y && ciPrefixB ci p (a ++ b)) = (Re.chrEq ci x y && ciPrefixB ci p a)
      rw [ih a (by simpa using h)]

theorem delim_toUpper (x : Char) (h : isUrlTokenChar x = false) : x.toUpper = x := by
  have hn : ¬ (x.toNat ≥ 97 ∧ x.toNat ≤ 122) := by
    unfold isUrlTokenChar isJsSpace at h
    simp only [Bool.not_eq_false', Bool.or_eq_true, beq_iff_eq, Bool.and_eq_true,
      decide_eq_true_eq] at h
    have e34 : (Char.ofNat 34).toNat = 34 := by decide
    have e39 : (Char.ofNat 39).toNat = 39 := by decide
    have e60 : ('<' : Char).toNat = 60 := by decide
    have e62 : ('>' : Char).toNat = 62 := by decide
    have e41 : (')' : Char).toNat = 41 := by decide
    rcases h with ((((h | h) | h) | h) | h) | h
    · rw [h, e34]; omega
    · rw [h, e39]; omega
    · rw [h, e60]; omega
    · rw [h, e62]; omega
    · omega
    · rw [h, e41]; omega
  unfold Char.toUpper
  simp only [hn, if_false]

theorem chrEq_token (a x : Char) (ha : isUrlTokenChar a.toUpper = true)
    (h : Re.chrEq true a x = true) : isUrlTokenChar x = true := by
  cases hx : isUrlTokenChar x with
  | true => rfl
  | false =>
    simp only [Re.chrEq, if_true, beq_iff_eq] at h
    rw [delim_toUpper x hx] at h
    rw [h, hx] at ha
    exact absurd ha (by simp)

theorem ciPrefixB_all (p s : Str) (hp : ∀ a ∈ p, isUrlTokenChar a.toUpper = true)
    (h : ciPrefixB true p s = true) : (s.take p.length).all isUrlTokenChar = true := by
  induction p generalizing s with
  | nil => simp
  | cons a p ih =>
    cases s with
    | nil => simp [ciPrefixB] at h
    | cons x s =>
      simp only [ciPrefixB, Bool.and_eq_true] at h
      simp only [List.length_cons, List.take_succ_cons, List.all_cons, Bool.and_eq_true]
      exact ⟨chrEq_token a x (hp a (List.mem_cons_self _ _)) h.1,
        ih s (fun b hb => hp b (List.mem_cons_of_mem _ hb)) h.2⟩

theorem scheme_chars_https : ∀ a ∈ "https://".toList, isUrlTokenChar a.toUpper = true := by
  decide

theorem scheme_chars_http : ∀ a ∈ "http://".toList, isUrlTokenChar a.toUpper = true := by
  decide
theorem dropWhile_head_not {α : Type} (p : α → Bool) (l : List α) :
    ∀ c ∈ (l.dropWhile p).head?, p c = false := by
  induction l with
  | nil => intro c hc; simp at hc
  | cons a l ih =>
    intro c hc
    cases ha : p a
    · rw [List.dropWhile_cons_of_neg (by simp [ha])] at hc
      simp only [List.head?_cons, Option.mem_def, Option.some.injEq] at hc
      rw [← hc]; exact ha
    · rw [List.dropWhile_cons_of_pos ha] at hc
      exact ih c hc

theorem dropWhile_append_all {α : Type} (p : α → Bool) (a b : List α)
    (ha : a.all p = true) (hb : ∀ c ∈ b.head?, p c = false) :
    (a ++ b).dropWhile p = b := by
  induction a with
  | nil =>
    cases b with
    | nil => rfl
    | cons c b =>
      have := hb c rfl
      simp [List.dropWhile, this]
  | cons x a ih =>
    simp only [List.all_cons, Bool.and_eq_true] at ha
    rw [List.cons_append, List.dropWhile_cons_of_pos ha.1]
    exact ih ha.2

theorem token_of_rest (p s : Str) (hp : ciPrefixB true p s = true)
    (hchars : ∀ a ∈ p, isUrlTokenChar a.toUpper = true)
    (hh : (s.drop p.length).head?.any isUrlTokenChar = true) :
    s = (s.take p.length ++ (s.drop p.length).takeWhile isUrlTokenChar) ++
        (s.drop p.length).dropWhile isUrlTokenChar ∧
      ciPrefixB true p (s.take p.length ++ (s.drop p.length).takeWhile isUrlTokenChar) = true ∧
      p.length < (s.take p.length ++ (s.drop p.length).takeWhile isUrlTokenChar).length ∧
      (s.take p.length ++ (s.drop p.length).takeWhile isUrlTokenChar).all isUrlTokenChar = true ∧
      ∀ c ∈ ((s.drop p.length).dropWhile isUrlTokenChar).head?, isUrlTokenChar c = false := by
  have hlen := ciPrefixB_length true p s hp
  have htl : (s.take p.length).length = p.length := by
    rw [List.length_take]; omega
  refine ⟨?_, ?_, ?_, ?_, dropWhile_head_not _ _⟩
  · rw [List.append_assoc, List.takeWhile_append_dropWhile, List.take_append_drop]
  · rw [ciPrefixB_append_right true p _ _ (by omega)]
    have := ciPrefixB_append_right true p (s.take p.length) (s.drop p.length) (by omega)
    rw [List.take_append_drop] at this
    rw [← this]; exact hp
  · rw [List.length_append, htl]
    cases hb : s.drop p.length with
    | nil => rw [hb] at hh; simp at hh
    | cons c cs =>
      rw [hb] at hh
      simp only [List.head?_cons, Option.any_some] at hh
      rw [List.takeWhile_cons_of_pos hh]
      simp
  · rw [List.all_append, ciPrefixB_all p s hchars hp]
    simp only [Bool.true_and, List.all_eq_true]
    intro c hc
    exact List.mem_takeWhile_imp hc

theorem rest_of_token (p u post : Str) (hp : ciPrefixB true p u = true)
    (hl : p.length < u.length) (hall : u.all isUrlTokenChar = true)
    (hpost : ∀ c ∈ post.head?, isUrlTokenChar c = false) :
    ciPrefixB true p (u ++ post) = true ∧
      ((u ++ post).drop p.length).head?.any isUrlTokenChar = true ∧
      ((u ++ post).drop p.length).dropWhile isUrlTokenChar = post := by
  have hd : (u ++ post).drop p.length = u.drop p.length ++ post := by
    rw [List.drop_append_of_le_length (by omega)]
  have hbody : (u.drop p.length).all isUrlTokenChar = true := by
    rw [List.all_eq_true] at hall ⊢
    intro c hc
    exact hall c (List.mem_of_mem_drop hc)
  refine ⟨?_, ?_, ?_⟩
  · rw [ciPrefixB_append_right true p u post (by omega)]; exact hp
  · rw [hd]
    cases hb : u.drop p.length with
    | nil =>
      have := congrArg List.length hb
      rw [List.length_drop] at this
      simp at this
      omega
    | cons c cs =>
      rw [hb] at hbody
      simp only [List.all_cons, Bool.and_eq_true] at hbody
      simp [hbody.1]
  · rw [hd]
    exact dropWhile_append_all _ _ _ hbody hpost
theorem isUrlTokenChar_fun : isUrlTokenChar = fun c => !isTokenDelim c :=
  funext isUrlTokenChar_eq

theorem delim_iff (c : Char) : isUrlTokenChar c = false ↔ isTokenDelim c = true := by
  rw [isUrlTokenChar_eq]
  cases isTokenDelim c <;> simp

theorem tokenRest_some (s rest : Str) (h : tokenRest s = some rest) :
    ∃ tok, s = tok ++ rest ∧ isUrlToken tok = true ∧
      ∀ c ∈ rest.head?, isTokenDelim c = true := by
  have l8 : "https://".toList.length = 8 := by decide
  have l7 : "http://".toList.length = 7 := by decide
  unfold tokenRest at h
  split at h
  · rename_i hp
    split at h
    · rename_i hh
      injection h with h
      rw [← l8] at hh h
      obtain ⟨e1, e2, e3, e4, e5⟩ := token_of_rest _ s hp scheme_chars_https hh
      rw [h] at e1 e5
      generalize List.take _ s ++ List.takeWhile isUrlTokenChar _ = tok at e1 e2 e3 e4
      refine ⟨tok, e1, ?_, fun c hc => (delim_iff c).mp (e5 c hc)⟩
      unfold isUrlToken
      rw [← isUrlTokenChar_fun, e4, e2]
      rw [l8] at e3
      simp [e3]
    · exact absurd h (by simp)
  · split at h
    · rename_i hp
      split at h
      · rename_i hh
        injection h with h
        rw [← l7] at hh h
        obtain ⟨e1, e2, e3, e4, e5⟩ := token_of_rest _ s hp scheme_chars_http hh
        rw [h] at e1 e5
        generalize List.take _ s ++ List.takeWhile isUrlTokenChar _ = tok at e1 e2 e3 e4
        refine ⟨tok, e1, ?_, fun c hc => (delim_iff c).mp (e5 c hc)⟩
        unfold isUrlToken
        rw [← isUrlTokenChar_fun, e4, e2]
        rw [l7] at e3
        simp [e3]
      · exact absurd h (by simp)
    · exact absurd h (by simp)

theorem tokenRest_of_token (u post : Str) (hu : isUrlToken u = true)
    (hpost : ∀ c ∈ post.head?, isTokenDelim c = true) : tokenRest (u ++ post) = some post := by
  have l8 : "https://".toList.length = 8 := by decide
  have l7 : "http://".toList.length = 7 := by decide
  have hpost' : ∀ c ∈ post.head?, isUrlTokenChar c = false :=
    fun c hc => (delim_iff c).mpr (hpost c hc)
  unfold isUrlToken at hu
  rw [← isUrlTokenChar_fun] at hu
  simp only [Bool.and_eq_true, Bool.or_eq_true, decide_eq_true_eq] at hu
  obtain ⟨hs, hall⟩ := hu
  unfold tokenRest
  rcases hs with ⟨hp, hl⟩ | ⟨hp, hl⟩
  · obtain ⟨e1, e2, e3⟩ := rest_of_token _ u post hp (by rw [l8]; exact hl) hall hpost'
    rw [l8] at e2 e3
    rw [if_pos e1, if_pos e2, e3]
  · obtain ⟨e1, e2, e3⟩ := rest_of_token _ u post hp (by rw [l7]; exact hl) hall hpost'
    rw [l7] at e2 e3
    have hn : ¬ ciPrefixB true "https://".toList (u ++ post) = true := by
      intro h8
      have := https_not_http true _ h8
      rw [e1] at this
      exact absurd this (by simp)
    rw [if_neg hn, if_pos e1, if_pos e2, e3]
theorem token_no_delim (u : Str) (h : isUrlToken u = true) :
    ∀ c ∈ u, isTokenDelim c = false := by
  unfold isUrlToken at h
  simp only [Bool.and_eq_true, List.all_eq_true, Bool.not_eq_true'] at h
  exact h.2

theorem token_length (u : Str) (h : isUrlToken u = true) : 7 < u.length := by
  unfold isUrlToken at h
  simp only [Bool.and_eq_true, Bool.or_eq_true, decide_eq_true_eq] at h
  rcases h.1 with ⟨-, h⟩ | ⟨-, h⟩ <;> omega

theorem tokenAt_zero (s u : Str) :
    TokenAt s 0 u ↔ ∃ post, s = u ++ post ∧ isUrlToken u = true ∧
      ∀ c ∈ post.head?, isTokenDelim c = true := by
  constructor
  · rintro ⟨pre, post, h1, h2, h3, h4⟩
    have : pre = [] := List.length_eq_zero.mp h2
    subst this
    exact ⟨post, by simpa using h1, h3, h4⟩
  · rintro ⟨post, h1, h3, h4⟩
    exact ⟨[], post, by simpa using h1, rfl, h3, h4⟩

theorem tokenAt_succ (c : Char) (cs : Str) (j : Nat) (u : Str) :
    TokenAt (c :: cs) (j + 1) u ↔ TokenAt cs j u := by
  constructor
  · rintro ⟨pre, post, h1, h2, h3, h4⟩
    cases pre with
    | nil => simp at h2
    | cons x pre =>
      simp only [List.cons_append, List.cons.injEq] at h1
      exact ⟨pre, post, h1.2, by simpa using h2, h3, h4⟩
  · rintro ⟨pre, post, h1, h2, h3, h4⟩
    exact ⟨c :: pre, post, by rw [h1]; simp, by simp [h2], h3, h4⟩

theorem tokenAt_shift (a s : Str) (j : Nat) (u : Str) :
    TokenAt (a ++ s) (a.length + j) u ↔ TokenAt s j u := by
  induction a with
  | nil => simp
  | cons x a ih =>
    rw [List.cons_append, List.length_cons,
      show a.length + 1 + j = (a.length + j) + 1 by omega, tokenAt_succ]
    exact ih

theorem tokenAt_zero_rest (s u : Str) (h : TokenAt s 0 u) :
    ∃ post, s = u ++ post ∧ tokenRest s = some post := by
  obtain ⟨post, h1, h3, h4⟩ := (tokenAt_zero s u).mp h
  exact ⟨post, h1, by rw [h1]; exact tokenRest_of_token u post h3 h4⟩

theorem tokenRest_tokenAt (s rest : Str) (h : tokenRest s = some rest) :
    ∃ tok, s = tok ++ rest ∧ TokenAt s 0 tok ∧ s.take (s.length - rest.length) = tok ∧
      rest.length < s.length := by
  obtain ⟨tok, h1, h2, h3⟩ := tokenRest_some s rest h
  have hl := token_length tok h2
  refine ⟨tok, h1, (tokenAt_zero s tok).mpr ⟨rest, h1, h2, h3⟩, ?_, ?_⟩
  · rw [h1, List.length_append, Nat.add_sub_cancel, List.take_left']
    rfl
  · rw [h1, List.length_append]; omega

theorem tokenAt_inside (s tok u : Str) (j : Nat) (h0 : TokenAt s 0 tok) (hj : TokenAt s j u)
    (hlt : j ≤ tok.length) : j + u.length ≤ tok.length := by
  by_contra hcon
  obtain ⟨rest, h1, -, h4⟩ := (tokenAt_zero s tok).mp h0
  obtain ⟨pre, post, g1, g2, g3, -⟩ := hj
  have hlen : tok.length < s.length := by
    rw [g1]; simp only [List.length_append]; omega
  have hr : ∃ d ds, rest = d :: ds := by
    cases rest with
    | nil => rw [h1] at hlen; simp at hlen
    | cons d ds => exact ⟨d, ds, rfl⟩
  obtain ⟨d, ds, hr⟩ := hr
  have hd : isTokenDelim d = true := h4 d (by rw [hr]; rfl)
  have e1 : s[tok.length]? = some d := by
    rw [h1, List.getElem?_append_right (Nat.le_refl _), hr]
    simp
  have e2 : s[tok.length]? = u[tok.length - pre.length]? := by
    rw [g1, List.getElem?_append_left (by simp only [List.length_append]; omega),
      List.getElem?_append_right (by omega)]
  rw [e2] at e1
  have := token_no_delim u g3 d (List.getElem?_mem e1)
  rw [hd] at this
  exact absurd this (by simp)
theorem exec_reUrlToken_nil : Re.exec true reUrlToken [] = none := by
  rw [Re.exec, matchHere_reUrlToken]
  rfl

theorem exec_reUrlToken_cons (c : Char) (cs : Str) :
    Re.exec true reUrlToken (c :: cs) =
      match tokenRest (c :: cs) with
      | some rest => some ((c :: cs).take ((c :: cs).length - rest.length), rest, [])
      | none => Re.exec true reUrlToken cs := by
  rw [Re.exec, matchHere_reUrlToken]
  cases tokenRest (c :: cs) <;> rfl

theorem exec_rest_lt (s m rest : Str) (caps : List Str)
    (h : Re.exec true reUrlToken s = some (m, rest, caps)) : rest.length < s.length := by
  induction s with
  | nil => rw [exec_reUrlToken_nil] at h; exact absurd h (by simp)
  | cons c cs ih =>
    rw [exec_reUrlToken_cons] at h
    cases ht : tokenRest (c :: cs) with
    | some r =>
      rw [ht] at h
      simp only [Option.some.injEq, Prod.mk.injEq] at h
      obtain ⟨-, -, -, -, hl⟩ := tokenRest_tokenAt _ _ ht
      rw [← h.2.1]; exact hl
    | none =>
      rw [ht] at h
      have := ih h
      simp only [List.length_cons]
      omega

/-- The fuel of the scan does not matter once it exceeds the length of the input: with
`length + 1` rounds the loop of `match` runs to its end. -/
theorem matchAllFuel_enough (f f2 : Nat) (s : Str) (h1 : s.length < f) (h2 : s.length < f2) :
    Re.matchAllFuel true reUrlToken f s = Re.matchAllFuel true reUrlToken f2 s := by
  induction f generalizing s f2 with
  | zero => omega
  | succ f ih =>
    cases f2 with
    | zero => omega
    | succ f2 =>
      unfold Re.matchAllFuel
      cases he : Re.exec true reUrlToken s with
      | none => rfl
      | some v =>
        obtain ⟨m, rest, caps⟩ := v
        have := exec_rest_lt s m rest caps he
        simp only []
        rw [ih f2 rest (by omega) (by omega)]

theorem matchAll_nil : Re.matchAll true reUrlToken [] = [] := by
  unfold Re.matchAll Re.matchAllFuel
  rw [exec_reUrlToken_nil]

theorem matchAll_cons_some (c : Char) (cs rest : Str) (h : tokenRest (c :: cs) = some rest) :
    Re.matchAll true reUrlToken (c :: cs) =
      (c :: cs).take ((c :: cs).length - rest.length) :: Re.matchAll true reUrlToken rest := by
  obtain ⟨-, -, -, -, hl⟩ := tokenRest_tokenAt _ _ h
  unfold Re.matchAll
  rw [Re.matchAllFuel, exec_reUrlToken_cons, h]
  simp only []
  rw [matchAllFuel_enough (c :: cs).length (rest.length + 1) rest hl (by omega)]

theorem matchAll_cons_none (c : Char) (cs : Str) (h : tokenRest (c :: cs) = none) :
    Re.matchAll true reUrlToken (c :: cs) = Re.matchAll true reUrlToken cs := by
  unfold Re.matchAll
  rw [Re.matchAllFuel, exec_reUrlToken_cons, h]
  simp only []
  cases he : Re.exec true reUrlToken cs with
  | none =>
    rw [Re.matchAllFuel, he]
  | some v =>
    obtain ⟨m, rest, caps⟩ := v
    have := exec_rest_lt cs m rest caps he
    rw [Re.matchAllFuel, he]
    simp only []
    rw [matchAllFuel_enough (c :: cs).length cs.length rest (by simp; omega) this]
theorem tokenAt_nil (i : Nat) (u : Str) : ¬ TokenAt [] i u := by
  rintro ⟨pre, post, h1, -, h3, -⟩
  have hl := token_length u h3
  have := congrArg List.length h1
  simp only [List.length_nil, List.length_append] at this
  omega

theorem mem_matchAll_iff (n : Nat) (s : Str) (hn : s.length ≤ n) (u : Str) :
    u ∈ Re.matchAll true reUrlToken s ↔ ∃ i, ScannedTokenAt s i u := by
  induction n generalizing s u with
  | zero =>
    have : s = [] := List.length_eq_zero.mp (Nat.le_zero.mp hn)
    subst this
    rw [matchAll_nil]
    constructor
    · intro h; exact absurd h (List.not_mem_nil _)
    · rintro ⟨i, h, -⟩; exact absurd h (tokenAt_nil i u)
  | succ n ih =>
    cases s with
    | nil =>
      rw [matchAll_nil]
      constructor
      · intro h; exact absurd h (List.not_mem_nil _)
      · rintro ⟨i, h, -⟩; exact absurd h (tokenAt_nil i u)
    | cons c cs =>
      cases ht : tokenRest (c :: cs) with
      | some rest =>
        obtain ⟨tok, h1, h0, htake, hl⟩ := tokenRest_tokenAt _ _ ht
        rw [matchAll_cons_some c cs rest ht, htake, List.mem_cons]
        have hrn : rest.length ≤ n := by
          simp only [List.length_cons] at hl hn
          omega
        constructor
        · rintro (h | h)
          · subst h
            exact ⟨0, h0, fun j u2 hj _ => absurd hj (Nat.not_lt_zero j)⟩
          · obtain ⟨i, hi, hleft⟩ := (ih rest hrn u).mp h
            refine ⟨tok.length + i, ?_, ?_⟩
            · rw [h1]; exact (tokenAt_shift tok rest i u).mpr hi
            · intro j u2 hj hju
              by_cases hjt : j < tok.length
              · have := tokenAt_inside _ tok u2 j h0 hju (Nat.le_of_lt hjt)
                omega
              · obtain ⟨j2, rfl⟩ : ∃ j2, j = tok.length + j2 := ⟨j - tok.length, by omega⟩
                rw [h1] at hju
                have := hleft j2 u2 (by omega) ((tokenAt_shift tok rest j2 u2).mp hju)
                omega
        · rintro ⟨i, hi, hleft⟩
          cases i with
          | zero =>
            left
            obtain ⟨post, e1, e2⟩ := tokenAt_zero_rest _ u hi
            rw [ht] at e2
            injection e2 with e2
            subst e2
            rw [h1] at e1
            exact (List.append_cancel_right e1).symm
          | succ i =>
            right
            have hti : tok.length ≤ i + 1 := by
              have := hleft 0 tok (Nat.succ_pos i) h0
              omega
            obtain ⟨i2, hi2⟩ : ∃ i2, i + 1 = tok.length + i2 := ⟨i + 1 - tok.length, by omega⟩
            rw [hi2] at hi hleft
            rw [h1] at hi
            refine (ih rest hrn u).mpr ⟨i2, (tokenAt_shift tok rest i2 u).mp hi, ?_⟩
            intro j u2 hj hju
            have := hleft (tok.length + j) u2 (by omega)
              (by rw [h1]; exact (tokenAt_shift tok rest j u2).mpr hju)
            omega
      | none =>
        rw [matchAll_cons_none c cs ht]
        have hcn : cs.length ≤ n := by simpa using hn
        have hno : ∀ u2, ¬ TokenAt (c :: cs) 0 u2 := by
          intro u2 h
          obtain ⟨post, -, e2⟩ := tokenAt_zero_rest _ u2 h
          rw [ht] at e2
          exact absurd e2 (by simp)
        constructor
        · intro h
          obtain ⟨i, hi, hleft⟩ := (ih cs hcn u).mp h
          refine ⟨i + 1, (tokenAt_succ c cs i u).mpr hi, ?_⟩
          intro j u2 hj hju
          cases j with
          | zero => exact absurd hju (hno u2)
          | succ j =>
            have := hleft j u2 (by omega) ((tokenAt_succ c cs j u2).mp hju)
            omega
        · rintro ⟨i, hi, hleft⟩
          cases i with
          | zero => exact absurd hi (hno u)
          | succ i =>
            refine (ih cs hcn u).mpr ⟨i, (tokenAt_succ c cs i u).mp hi, ?_⟩
            intro j u2 hj hju
            have := hleft (j + 1) u2 (by omega) ((tokenAt_succ c cs j u2).mpr hju)
            omega
theorem mem_jsSetToArray (l : List Str) (y : Str) : y ∈ jsSetToArray l ↔ y ∈ l := by
  induction l with
  | nil => rfl
  | cons x xs ih =>
    unfold jsSetToArray
    simp only [List.mem_cons, List.mem_filter, ih, decide_eq_true_eq]
    constructor
    · rintro (h | ⟨h, -⟩)
      · exact Or.inl h
      · exact Or.inr h
    · rintro (h | h)
      · exact Or.inl h
      · by_cases e : y = x
        · exact Or.inl e
        · exact Or.inr ⟨h, e⟩

theorem nodup_jsSetToArray (l : List Str) : (jsSetToArray l).Nodup := by
  induction l with
  | nil => exact List.nodup_nil
  | cons x xs ih =>
    unfold jsSetToArray
    rw [List.nodup_cons]
    refine ⟨?_, List.Nodup.filter _ ih⟩
    intro h
    have := (List.mem_filter.mp h).2
    simp at this

/-- Claim C10, as the code has it. The result has no duplicates, and its members are
exactly the tokens reported by a leftmost, non-overlapping scan of the text: a token starts
with `http://` or `https://` in any case of letters, goes on with at least one more
character, holds no white space, quote, angle bracket or closing parenthesis, and ends
right before such a delimiter or at the end of the text; a token that begins inside an
earlier token is not reported. For the empty string and for a value that is not a string
the result is empty. -/
theorem extractUrlsFromHtml_tokens (text : Str) :
    (extractUrlsFromHtml (.str text)).Nodup ∧
    (∀ u, u ∈ extractUrlsFromHtml (.str text) ↔ ∃ i, ScannedTokenAt text i u) ∧
    extractUrlsFromHtml (.str []) = [] ∧ extractUrlsFromHtml .undefined = [] ∧
    extractUrlsFromHtml .null = [] ∧ ∀ n, extractUrlsFromHtml (.num n) = [] := by
  refine ⟨?_, ?_, rfl, rfl, rfl, fun _ => rfl⟩
  · unfold extractUrlsFromHtml
    simp only []
    split
    · exact List.nodup_nil
    · exact nodup_jsSetToArray _
  · intro u
    cases text with
    | nil =>
      constructor
      · intro h; exact absurd h (List.not_mem_nil _)
      · rintro ⟨i, h, -⟩; exact absurd h (tokenAt_nil i u)
    | cons c cs =>
      have : extractUrlsFromHtml (.str (c :: cs)) =
          jsSetToArray (Re.matchAll true reUrlToken (c :: cs)) := rfl
      rw [this, mem_jsSetToArray]
      exact mem_matchAll_iff _ _ (Nat.le_refl _) u

/-- Claim C10 fails as stated: a closing parenthesis ends the token too, so the token of
`(http://a/b.png) x` is `http://a/b.png` and not the text up to the blank. -/
theorem extractUrlsFromHtml_counterexample :
    extractUrlsFromHtml (.str "(http://a/b.png) x".toList) = ["http://a/b.png".toList] ∧
    "http://a/b.png)".toList ∉ extractUrlsFromHtml (.str "(http://a/b.png) x".toList) := by
  decide
end ShopServer
